import Mathlib

/-!
Verification of the i18n translation pipeline (`scripts/i18n_tool.py`).

This file gives a shallow embedding, in Lean 4, of the pure core of the
translation tool: the placeholder regex masking/unmasking, protected-term
masking, the translation-memory merge engine of `translate_tree`, the retry
loop of `call_openai_batch` and the single-threaded drain loop, the
key-pattern cleaner, the path tokenizer and the path-aware sort.  Strings are
modelled as Lean `String`s (lists of characters); Python `dict`s (which are
insertion ordered, with in-place update on existing keys) are modelled as
association lists with an insert-or-update operation; functions that can
raise are modelled in `Except`/`Option`.

Each claim about the program is settled by a theorem below the definitions.
-/

namespace I18n

/- ===================== Python string primitives ===================== -/

/-- Whitespace characters stripped by Python's `str.strip()` (ASCII range). -/
def pyWs (c : Char) : Bool :=
  c = ' ' ∨ c = '\t' ∨ c = '\n' ∨ c = '\r' ∨ c = '\x0b' ∨ c = '\x0c'

/-- `str.strip()` on a character list. -/
def pyStripC (cs : List Char) : List Char :=
  ((cs.dropWhile pyWs).reverse.dropWhile pyWs).reverse

/-- `str.strip()` on a `String`. -/
def pyStrip (s : String) : String :=
  ⟨pyStripC s.data⟩

/-- ASCII decimal digit test (`\d` of the regexes, used by `int(...)`). -/
def isDigitC (c : Char) : Bool :=
  '0' ≤ c ∧ c ≤ '9'

/-- Numeric value of an ASCII digit character. -/
def dval (c : Char) : ℕ := c.toNat - 48

/-- Does `pat` occur at the start of `hay`? (Bool, by character equality.) -/
def isPrefC : List Char → List Char → Bool
  | [], _ => true
  | _ :: _, [] => false
  | p :: ps, c :: cs => p = c && isPrefC ps cs

/-- Does `pat` occur anywhere inside `hay` (Python's `pat in hay`)? -/
def containsSub (hay pat : List Char) : Bool :=
  match hay with
  | [] => isPrefC pat []
  | _ :: rest => isPrefC pat hay || containsSub rest pat

/-- Fueled worker for `replaceAll`; the fuel argument only forces structural
recursion and is always called with enough fuel (the input length). -/
def replaceF (pat rep : List Char) : ℕ → List Char → List Char
  | _, [] => []
  | 0, c :: rest => c :: rest
  | fuel + 1, c :: rest =>
    if pat ≠ [] ∧ isPrefC pat (c :: rest) then
      rep ++ replaceF pat rep fuel ((c :: rest).drop pat.length)
    else
      c :: replaceF pat rep fuel rest

/-- Python `str.replace(pat, rep)`: replace every non-overlapping occurrence,
scanning left to right.  (For empty `pat` the scan just copies, which is all
the uses below need: the tool only ever replaces nonempty tokens.) -/
def replaceAll (pat rep cs : List Char) : List Char :=
  replaceF pat rep cs.length cs

/- ===================== Ordered dictionaries ===================== -/

/-- Key membership (`k in d`). -/
def dHas : List (String × α) → String → Bool
  | [], _ => false
  | e :: d, k => e.1 = k || dHas d k

/-- Lookup (`d.get(k)` / `d[k]`); dictionaries built below have unique keys,
so first match is the match. -/
def dGet : List (String × α) → String → Option α
  | [], _ => none
  | e :: d, k => if e.1 = k then some e.2 else dGet d k

/-- Python `d[k] = v`: update in place if the key is present (keeping its
position), else append at the end. -/
def dIns (d : List (String × α)) (k : String) (v : α) : List (String × α) :=
  if dHas d k then d.map (fun e => if e.1 = k then (k, v) else e)
  else d ++ [(k, v)]

/-- Build a dict from a pair list (`{k: v for k, v in pairs}`): first
occurrence fixes the position, last occurrence fixes the value. -/
def dOf (pairs : List (String × α)) : List (String × α) :=
  pairs.foldl (fun d e => dIns d e.1 e.2) []

/-- The keys of an association list, in order. -/
def keysOf (d : List (String × α)) : List String :=
  d.map Prod.fst

/-- All keys distinct. -/
def NodupKeys (d : List (String × α)) : Prop :=
  (keysOf d).Nodup

/- ===================== The placeholder regex ===================== -/

/-!
`_PLACEHOLDER_RE = (%\d*\$?[sd]|%\d*\.?\d*[df]|%@|{[^{}]+}|{[0-9]+}|{{[^{}]+}}|<\/?[^>]+>)`

Python's `re` scans left to right; at each position the alternatives are
tried in order, each with greedy sub-parts.  Since every quantified class in
this pattern is disjoint from the character required next (`\d*` cannot eat
`s`/`d`/`$`/`.`, `[^{}]+` cannot eat `}`, `[^>]+` cannot eat `>`), each
alternative is deterministic except for the optional `\/` in the tag
alternative, which backtracks.  The functions below implement exactly that.
Each alternative function receives the input after the leading literal
character and returns `(whole match, remaining input)`.
-/

/-- Not `{` and not `}` (the class `[^{}]`). -/
def nonBrace (c : Char) : Bool :=
  ¬ (c = '\x7b' ∨ c = '\x7d')

/-- Not `>` (the class `[^>]`). -/
def nonGt (c : Char) : Bool :=
  ¬ (c = '>')

/-- Alternative `%\d*\$?[sd]`, at a `'%'`. -/
def pctAlt1 (rest : List Char) : Option (List Char × List Char) :=
  match rest.dropWhile isDigitC with
  | '$' :: x :: r =>
      if x = 's' ∨ x = 'd' then some ('%' :: rest.takeWhile isDigitC ++ ['$', x], r)
      else none
  | x :: r =>
      if x = 's' ∨ x = 'd' then some ('%' :: rest.takeWhile isDigitC ++ [x], r)
      else none
  | [] => none

/-- Alternative `%\d*\.?\d*[df]`, at a `'%'`. -/
def pctAlt2 (rest : List Char) : Option (List Char × List Char) :=
  match rest.dropWhile isDigitC with
  | '.' :: r2 =>
      match r2.dropWhile isDigitC with
      | x :: r =>
          if x = 'd' ∨ x = 'f' then
            some ('%' :: rest.takeWhile isDigitC ++ '.' :: r2.takeWhile isDigitC ++ [x], r)
          else none
      | [] => none
  | x :: r =>
      if x = 'd' ∨ x = 'f' then some ('%' :: rest.takeWhile isDigitC ++ [x], r)
      else none
  | [] => none

/-- Alternative `%@`, at a `'%'`. -/
def pctAlt3 (rest : List Char) : Option (List Char × List Char) :=
  match rest with
  | '@' :: r => some (['%', '@'], r)
  | _ => none

/-- Alternative `{[^{}]+}`, at a `'{'`. -/
def braceAlt4 (rest : List Char) : Option (List Char × List Char) :=
  match rest.dropWhile nonBrace with
  | '\x7d' :: r =>
      if rest.takeWhile nonBrace ≠ [] then
        some ('\x7b' :: rest.takeWhile nonBrace ++ ['\x7d'], r)
      else none
  | _ => none

/-- Alternative `{[0-9]+}`, at a `'{'` (subsumed by the previous one, kept
for fidelity). -/
def braceAlt5 (rest : List Char) : Option (List Char × List Char) :=
  match rest.dropWhile isDigitC with
  | '\x7d' :: r =>
      if rest.takeWhile isDigitC ≠ [] then
        some ('\x7b' :: rest.takeWhile isDigitC ++ ['\x7d'], r)
      else none
  | _ => none

/-- Alternative `{{[^{}]+}}`, at a `'{'`. -/
def braceAlt6 (rest : List Char) : Option (List Char × List Char) :=
  match rest with
  | '\x7b' :: r1 =>
      match r1.dropWhile nonBrace with
      | '\x7d' :: '\x7d' :: r =>
          if r1.takeWhile nonBrace ≠ [] then
            some ('\x7b' :: '\x7b' :: r1.takeWhile nonBrace ++ ['\x7d', '\x7d'], r)
          else none
      | _ => none
  | _ => none

/-- Alternative `<\/?[^>]+>` with the `/` consumed, at a `'<'`. -/
def angleSlash (rest : List Char) : Option (List Char × List Char) :=
  match rest with
  | '/' :: r1 =>
      match r1.dropWhile nonGt with
      | '>' :: r =>
          if r1.takeWhile nonGt ≠ [] then
            some ('<' :: '/' :: r1.takeWhile nonGt ++ ['>'], r)
          else none
      | _ => none
  | _ => none

/-- Alternative `<\/?[^>]+>` with the optional `/` not taken, at a `'<'`. -/
def angleNoSlash (rest : List Char) : Option (List Char × List Char) :=
  match rest.dropWhile nonGt with
  | '>' :: r =>
      if rest.takeWhile nonGt ≠ [] then
        some ('<' :: rest.takeWhile nonGt ++ ['>'], r)
      else none
  | _ => none

/-- The tag alternative: greedy `\/?` with backtracking. -/
def angleAlt (rest : List Char) : Option (List Char × List Char) :=
  match angleSlash rest with
  | some v => some v
  | none => angleNoSlash rest

/-- One attempt of `_PLACEHOLDER_RE` at the position starting with `c`;
returns the match and the rest of the input.  Every alternative starts with
`%`, `{` or `<`, so other characters fail immediately. -/
def matchTok (c : Char) (rest : List Char) : Option (List Char × List Char) :=
  if c = '%' then
    match pctAlt1 rest with
    | some v => some v
    | none =>
      match pctAlt2 rest with
      | some v => some v
      | none => pctAlt3 rest
  else if c = '\x7b' then
    match braceAlt4 rest with
    | some v => some v
    | none =>
      match braceAlt5 rest with
      | some v => some v
      | none => braceAlt6 rest
  else if c = '<' then angleAlt rest
  else none

/- ===================== Regex scanners ===================== -/

/-- Fueled worker for `extractM` (fuel is a termination artifact). -/
def extractF : ℕ → List Char → List (List Char)
  | _, [] => []
  | 0, _ :: _ => []
  | fuel + 1, c :: rest =>
    match matchTok c rest with
    | some mr => mr.1 :: extractF fuel mr.2
    | none => extractF fuel rest

/-- `_PLACEHOLDER_RE.findall`: scan left to right collecting matches. -/
def extractM (cs : List Char) : List (List Char) :=
  extractF cs.length cs

/-- A piece of a scanned string: a literal character, or the `n`-th
placeholder match (with its original text). -/
inductive MPiece
  | ch (c : Char)
  | ph (n : ℕ) (orig : List Char)
deriving DecidableEq

/-- Fueled worker for `scanPieces`. -/
def scanF : ℕ → List Char → ℕ → List MPiece
  | _, [], _ => []
  | 0, _ :: _, _ => []
  | fuel + 1, c :: rest, idx =>
    match matchTok c rest with
    | some mr => .ph idx mr.1 :: scanF fuel mr.2 (idx + 1)
    | none => .ch c :: scanF fuel rest idx

/-- The scan underlying `_PLACEHOLDER_RE.sub(repl, text)` in
`mask_placeholders`: the result decomposes the input into literal characters
and numbered matches. -/
def scanPieces (cs : List Char) (idx : ℕ) : List MPiece :=
  scanF cs.length cs idx

/-- Fueled worker for `repairScan`. -/
def repairF : ℕ → List Char → List (List Char) → List Char
  | _, [], _ => []
  | 0, _ :: _, _ => []
  | fuel + 1, c :: rest, phs =>
    match matchTok c rest with
    | some mr => phs.headD mr.1 ++ repairF fuel mr.2 phs.tail
    | none => c :: repairF fuel rest phs

/-- `_PLACEHOLDER_RE.sub(repl, unmasked)` with
`repl = lambda m: next(it, m.group(0))`: the `i`-th match is replaced by the
`i`-th element of `phs`; once `phs` is exhausted matches are kept. -/
def repairScan (cs : List Char) (phs : List (List Char)) : List Char :=
  repairF cs.length cs phs

/- ===================== Masking tokens and source functions ===================== -/

/-- The character of a decimal digit value. -/
def digitChar : ℕ → Char
  | 0 => '0'
  | 1 => '1'
  | 2 => '2'
  | 3 => '3'
  | 4 => '4'
  | 5 => '5'
  | 6 => '6'
  | 7 => '7'
  | 8 => '8'
  | 9 => '9'
  | _ => '9'

/-- Fueled worker producing the decimal digits of `n` (most significant
first); fuel is a termination artifact, `n` itself is always enough. -/
def natDigitsGo : ℕ → ℕ → List Char
  | _, 0 => []
  | 0, _ + 1 => []
  | fuel + 1, n + 1 => natDigitsGo fuel ((n + 1) / 10) ++ [digitChar ((n + 1) % 10)]

/-- Python `str(n)` for a natural number, as characters. -/
def natDigitsC (n : ℕ) : List Char :=
  if n = 0 then ['0'] else natDigitsGo n n

/-- Decimal value of a digit string (a left inverse to `natDigitsC`). -/
def valOfDigits (ds : List Char) : ℕ :=
  ds.foldl (fun a c => a * 10 + dval c) 0

/-- The masking token `__PH<n>__` of `mask_placeholders`. -/
def tokChars (n : ℕ) : List Char :=
  '_' :: '_' :: 'P' :: 'H' :: natDigitsC n ++ ['_', '_']

/-- The masking token `__TERM<n>__` of `mask_protected_terms`. -/
def termTok (n : ℕ) : List Char :=
  '_' :: '_' :: 'T' :: 'E' :: 'R' :: 'M' :: natDigitsC n ++ ['_', '_']

/-- Render the scanned pieces with each match replaced by its token: the
masked text produced by `_PLACEHOLDER_RE.sub(repl, text)`. -/
def renderM : List MPiece → List Char
  | [] => []
  | .ch c :: ps => c :: renderM ps
  | .ph n _ :: ps => tokChars n ++ renderM ps

/-- Render the scanned pieces with each match kept: recovers the input. -/
def origM : List MPiece → List Char
  | [] => []
  | .ch c :: ps => c :: origM ps
  | .ph _ o :: ps => o ++ origM ps

/-- The `mapping` dict built by `mask_placeholders`: token to original, in
match order. -/
def mappingM : List MPiece → List (String × String)
  | [] => []
  | .ch _ :: ps => mappingM ps
  | .ph n o :: ps => (⟨tokChars n⟩, ⟨o⟩) :: mappingM ps

/-- `extract_placeholders(s) = _PLACEHOLDER_RE.findall(s or "")`. -/
def extract_placeholders (s : String) : List String :=
  (extractM s.data).map (fun m => ⟨m⟩)

/-- `placeholders_equal(src, tgt)`. -/
def placeholders_equal (src tgt : String) : Bool :=
  extract_placeholders src == extract_placeholders tgt

/-- `mask_placeholders(text)`: replace each match, left to right, with the
sequential token `__PH<n>__`, recording the reverse mapping. -/
def mask_placeholders (s : String) : String × List (String × String) :=
  (⟨renderM (scanPieces s.data 0)⟩, mappingM (scanPieces s.data 0))

/-- `unmask_placeholders(text, mapping)`: literal replacement of every
recorded token, in mapping (insertion) order. -/
def unmask_placeholders (t : String) (mp : List (String × String)) : String :=
  mp.foldl (fun acc kv => ⟨replaceAll kv.1.data kv.2.data acc.data⟩) t

/-- `mask_protected_terms(text, terms)`: each term occurring in the running
text is replaced by `__TERM<idx>__` with a fresh index, recording the
reverse mapping. -/
def mask_protected_terms (text : String) (terms : List String) :
    String × List (String × String) :=
  if text = "" ∨ terms = [] then (text, [])
  else
    let st := terms.foldl
      (fun (st : String × (List (String × String) × ℕ)) term =>
        if term = "" then st
        else if containsSub st.1.data term.data then
          (⟨replaceAll term.data (termTok st.2.2) st.1.data⟩,
            st.2.1 ++ [(⟨termTok st.2.2⟩, term)], st.2.2 + 1)
        else st)
      (text, ([], 0))
    (st.1, st.2.1)

/-- `unmask_protected_terms(text, mapping)`. -/
def unmask_protected_terms (t : String) (mp : List (String × String)) : String :=
  if t = "" ∨ mp = [] then t
  else mp.foldl (fun acc kv => ⟨replaceAll kv.1.data kv.2.data acc.data⟩) t

/-- Python `str.lower()` (ASCII). -/
def pyLower (s : String) : String :=
  ⟨s.data.map Char.toLower⟩

/-- `is_zh(code)`. -/
def is_zh (code : String) : Bool :=
  isPrefC ['z', 'h'] (pyLower code).data

/-- `is_cjk(code)`. -/
def is_cjk (code : String) : Bool :=
  isPrefC ['z', 'h'] (pyLower code).data || isPrefC ['j', 'a'] (pyLower code).data ||
    isPrefC ['k', 'o'] (pyLower code).data

/-- Membership in `_CJK_RE` (CJK ideographs and the compatibility block). -/
def isCJKChar (c : Char) : Bool :=
  (0x3400 ≤ c.toNat ∧ c.toNat ≤ 0x9FFF) ∨ (0xF900 ≤ c.toNat ∧ c.toNat ≤ 0xFAFF)

/-- `ensure_no_cjk_when_forbidden(text, tgt_locale)`. -/
def ensure_no_cjk_when_forbidden (text tgt : String) : String :=
  if text = "" then text
  else if is_cjk tgt then text
  else pyStrip ⟨text.data.filter (fun c => ¬ isCJKChar c)⟩

/-- `cache_key(src_lang, tgt_lang, text)`. -/
def cache_key (srcLang tgtLang text : String) : String :=
  srcLang ++ "|||" ++ tgtLang ++ "|||" ++ text

/- ===================== Deletion by key pattern ===================== -/

/-- Does `suf` occur at the end of `cs`? -/
def isSuffC (suf cs : List Char) : Bool :=
  isPrefC suf.reverse cs.reverse

/-- Python `raw.split(",")` on characters. -/
def splitCommaC : List Char → List (List Char)
  | [] => [[]]
  | ',' :: r => [] :: splitCommaC r
  | c :: r =>
    match splitCommaC r with
    | [] => [[c]]
    | g :: gs => (c :: g) :: gs

/-- `normalize_key_patterns(raw)`: split on commas, strip, drop empties; a
pattern ending in `.*`, `.` or `*` becomes a prefix pattern (marker
stripped), anything else an exact pattern. -/
def normalize_key_patterns (raw : String) : List (String × Bool) :=
  ((splitCommaC raw.data).map (fun x => pyStripC x)).filterMap (fun x =>
    if x = [] then none
    else if isSuffC ['.', '*'] x then some (⟨x.take (x.length - 2)⟩, true)
    else if isSuffC ['.'] x then some (⟨x.take (x.length - 1)⟩, true)
    else if isSuffC ['*'] x then some (⟨x.take (x.length - 1)⟩, true)
    else some (⟨x⟩, false))

/-- `should_remove(path, patterns)`. -/
def should_remove (path : String) (patterns : List (String × Bool)) : Bool :=
  patterns.any (fun pb =>
    if pb.2 then
      path = pb.1 || isPrefC (pb.1 ++ ".").data path.data ||
        isPrefC (pb.1 ++ "[").data path.data
    else path = pb.1)

/-- The per-file body of `clean_translations_by_key`: keep the non-matching
pairs in order (the file is then rewritten from the kept pairs). -/
def cleanFlat (flat : List (String × α)) (patterns : List (String × Bool)) :
    List (String × α) :=
  flat.filter (fun pv => ¬ should_remove pv.1 patterns)

/-- `BASE` of the tool. -/
def BASE : String := "zh-hans"

/-- `code_to_filename(code)`. -/
def code_to_filename (code : String) : String :=
  pyLower (pyStrip code) ++ ".json"

/-- `clean_translations_by_key` over the locale directory, modelled as a
named list of flattened files: the base file is skipped (it is excluded from
the glob list), every other file keeps exactly its non-matching pairs; with
no valid patterns nothing is touched. -/
def clean_translations_by_key (files : List (String × List (String × α)))
    (raw : String) : List (String × List (String × α)) :=
  let patterns := normalize_key_patterns raw
  if patterns = [] then files
  else files.map (fun f =>
    if f.1 = code_to_filename BASE then f
    else (f.1, cleanFlat f.2 patterns))

/- ===================== Path tokens and sorting ===================== -/

/-- A token of `parse_path_tokens`: an array index (Python `int`, possibly
negative) or an object key. -/
inductive PTok
  | pint (i : ℤ)
  | pstr (cs : List Char)
deriving DecidableEq

/-- A character that continues an object-key token (not `.` and not `[`). -/
def keyChar (c : Char) : Bool :=
  ¬ (c = '.' ∨ c = '[')

/-- `path.index("]", i)`: split at the first `]`, or fail. -/
def splitAtRB : List Char → Option (List Char × List Char)
  | [] => none
  | c :: r =>
    if c = ']' then some ([], r)
    else (splitAtRB r).map (fun pr => (c :: pr.1, pr.2))

/-- Worker for the digit tail of a Python `int` literal: digits optionally
separated by single underscores. -/
def pyDigitsGo : ℕ → List Char → Option ℕ
  | acc, [] => some acc
  | acc, [c] => if isDigitC c then some (acc * 10 + dval c) else none
  | acc, c :: d :: r =>
    if c = '_' then
      if isDigitC d then pyDigitsGo (acc * 10 + dval d) r else none
    else if isDigitC c then pyDigitsGo (acc * 10 + dval c) (d :: r) else none

/-- The digit part of a Python `int` literal (no sign, no whitespace). -/
def pyDigits : List Char → Option ℕ
  | [] => none
  | d :: r => if isDigitC d then pyDigitsGo (dval d) r else none

/-- Python `int(s)` for ASCII text: optional surrounding whitespace, one
optional sign, then digits with optional single underscore separators. -/
def pyInt (cs : List Char) : Option ℤ :=
  match pyStripC cs with
  | [] => none
  | c :: ds =>
    if c = '+' then Option.map (fun n : ℕ => Int.ofNat n) (pyDigits ds)
    else if c = '-' then Option.map (fun n : ℕ => -(Int.ofNat n)) (pyDigits ds)
    else Option.map (fun n : ℕ => Int.ofNat n) (pyDigits (c :: ds))

/-- Fueled worker for `parse_path_tokens`. -/
def parseF : ℕ → List Char → Except String (List PTok)
  | _, [] => .ok []
  | 0, _ :: _ => .ok []
  | fuel + 1, c :: rest =>
    if c = '[' then
      match splitAtRB rest with
      | none => .error "ValueError: substring not found"
      | some ia =>
        match pyInt ia.1 with
        | none => .error "ValueError: invalid literal for int"
        | some i => (parseF fuel ia.2).map (fun ts => .pint i :: ts)
    else if c = '.' then parseF fuel rest
    else (parseF fuel ((c :: rest).dropWhile keyChar)).map
      (fun ts => .pstr ((c :: rest).takeWhile keyChar) :: ts)

/-- `parse_path_tokens(path)`; `Except` models the `ValueError`s raised by
`path.index("]")` (unclosed bracket) and by `int(...)` (index text that is
not an integer literal). -/
def parse_path_tokens (cs : List Char) : Except String (List PTok) :=
  parseF cs.length cs

/-- The claim's well-formedness precondition, as a fueled scan: every `[` is
closed by a later `]` whose contents are one or more decimal digits. -/
def bracketOkF : ℕ → List Char → Bool
  | _, [] => true
  | 0, _ :: _ => true
  | fuel + 1, c :: rest =>
    if c = '[' then
      match splitAtRB rest with
      | none => false
      | some ia => ¬ (ia.1 = []) && ia.1.all isDigitC && bracketOkF fuel ia.2
    else bracketOkF fuel rest

/-- Every `[` closed with nonempty all-digit contents. -/
def bracketOk (cs : List Char) : Bool :=
  bracketOkF cs.length cs

/- `path_sort_key` builds, for each token, the pair `(0, index)` or
`(1, key)`, and the file is sorted by the resulting tuples.  The comparators
below implement exactly that tuple order: integers sort before strings at
the same position, integers numerically, strings lexicographically by code
point. -/

/-- Comparison of naturals. -/
def cmpN (a b : ℕ) : Ordering :=
  if a < b then .lt else if b < a then .gt else .eq

/-- Comparison of integers. -/
def cmpZ (a b : ℤ) : Ordering :=
  if a < b then .lt else if b < a then .gt else .eq

/-- Python string comparison: lexicographic by code point. -/
def cmpCharL : List Char → List Char → Ordering
  | [], [] => .eq
  | [], _ :: _ => .lt
  | _ :: _, [] => .gt
  | c :: cs, d :: ds =>
    match cmpN c.toNat d.toNat with
    | .eq => cmpCharL cs ds
    | o => o

/-- The order on `path_sort_key` entries: `(0, int)` before `(1, str)`. -/
def cmpPTok : PTok → PTok → Ordering
  | .pint a, .pint b => cmpZ a b
  | .pint _, .pstr _ => .lt
  | .pstr _, .pint _ => .gt
  | .pstr a, .pstr b => cmpCharL a b

/-- Python tuple comparison of two `path_sort_key` results. -/
def cmpKey : List PTok → List PTok → Ordering
  | [], [] => .eq
  | [], _ :: _ => .lt
  | _ :: _, [] => .gt
  | x :: xs, y :: ys =>
    match cmpPTok x y with
    | .eq => cmpKey xs ys
    | o => o

/-- `key(a) <= key(b)` for the sort. -/
def keyLE (a b : List PTok) : Bool :=
  ¬ (cmpKey a b = Ordering.gt)

/-- Compute the sort key of every pair (any failure aborts, as the raised
`ValueError` aborts `list.sort`). -/
def keyedOf {α : Type} : List (String × α) → Except String (List (List PTok × (String × α)))
  | [] => .ok []
  | pv :: rest =>
    match parse_path_tokens pv.1.data with
    | .error e => .error e
    | .ok k => (keyedOf rest).map (fun ks => (k, pv) :: ks)

/-- The body of `sort_locale_file`: flatten, stable-sort by `path_sort_key`,
rebuild.  Python's `list.sort` is a stable ascending sort, modelled by
insertion sort over the (total, transitive) relation `keyLE`. -/
def sort_locale_pairs {α : Type} (pairs : List (String × α)) :
    Except String (List (String × α)) :=
  match keyedOf pairs with
  | .error e => .error e
  | .ok keyed =>
    .ok ((List.insertionSort (fun a b => keyLE a.1 b.1 = true) keyed).map (fun kp => kp.2))

/- ===================== The translation-memory merge engine ===================== -/

/-- A flattened JSON leaf value: everything `flatten_json` can emit as a
leaf (strings and the non-string scalars, which the engine never inspects
beyond `isinstance(val, str)`). -/
inductive JVal
  | str (s : String)
  | num (n : ℤ)
  | jbool (b : Bool)
  | jnull
deriving DecidableEq

/-- `isinstance(val, str)`. -/
def isStr : JVal → Bool
  | .str _ => true
  | _ => false

/-- Lines 443-466 of `translate_tree`: build the output skeleton.  In full
mode: every base path in base order, strings blanked, non-strings verbatim.
In incremental mode: the existing pairs first (in their order), then the
missing non-string base pairs, then the missing string base pairs as empty
placeholders. -/
def buildSkeleton (forceFull : Bool) (basePairs existingPairs : List (String × JVal)) :
    List (String × JVal) :=
  if forceFull then
    basePairs.foldl (fun d pv =>
      if isStr pv.2 then dIns d pv.1 (.str "") else dIns d pv.1 pv.2) []
  else
    let d0 := existingPairs.foldl (fun d pv => dIns d pv.1 pv.2) []
    let d1 := basePairs.foldl (fun d pv =>
      if dHas d pv.1 then d
      else if isStr pv.2 then d else dIns d pv.1 pv.2) d0
    basePairs.foldl (fun d pv =>
      if dHas d pv.1 then d
      else if isStr pv.2 then dIns d pv.1 (.str "") else d) d1

/-- The mutable state of the work-selection loop: the output dict, the
translation cache, the todo list `(seq, path, masked source)` and the
sequence counter (the masked-placeholder and protected-term maps per path
are carried alongside). -/
structure SelSt where
  outDict : List (String × JVal)
  cache : List (String × String)
  todo : List (ℕ × String × String)
  seq : ℕ
  phMaps : List (String × List (String × String))
  tmMaps : List (String × List (String × String))
deriving DecidableEq

/-- Lines 499-501: placeholder mask, then protected-term mask. -/
def maskedOf (terms : List String) (val : String) : String :=
  (mask_protected_terms (mask_placeholders val).1 terms).1

/-- Lines 479-484: the incremental skip — the existing tree already holds a
non-blank string at this path. -/
def incrSkip (exm : List (String × JVal)) (p : String) : Bool :=
  match dGet exm p with
  | some (.str cur) => decide (¬ (pyStrip cur = ""))
  | _ => false

/-- One iteration of the work-selection loop (lines 476-507): skip non-string
leaves; in incremental mode skip leaves whose existing value is a non-blank
string; short-circuit protected terms (verbatim copy plus a cache write);
resolve cache hits; otherwise mask and queue. -/
def selStep (forceFull : Bool) (existingMap : List (String × JVal)) (terms : List String)
    (srcLangName tgtCode : String) (st : SelSt) (pv : String × JVal) : SelSt :=
  match pv.2 with
  | .str val =>
    if forceFull = false ∧ incrSkip existingMap pv.1 = true then st
    else if terms.contains (pyStrip val) then
      ⟨dIns st.outDict pv.1 (.str val),
        dIns st.cache (cache_key srcLangName tgtCode val) val,
        st.todo, st.seq, st.phMaps, st.tmMaps⟩
    else
      match dGet st.cache (cache_key srcLangName tgtCode val) with
      | some t =>
        ⟨dIns st.outDict pv.1 (.str t), st.cache, st.todo, st.seq, st.phMaps, st.tmMaps⟩
      | none =>
        ⟨st.outDict, st.cache,
          st.todo ++ [(st.seq + 1, pv.1, maskedOf terms val)], st.seq + 1,
          dIns st.phMaps pv.1 (mask_placeholders val).2,
          dIns st.tmMaps pv.1 (mask_protected_terms (mask_placeholders val).1 terms).2⟩
  | _ => st

/-- The whole work-selection pass over the base pairs, starting from the
skeleton, the loaded cache, and an empty todo list. -/
def selection (forceFull : Bool) (basePairs existingPairs : List (String × JVal))
    (cache0 : List (String × String)) (terms : List String)
    (srcLangName tgtCode : String) : SelSt :=
  basePairs.foldl
    (selStep forceFull (dOf existingPairs) terms srcLangName tgtCode)
    ⟨buildSkeleton forceFull basePairs existingPairs, cache0, [], 0, [], []⟩

/-- One attempt of the retry loop of `call_openai_batch`: the network call
plus JSON parse either raises (`exn`: connection error, timeout, malformed
JSON, non-dict payload), or yields the parsed `items` whose entries have
string paths and texts (others are dropped by the isinstance filter). -/
inductive ApiAttempt
  | exn
  | resp (items : List (String × String))
deriving DecidableEq

/-- `max_retries` of `call_openai_batch`. -/
def MAX_RETRIES : ℕ := 4

/-- The `result` dict built from the parsed items (texts stripped; a
duplicated path keeps its first position, last text). -/
def respDict (items : List (String × String)) : List (String × String) :=
  items.foldl (fun d it => dIns d it.1 (pyStrip it.2)) []

/-- The acceptance threshold `max(1, int(0.85 * len(batch)))` (written in
integer arithmetic; exact for the single-item batches the driver sends). -/
def batchThreshold (n : ℕ) : ℕ := max 1 (85 * n / 100)

/-- `call_openai_batch` over the outcomes of its attempts, in order: a
response with at least the threshold of valid items is returned; an
exception or a too-small response moves to the next attempt; exhausting the
attempts raises `RuntimeError("Batch translate failed: ...")`. -/
def call_openai_batch (batch : List (String × String)) :
    List ApiAttempt → Except String (List (String × String))
  | [] => .error "Batch translate failed"
  | a :: rest =>
    match a with
    | .exn => call_openai_batch batch rest
    | .resp items =>
      if batchThreshold batch.length ≤ (respDict items).length then .ok (respDict items)
      else call_openai_batch batch rest

/-- `postprocess(path, masked_tgt)` (lines 522-544): unmask placeholders,
unmask protected terms, strip CJK characters for non-CJK targets, and if the
source has placeholders the target lost, rewrite the target's placeholder
occurrences left-to-right to the source's sequence. -/
def postprocess (baseMap : List (String × JVal))
    (phMaps tmMaps : List (String × List (String × String)))
    (tgtCode : String) (path maskedTgt : String) : Option String :=
  match dGet baseMap path with
  | some (.str srcText) =>
    let u1 := unmask_placeholders maskedTgt
      (match dGet phMaps path with | some m => m | none => [])
    let u2 := unmask_protected_terms u1
      (match dGet tmMaps path with | some m => m | none => [])
    let u3 := ensure_no_cjk_when_forbidden u2 tgtCode
    some (if ¬ (extract_placeholders srcText = []) ∧ placeholders_equal srcText u3 = false
      then (⟨repairScan u3.data ((extract_placeholders srcText).map String.data)⟩ : String)
      else u3)
  | _ => none

/-- `translate_one(path, masked_src)`: a single-item batch call; the raised
`RuntimeError` of an exhausted retry loop propagates; a response missing the
requested path yields the sentinel `none`; otherwise the postprocessed text. -/
def translate_one (attempts : List ApiAttempt) (baseMap : List (String × JVal))
    (phMaps tmMaps : List (String × List (String × String)))
    (tgtCode : String) (path maskedSrc : String) : Except String (Option String) :=
  match call_openai_batch [(path, maskedSrc)] attempts with
  | .error e => .error e
  | .ok outMap =>
    match dGet outMap path with
    | none => .ok none
    | some t => .ok (postprocess baseMap phMaps tmMaps tgtCode path t)

/-- The mutable state of the drain loop: output dict, cache and the
monotonic progress counters. -/
structure DriveSt where
  outDict : List (String × JVal)
  cache : List (String × String)
  completed : ℕ
  succeeded : ℕ
deriving DecidableEq

/-- `apply_success(seq_no, path, final)`: write the output entry, cache the
result keyed by the un-masked original source text, bump the success count. -/
def apply_success (srcLangName tgtCode : String) (baseMap : List (String × JVal))
    (st : DriveSt) (path fin : String) : DriveSt :=
  ⟨dIns st.outDict path (.str fin),
    (match dGet baseMap path with
     | some (.str srcText) => dIns st.cache (cache_key srcLangName tgtCode srcText) fin
     | _ => st.cache),
    st.completed, st.succeeded + 1⟩

/-- The single-threaded drain loop (lines 595-603): each unit's
`translate_one` either raises (the exception escapes the loop), yields the
sentinel `none` (tick a failure and continue), or yields a final text
(apply it and continue). -/
def driveLoop (tr : String → String → Except String (Option String))
    (srcLangName tgtCode : String) (baseMap : List (String × JVal)) :
    List (ℕ × String × String) → DriveSt → Except String DriveSt
  | [], st => .ok st
  | u :: rest, st =>
    match tr u.2.1 u.2.2 with
    | .error e => .error e
    | .ok none =>
      driveLoop tr srcLangName tgtCode baseMap rest
        ⟨st.outDict, st.cache, st.completed + 1, st.succeeded⟩
    | .ok (some fin) =>
      driveLoop tr srcLangName tgtCode baseMap rest
        (let st2 := apply_success srcLangName tgtCode baseMap st u.2.1 fin
         ⟨st2.outDict, st2.cache, st2.completed + 1, st2.succeeded⟩)

/-- `translate_tree` for a non-zh target: skeleton, work selection, then the
single-threaded drain loop, with the per-unit translation abstracted as
`tr path maskedSrc`. -/
def translateTreeE (forceFull : Bool) (basePairs existingPairs : List (String × JVal))
    (cache0 : List (String × String)) (terms : List String)
    (srcLangName tgtCode : String)
    (tr : String → String → Except String (Option String)) : Except String DriveSt :=
  let sel := selection forceFull basePairs existingPairs cache0 terms srcLangName tgtCode
  driveLoop tr srcLangName tgtCode (dOf basePairs) sel.todo ⟨sel.outDict, sel.cache, 0, 0⟩

/-- `translate_tree` with the concrete per-unit call: each queued unit runs
`translate_one` against the outcome sequence `oracle path` of its network
attempts. -/
def translateTreeRun (forceFull : Bool) (basePairs existingPairs : List (String × JVal))
    (cache0 : List (String × String)) (terms : List String)
    (srcLangName tgtCode : String) (oracle : String → List ApiAttempt) :
    Except String DriveSt :=
  let sel := selection forceFull basePairs existingPairs cache0 terms srcLangName tgtCode
  driveLoop
    (fun p m => translate_one (oracle p) (dOf basePairs) sel.phMaps sel.tmMaps tgtCode p m)
    srcLangName tgtCode (dOf basePairs) sel.todo ⟨sel.outDict, sel.cache, 0, 0⟩

/-- The paths of a todo list. -/
def todoPaths (todo : List (ℕ × String × String)) : List String :=
  todo.map (fun u => u.2.1)

/-- An attempt that does not produce an acceptable response: an exception,
or a parsed response with fewer valid items than the threshold. -/
def attemptFails (n : ℕ) : ApiAttempt → Bool
  | .exn => true
  | .resp items => decide ((respDict items).length < batchThreshold n)

/-- Indices of the `ph` pieces are consecutive starting at `i` (as the
sequential numbering of `mask_placeholders` produces). -/
def idxFrom : ℕ → List MPiece → Prop
  | _, [] => True
  | i, .ch _ :: ps => idxFrom i ps
  | i, .ph n _ :: ps => n = i ∧ idxFrom (i + 1) ps

/-- No occurrence of the two-character run `PH`. -/
def noPH (l : List Char) : Prop := containsSub l ['P', 'H'] = false

/-- Fueled worker for `litChars`. -/
def litCharsF : ℕ → List Char → List Char
  | _, [] => []
  | 0, _ :: _ => []
  | fuel + 1, c :: rest =>
    match matchTok c rest with
    | some mr => litCharsF fuel mr.2
    | none => c :: litCharsF fuel rest

/-- The literal (non-match) characters of a string under the
`_PLACEHOLDER_RE` scan, in order. -/
def litChars (cs : List Char) : List Char :=
  litCharsF cs.length cs

/-- A placeholder text that the regex matches exactly, in any right
context: starting at its first character, the matcher consumes precisely it
and leaves the rest untouched. -/
def SelfDelim : List Char → Prop
  | [] => False
  | c :: pb => ∀ r : List Char, matchTok c (pb ++ r) = some (c :: pb, r)

/-- Blank the string leaves, keep everything else. -/
def blankVal (v : JVal) : JVal := if isStr v then .str "" else v

/- ===================== Theorems ===================== -/

theorem replaceF_fuel (pat rep : List Char) :
    ∀ fuel fuel' cs, cs.length ≤ fuel → cs.length ≤ fuel' →
      replaceF pat rep fuel cs = replaceF pat rep fuel' cs := by
  intro fuel
  induction fuel with
  | zero =>
    intro fuel' cs h _
    rcases cs with _ | ⟨c, rest⟩
    · cases fuel' <;> rfl
    · simp at h
  | succ f ih =>
    intro fuel' cs h h'
    rcases cs with _ | ⟨c, rest⟩
    · cases fuel' <;> rfl
    · rcases fuel' with _ | f'
      · simp at h'
      · simp only [List.length_cons] at h h'
        rw [replaceF, replaceF]
        by_cases hp : pat ≠ [] ∧ isPrefC pat (c :: rest) = true
        · rw [if_pos hp, if_pos hp]
          have hp1 : 1 ≤ pat.length := by
            rcases pat with _ | ⟨p, ps⟩
            · exact absurd rfl hp.1
            · simp
          congr 1
          apply ih
          · simp only [List.length_drop, List.length_cons]
            omega
          · simp only [List.length_drop, List.length_cons]
            omega
        · rw [if_neg hp, if_neg hp]
          congr 1
          apply ih <;> omega

theorem isPrefC_iff_append (pat hay : List Char) :
    isPrefC pat hay = true ↔ ∃ t, hay = pat ++ t := by
  induction pat generalizing hay with
  | nil => simp [isPrefC]
  | cons p ps ih =>
    cases hay with
    | nil => simp [isPrefC]
    | cons c cs =>
      simp only [isPrefC, Bool.and_eq_true, decide_eq_true_eq, ih]
      constructor
      · rintro ⟨rfl, t, rfl⟩; exact ⟨t, rfl⟩
      · rintro ⟨t, ht⟩
        simp only [List.cons_append, List.cons.injEq] at ht
        exact ⟨ht.1.symm, t, ht.2⟩

theorem replaceAll_nil (pat rep : List Char) : replaceAll pat rep [] = [] := rfl

theorem replaceAll_cons_neg (pat rep : List Char) (c : Char) (cs : List Char)
    (h : ¬ isPrefC pat (c :: cs) = true) :
    replaceAll pat rep (c :: cs) = c :: replaceAll pat rep cs := by
  unfold replaceAll
  simp only [List.length_cons]
  rw [replaceF]
  simp [h]

theorem replaceAll_append_head (pat rep : List Char) (t : List Char)
    (hne : pat ≠ []) :
    replaceAll pat rep (pat ++ t) = rep ++ replaceAll pat rep t := by
  have hpref : isPrefC pat (pat ++ t) = true := by
    rw [isPrefC_iff_append]; exact ⟨t, rfl⟩
  have hp1 : 1 ≤ pat.length := by
    rcases pat with _ | _
    · exact absurd rfl hne
    · simp
  rcases happ : pat ++ t with _ | ⟨c, rest⟩
  · exfalso
    have := congrArg List.length happ
    simp only [List.length_append, List.length_nil] at this
    omega
  · have hlen : (pat ++ t).length = rest.length + 1 := by rw [happ]; simp
    have hlen2 : rest.length + 1 = pat.length + t.length := by
      have := congrArg List.length happ
      simp only [List.length_append, List.length_cons] at this
      omega
    unfold replaceAll
    simp only [List.length_cons]
    rw [replaceF, if_pos ⟨hne, happ ▸ hpref⟩]
    congr 1
    have hdrop : (c :: rest).drop pat.length = t := by
      rw [← happ]; simp
    rw [hdrop]
    apply replaceF_fuel
    · omega
    · exact le_refl _

theorem map_ins_id (d : List (String × α)) (k : String) (v : α)
    (h : dHas d k = false) :
    d.map (fun e => if e.1 = k then (k, v) else e) = d := by
  induction d with
  | nil => simp
  | cons e d ih =>
    simp only [dHas, Bool.or_eq_false_iff, decide_eq_false_iff_not] at h
    simp [h.1, ih h.2]

theorem dHas_iff_mem_keys (d : List (String × α)) (k : String) :
    dHas d k = true ↔ k ∈ keysOf d := by
  induction d with
  | nil => simp [dHas, keysOf]
  | cons e d ih =>
    simp only [dHas, Bool.or_eq_true, decide_eq_true_eq, keysOf, List.map_cons,
      List.mem_cons, ih]
    constructor
    · rintro (h | h)
      · exact Or.inl h.symm
      · exact Or.inr h
    · rintro (h | h)
      · exact Or.inl h.symm
      · exact Or.inr h

theorem dGet_eq_none_of_not_has (d : List (String × α)) (k : String)
    (h : dHas d k = false) : dGet d k = none := by
  induction d with
  | nil => simp [dGet]
  | cons e d ih =>
    simp only [dHas, Bool.or_eq_false_iff, decide_eq_false_iff_not] at h
    simp [dGet, h.1, ih h.2]

theorem dGet_isSome_of_has (d : List (String × α)) (k : String)
    (h : dHas d k = true) : (dGet d k).isSome = true := by
  induction d with
  | nil => simp [dHas] at h
  | cons e d ih =>
    by_cases he : e.1 = k
    · simp [dGet, he]
    · simp only [dHas, Bool.or_eq_true, decide_eq_true_eq] at h
      rcases h with h | h
      · exact absurd h he
      · simp [dGet, he, ih h]

theorem dHas_of_dGet_some (d : List (String × α)) (k : String) (v : α)
    (h : dGet d k = some v) : dHas d k = true := by
  by_contra hk
  rw [dGet_eq_none_of_not_has d k (by simpa using hk)] at h
  exact Option.noConfusion h

theorem dGet_dIns_self (d : List (String × α)) (k : String) (v : α) :
    dGet (dIns d k v) k = some v := by
  by_cases hk : dHas d k
  · simp only [dIns, hk, if_pos]
    induction d with
    | nil => simp [dHas] at hk
    | cons e d ih =>
      by_cases he : e.1 = k
      · simp [dGet, he]
      · simp only [dHas, Bool.or_eq_true, decide_eq_true_eq] at hk
        rcases hk with h | h
        · exact absurd h he
        · simp [dGet, he, ih h]
  · simp only [dIns, hk, if_neg, Bool.false_eq_true, not_false_iff]
    induction d with
    | nil => simp [dGet]
    | cons e d ih =>
      simp only [dHas, Bool.or_eq_true, decide_eq_true_eq, not_or] at hk
      simp [dGet, hk.1, ih (by simpa using hk.2)]

theorem dGet_dIns_ne (d : List (String × α)) (k k' : String) (v : α)
    (h : k' ≠ k) : dGet (dIns d k v) k' = dGet d k' := by
  by_cases hk : dHas d k
  · simp only [dIns, hk, if_pos]
    induction d with
    | nil => simp
    | cons e d ih =>
      by_cases he : e.1 = k
      · have h1 : ¬ ((k : String) = k') := fun hh => h hh.symm
        have h2 : ¬ (e.1 = k') := by rw [he]; exact fun hh => h hh.symm
        simp only [List.map_cons, he, if_pos, dGet, h1, if_neg, h2, not_false_iff]
        by_cases hd : dHas d k
        · exact ih hd
        · rw [map_ins_id d k v (by simpa using hd)]
      · simp only [List.map_cons, he, if_neg, not_false_iff, dGet]
        by_cases he' : e.1 = k'
        · simp [he']
        · simp only [he', if_neg, not_false_iff]
          simp only [dHas, Bool.or_eq_true, decide_eq_true_eq] at hk
          rcases hk with hh | hh
          · exact absurd hh he
          · exact ih hh
  · simp only [dIns, hk, if_neg, Bool.false_eq_true, not_false_iff]
    induction d with
    | nil =>
      simp only [List.nil_append, dGet]
      rw [if_neg (fun hh : k = k' => h hh.symm)]
    | cons e d ih =>
      simp only [dHas, Bool.or_eq_true, decide_eq_true_eq, not_or] at hk
      by_cases he' : e.1 = k'
      · simp [dGet, he']
      · simp only [List.cons_append, dGet, he', if_neg, not_false_iff]
        exact ih (by simpa using hk.2)

theorem keysOf_dIns (d : List (String × α)) (k : String) (v : α) :
    keysOf (dIns d k v) = if dHas d k then keysOf d else keysOf d ++ [k] := by
  by_cases hk : dHas d k
  · simp only [dIns, hk, if_pos, keysOf, List.map_map]
    apply List.map_congr_left
    intro e _
    by_cases he : e.1 = k
    · simp [Function.comp, he]
    · simp [Function.comp, he]
  · simp [dIns, hk, keysOf]

theorem dHas_dIns_iff (d : List (String × α)) (k k' : String) (v : α) :
    dHas (dIns d k v) k' = true ↔ (dHas d k' = true ∨ k = k') := by
  rw [dHas_iff_mem_keys, keysOf_dIns]
  by_cases hk : dHas d k
  · rw [if_pos hk, ← dHas_iff_mem_keys]
    constructor
    · exact Or.inl
    · rintro (h | rfl)
      · exact h
      · exact hk
  · rw [if_neg hk, List.mem_append, ← dHas_iff_mem_keys, List.mem_singleton]
    constructor
    · rintro (h | h)
      · exact Or.inl h
      · exact Or.inr h.symm
    · rintro (h | h)
      · exact Or.inl h
      · exact Or.inr h.symm

theorem nodupKeys_dIns (d : List (String × α)) (k : String) (v : α)
    (h : NodupKeys d) : NodupKeys (dIns d k v) := by
  unfold NodupKeys
  rw [keysOf_dIns]
  by_cases hk : dHas d k
  · simpa [hk] using h
  · rw [if_neg hk]
    apply List.Nodup.append h (by simp)
    intro a ha hb
    simp only [List.mem_singleton] at hb
    subst hb
    exact hk ((dHas_iff_mem_keys d a).mpr ha)

theorem dIns_eq_self (d : List (String × α)) (k : String) (v : α)
    (hnd : NodupKeys d) (h : dGet d k = some v) : dIns d k v = d := by
  have hk : dHas d k = true := dHas_of_dGet_some d k v h
  simp only [dIns, hk, if_pos]
  induction d with
  | nil => simp
  | cons e d ih =>
    unfold NodupKeys keysOf at hnd
    simp only [List.map_cons, List.nodup_cons] at hnd
    by_cases he : e.1 = k
    · simp only [dGet, he, if_pos, Option.some.injEq] at h
      have hd : dHas d k = false := by
        by_contra hd
        have hmem : k ∈ d.map Prod.fst := by
          have := (dHas_iff_mem_keys d k).mp (by simpa using hd)
          simpa [keysOf] using this
        exact hnd.1 (he ▸ hmem)
      simp only [List.map_cons, he, if_pos]
      rw [map_ins_id d k v hd]
      congr 1
      rcases e with ⟨k0, v0⟩
      simp only at he h
      simp [he, h]
    · simp only [dGet, he, if_neg, not_false_iff] at h
      simp only [dHas, Bool.or_eq_true, decide_eq_true_eq] at hk
      rcases hk with hh | hh
      · exact absurd hh he
      · have hnd2 : NodupKeys d := hnd.2
        simp [List.map_cons, he, ih hnd2 h hh]

theorem pctAlt1_spec (rest m r : List Char) (h : pctAlt1 rest = some (m, r)) :
    m ≠ [] ∧ m ++ r = '%' :: rest := by
  unfold pctAlt1 at h
  split at h
  · split at h
    · rcases Option.some.injEq _ _ ▸ h.symm with hh
      simp only [Option.some.injEq, Prod.mk.injEq] at h
      rcases h with ⟨rfl, rfl⟩
      constructor
      · simp
      · have hsplit := List.takeWhile_append_dropWhile (p := isDigitC) (l := rest)
        simp only [List.cons_append, List.append_assoc]
        rw [List.cons.injEq]
        refine ⟨rfl, ?_⟩
        conv_rhs => rw [← hsplit]
        congr 1
        simp_all
    · exact Option.noConfusion h
  · split at h
    · simp only [Option.some.injEq, Prod.mk.injEq] at h
      rcases h with ⟨rfl, rfl⟩
      constructor
      · simp
      · have hsplit := List.takeWhile_append_dropWhile (p := isDigitC) (l := rest)
        simp only [List.cons_append, List.append_assoc]
        rw [List.cons.injEq]
        refine ⟨rfl, ?_⟩
        conv_rhs => rw [← hsplit]
        congr 1
        simp_all
    · exact Option.noConfusion h
  · exact Option.noConfusion h

theorem pctAlt2_spec (rest m r : List Char) (h : pctAlt2 rest = some (m, r)) :
    m ≠ [] ∧ m ++ r = '%' :: rest := by
  unfold pctAlt2 at h
  split at h
  · rename_i r2 heq
    split at h
    · rename_i x r' heq2
      split at h
      · simp only [Option.some.injEq, Prod.mk.injEq] at h
        rcases h with ⟨rfl, rfl⟩
        constructor
        · simp
        · have hs1 := List.takeWhile_append_dropWhile (p := isDigitC) (l := rest)
          have hs2 := List.takeWhile_append_dropWhile (p := isDigitC) (l := r2)
          simp only [List.cons_append, List.append_assoc]
          rw [List.cons.injEq]
          refine ⟨rfl, ?_⟩
          conv_rhs => rw [← hs1, heq]
          congr 1
          rw [List.cons.injEq]
          refine ⟨rfl, ?_⟩
          conv_rhs => rw [← hs2, heq2]
          simp
      · exact Option.noConfusion h
    · exact Option.noConfusion h
  · split at h
    · simp only [Option.some.injEq, Prod.mk.injEq] at h
      rcases h with ⟨rfl, rfl⟩
      constructor
      · simp
      · have hs1 := List.takeWhile_append_dropWhile (p := isDigitC) (l := rest)
        simp only [List.cons_append, List.append_assoc]
        rw [List.cons.injEq]
        refine ⟨rfl, ?_⟩
        conv_rhs => rw [← hs1]
        congr 1
        simp_all
    · exact Option.noConfusion h
  · exact Option.noConfusion h

theorem pctAlt3_spec (rest m r : List Char) (h : pctAlt3 rest = some (m, r)) :
    m ≠ [] ∧ m ++ r = '%' :: rest := by
  unfold pctAlt3 at h
  split at h
  · simp only [Option.some.injEq, Prod.mk.injEq] at h
    rcases h with ⟨rfl, rfl⟩
    simp_all
  · exact Option.noConfusion h

theorem braceAlt4_spec (rest m r : List Char) (h : braceAlt4 rest = some (m, r)) :
    m ≠ [] ∧ m ++ r = '\x7b' :: rest := by
  unfold braceAlt4 at h
  split at h
  · rename_i r' heq
    split at h
    · simp only [Option.some.injEq, Prod.mk.injEq] at h
      rcases h with ⟨rfl, rfl⟩
      constructor
      · simp
      · have hs := List.takeWhile_append_dropWhile (p := nonBrace) (l := rest)
        simp only [List.cons_append, List.append_assoc]
        rw [List.cons.injEq]
        refine ⟨rfl, ?_⟩
        conv_rhs => rw [← hs, heq]
        simp
    · exact Option.noConfusion h
  · exact Option.noConfusion h

theorem braceAlt5_spec (rest m r : List Char) (h : braceAlt5 rest = some (m, r)) :
    m ≠ [] ∧ m ++ r = '\x7b' :: rest := by
  unfold braceAlt5 at h
  split at h
  · rename_i r' heq
    split at h
    · simp only [Option.some.injEq, Prod.mk.injEq] at h
      rcases h with ⟨rfl, rfl⟩
      constructor
      · simp
      · have hs := List.takeWhile_append_dropWhile (p := isDigitC) (l := rest)
        simp only [List.cons_append, List.append_assoc]
        rw [List.cons.injEq]
        refine ⟨rfl, ?_⟩
        conv_rhs => rw [← hs, heq]
        simp
    · exact Option.noConfusion h
  · exact Option.noConfusion h

theorem braceAlt6_spec (rest m r : List Char) (h : braceAlt6 rest = some (m, r)) :
    m ≠ [] ∧ m ++ r = '\x7b' :: rest := by
  unfold braceAlt6 at h
  split at h
  · rename_i r1
    split at h
    · rename_i r' heq
      split at h
      · simp only [Option.some.injEq, Prod.mk.injEq] at h
        rcases h with ⟨rfl, rfl⟩
        constructor
        · simp
        · have hs := List.takeWhile_append_dropWhile (p := nonBrace) (l := r1)
          simp only [List.cons_append, List.append_assoc]
          rw [List.cons.injEq]
          refine ⟨rfl, ?_⟩
          rw [List.cons.injEq]
          refine ⟨rfl, ?_⟩
          conv_rhs => rw [← hs, heq]
          simp
      · exact Option.noConfusion h
    · exact Option.noConfusion h
  · exact Option.noConfusion h

theorem angleSlash_spec (rest m r : List Char) (h : angleSlash rest = some (m, r)) :
    m ≠ [] ∧ m ++ r = '<' :: rest := by
  unfold angleSlash at h
  split at h
  · rename_i r1
    split at h
    · rename_i r' heq
      split at h
      · simp only [Option.some.injEq, Prod.mk.injEq] at h
        rcases h with ⟨rfl, rfl⟩
        constructor
        · simp
        · have hs := List.takeWhile_append_dropWhile (p := nonGt) (l := r1)
          simp only [List.cons_append, List.append_assoc]
          rw [List.cons.injEq]
          refine ⟨rfl, ?_⟩
          rw [List.cons.injEq]
          refine ⟨rfl, ?_⟩
          conv_rhs => rw [← hs, heq]
          simp
      · exact Option.noConfusion h
    · exact Option.noConfusion h
  · exact Option.noConfusion h

theorem angleNoSlash_spec (rest m r : List Char) (h : angleNoSlash rest = some (m, r)) :
    m ≠ [] ∧ m ++ r = '<' :: rest := by
  unfold angleNoSlash at h
  split at h
  · rename_i r' heq
    split at h
    · simp only [Option.some.injEq, Prod.mk.injEq] at h
      rcases h with ⟨rfl, rfl⟩
      constructor
      · simp
      · have hs := List.takeWhile_append_dropWhile (p := nonGt) (l := rest)
        simp only [List.cons_append, List.append_assoc]
        rw [List.cons.injEq]
        refine ⟨rfl, ?_⟩
        conv_rhs => rw [← hs, heq]
        simp
    · exact Option.noConfusion h
  · exact Option.noConfusion h

theorem matchTok_spec (c : Char) (rest m r : List Char)
    (h : matchTok c rest = some (m, r)) : m ≠ [] ∧ m ++ r = c :: rest := by
  unfold matchTok at h
  split at h
  · rename_i hc
    subst hc
    split at h
    · rename_i v heq
      rcases v with ⟨m', r'⟩
      simp only [Option.some.injEq, Prod.mk.injEq] at h
      rcases h with ⟨rfl, rfl⟩
      exact pctAlt1_spec _ _ _ heq
    · split at h
      · rename_i v heq
        rcases v with ⟨m', r'⟩
        simp only [Option.some.injEq, Prod.mk.injEq] at h
        rcases h with ⟨rfl, rfl⟩
        exact pctAlt2_spec _ _ _ heq
      · exact pctAlt3_spec _ _ _ h
  · split at h
    · rename_i hc
      subst hc
      split at h
      · rename_i v heq
        rcases v with ⟨m', r'⟩
        simp only [Option.some.injEq, Prod.mk.injEq] at h
        rcases h with ⟨rfl, rfl⟩
        exact braceAlt4_spec _ _ _ heq
      · split at h
        · rename_i v heq
          rcases v with ⟨m', r'⟩
          simp only [Option.some.injEq, Prod.mk.injEq] at h
          rcases h with ⟨rfl, rfl⟩
          exact braceAlt5_spec _ _ _ heq
        · exact braceAlt6_spec _ _ _ h
    · split at h
      · rename_i hc
        subst hc
        unfold angleAlt at h
        split at h
        · rename_i v heq
          rcases v with ⟨m', r'⟩
          simp only [Option.some.injEq, Prod.mk.injEq] at h
          rcases h with ⟨rfl, rfl⟩
          exact angleSlash_spec _ _ _ heq
        · exact angleNoSlash_spec _ _ _ h
      · exact Option.noConfusion h

theorem matchTok_rest_le (c : Char) (rest : List Char) (p : List Char × List Char)
    (h : matchTok c rest = some p) : p.2.length ≤ rest.length := by
  rcases p with ⟨m, r⟩
  rcases matchTok_spec c rest m r h with ⟨hne, happ⟩
  have hlen := congrArg List.length happ
  simp only [List.length_append, List.length_cons] at hlen
  show r.length ≤ rest.length
  rcases m with _ | ⟨c0, m2⟩
  · exact absurd rfl hne
  · simp only [List.length_cons] at hlen
    omega

theorem extractF_fuel :
    ∀ fuel fuel' cs, cs.length ≤ fuel → cs.length ≤ fuel' →
      extractF fuel cs = extractF fuel' cs := by
  intro fuel
  induction fuel with
  | zero =>
    intro fuel' cs h _
    rcases cs with _ | ⟨c, rest⟩
    · cases fuel' <;> rfl
    · simp at h
  | succ f ih =>
    intro fuel' cs h h'
    rcases cs with _ | ⟨c, rest⟩
    · cases fuel' <;> rfl
    · rcases fuel' with _ | f'
      · simp at h'
      · simp only [List.length_cons] at h h'
        rcases hm : matchTok c rest with _ | mr
        · rw [extractF, extractF, hm]
          exact ih f' rest (by omega) (by omega)
        · have hle := matchTok_rest_le _ _ _ hm
          rw [extractF, extractF, hm]
          show mr.1 :: extractF f mr.2 = mr.1 :: extractF f' mr.2
          rw [ih f' mr.2 (by omega) (by omega)]

theorem extractM_nil : extractM [] = [] := rfl

theorem extractM_cons_some (c : Char) (rest m r : List Char)
    (h : matchTok c rest = some (m, r)) :
    extractM (c :: rest) = m :: extractM r := by
  unfold extractM
  simp only [List.length_cons]
  rw [extractF, h]
  have hle := matchTok_rest_le _ _ _ h
  show m :: extractF rest.length r = m :: extractF r.length r
  rw [extractF_fuel rest.length r.length r (by simpa using hle) (le_refl _)]

theorem extractM_cons_none (c : Char) (rest : List Char)
    (h : matchTok c rest = none) :
    extractM (c :: rest) = extractM rest := by
  unfold extractM
  simp only [List.length_cons]
  rw [extractF, h]

theorem scanF_fuel :
    ∀ fuel fuel' cs idx, cs.length ≤ fuel → cs.length ≤ fuel' →
      scanF fuel cs idx = scanF fuel' cs idx := by
  intro fuel
  induction fuel with
  | zero =>
    intro fuel' cs idx h _
    rcases cs with _ | ⟨c, rest⟩
    · cases fuel' <;> rfl
    · simp at h
  | succ f ih =>
    intro fuel' cs idx h h'
    rcases cs with _ | ⟨c, rest⟩
    · cases fuel' <;> rfl
    · rcases fuel' with _ | f'
      · simp at h'
      · simp only [List.length_cons] at h h'
        rcases hm : matchTok c rest with _ | mr
        · rw [scanF, scanF, hm]
          show MPiece.ch c :: scanF f rest idx = MPiece.ch c :: scanF f' rest idx
          rw [ih f' rest idx (by omega) (by omega)]
        · have hle := matchTok_rest_le _ _ _ hm
          rw [scanF, scanF, hm]
          show MPiece.ph idx mr.1 :: scanF f mr.2 (idx + 1) =
            MPiece.ph idx mr.1 :: scanF f' mr.2 (idx + 1)
          rw [ih f' mr.2 (idx + 1) (by omega) (by omega)]

theorem scanPieces_nil (idx : ℕ) : scanPieces [] idx = [] := rfl

theorem scanPieces_cons_some (c : Char) (rest m r : List Char) (idx : ℕ)
    (h : matchTok c rest = some (m, r)) :
    scanPieces (c :: rest) idx = .ph idx m :: scanPieces r (idx + 1) := by
  unfold scanPieces
  simp only [List.length_cons]
  rw [scanF, h]
  have hle := matchTok_rest_le _ _ _ h
  show MPiece.ph idx m :: scanF rest.length r (idx + 1) =
    MPiece.ph idx m :: scanF r.length r (idx + 1)
  rw [scanF_fuel rest.length r.length r (idx + 1) (by simpa using hle) (le_refl _)]

theorem scanPieces_cons_none (c : Char) (rest : List Char) (idx : ℕ)
    (h : matchTok c rest = none) :
    scanPieces (c :: rest) idx = .ch c :: scanPieces rest idx := by
  unfold scanPieces
  simp only [List.length_cons]
  rw [scanF, h]

theorem repairF_fuel :
    ∀ fuel fuel' cs phs, cs.length ≤ fuel → cs.length ≤ fuel' →
      repairF fuel cs phs = repairF fuel' cs phs := by
  intro fuel
  induction fuel with
  | zero =>
    intro fuel' cs phs h _
    rcases cs with _ | ⟨c, rest⟩
    · cases fuel' <;> rfl
    · simp at h
  | succ f ih =>
    intro fuel' cs phs h h'
    rcases cs with _ | ⟨c, rest⟩
    · cases fuel' <;> rfl
    · rcases fuel' with _ | f'
      · simp at h'
      · simp only [List.length_cons] at h h'
        rcases hm : matchTok c rest with _ | mr
        · rw [repairF, repairF, hm]
          show c :: repairF f rest phs = c :: repairF f' rest phs
          rw [ih f' rest phs (by omega) (by omega)]
        · have hle := matchTok_rest_le _ _ _ hm
          rw [repairF, repairF, hm]
          show phs.headD mr.1 ++ repairF f mr.2 phs.tail =
            phs.headD mr.1 ++ repairF f' mr.2 phs.tail
          rw [ih f' mr.2 phs.tail (by omega) (by omega)]

theorem repairScan_nil (phs : List (List Char)) : repairScan [] phs = [] := rfl

theorem repairScan_cons_some (c : Char) (rest m r : List Char)
    (phs : List (List Char)) (h : matchTok c rest = some (m, r)) :
    repairScan (c :: rest) phs = phs.headD m ++ repairScan r phs.tail := by
  unfold repairScan
  simp only [List.length_cons]
  rw [repairF, h]
  have hle := matchTok_rest_le _ _ _ h
  show phs.headD m ++ repairF rest.length r phs.tail =
    phs.headD m ++ repairF r.length r phs.tail
  rw [repairF_fuel rest.length r.length r phs.tail (by simpa using hle) (le_refl _)]

theorem repairScan_cons_none (c : Char) (rest : List Char)
    (phs : List (List Char)) (h : matchTok c rest = none) :
    repairScan (c :: rest) phs = c :: repairScan rest phs := by
  unfold repairScan
  simp only [List.length_cons]
  rw [repairF, h]

theorem dval_digitChar (k : ℕ) (h : k < 10) : dval (digitChar k) = k := by
  interval_cases k <;> decide

theorem digitChar_isDigit (k : ℕ) (h : k < 10) : isDigitC (digitChar k) = true := by
  interval_cases k <;> decide

theorem valOfDigits_append_singleton (ds : List Char) (c : Char) :
    valOfDigits (ds ++ [c]) = valOfDigits ds * 10 + dval c := by
  unfold valOfDigits
  rw [List.foldl_append]
  rfl

theorem foldl_val_shift (ds : List Char) :
    ∀ a : ℕ, ds.foldl (fun a c => a * 10 + dval c) a =
      a * 10 ^ ds.length + ds.foldl (fun a c => a * 10 + dval c) 0 := by
  induction ds with
  | nil => intro a; simp
  | cons c ds ih =>
    intro a
    simp only [List.foldl_cons, List.length_cons, Nat.zero_mul, Nat.zero_add]
    rw [ih (a * 10 + dval c), ih (dval c)]
    ring

theorem valOfDigits_natDigitsGo (fuel : ℕ) :
    ∀ n, n ≤ fuel → valOfDigits (natDigitsGo fuel n) = n := by
  induction fuel with
  | zero =>
    intro n hn
    interval_cases n
    rfl
  | succ f ih =>
    intro n hn
    rcases n with _ | m
    · rfl
    · rw [natDigitsGo, valOfDigits_append_singleton]
      have hdiv : (m + 1) / 10 ≤ f := by
        have h1 : (m + 1) / 10 < m + 1 := Nat.div_lt_self (by omega) (by omega)
        omega
      rw [ih _ hdiv, dval_digitChar _ (Nat.mod_lt _ (by omega))]
      omega

theorem valOfDigits_natDigitsC (n : ℕ) : valOfDigits (natDigitsC n) = n := by
  unfold natDigitsC
  by_cases h : n = 0
  · subst h; rfl
  · rw [if_neg h]
    exact valOfDigits_natDigitsGo n n (le_refl n)

theorem natDigitsC_inj (n m : ℕ) (h : natDigitsC n = natDigitsC m) : n = m := by
  have := congrArg valOfDigits h
  rwa [valOfDigits_natDigitsC, valOfDigits_natDigitsC] at this

theorem natDigitsGo_all_digits (fuel : ℕ) :
    ∀ n c, c ∈ natDigitsGo fuel n → isDigitC c = true := by
  induction fuel with
  | zero =>
    intro n c hc
    rcases n with _ | m <;> simp [natDigitsGo] at hc
  | succ f ih =>
    intro n c hc
    rcases n with _ | m
    · simp [natDigitsGo] at hc
    · rw [natDigitsGo] at hc
      rcases List.mem_append.mp hc with hc | hc
      · exact ih _ c hc
      · simp only [List.mem_singleton] at hc
        subst hc
        exact digitChar_isDigit _ (Nat.mod_lt _ (by omega))

theorem natDigitsC_all_digits (n : ℕ) (c : Char) (hc : c ∈ natDigitsC n) :
    isDigitC c = true := by
  unfold natDigitsC at hc
  by_cases h : n = 0
  · subst h
    simp only [if_pos] at hc
    simp only [List.mem_singleton] at hc
    subst hc
    decide
  · rw [if_neg h] at hc
    exact natDigitsGo_all_digits n n c hc

theorem cleanFlat_mem {α : Type} (flat : List (String × α))
    (patterns : List (String × Bool)) (p : String) (v : α) :
    (p, v) ∈ cleanFlat flat patterns ↔
      ((p, v) ∈ flat ∧ should_remove p patterns = false) := by
  unfold cleanFlat
  rw [List.mem_filter]
  simp

theorem cleanFlat_sublist {α : Type} (flat : List (String × α))
    (patterns : List (String × Bool)) :
    (cleanFlat flat patterns).Sublist flat :=
  List.filter_sublist flat

/-- C8: deletion by key pattern removes, from every non-base target file,
exactly the paths matching some pattern; every non-matching path is kept
with its value in the original relative order; the base-language file is
never modified; and the pattern `home.*` applied to a file with paths
`home.title`, `home.body`, `footer.note` leaves exactly `footer.note`. -/
theorem C8_clean_by_key_pattern {α : Type} :
    (∀ (flat : List (String × α)) (patterns : List (String × Bool)) (p : String) (v : α),
      (p, v) ∈ cleanFlat flat patterns ↔
        ((p, v) ∈ flat ∧ should_remove p patterns = false)) ∧
    (∀ (flat : List (String × α)) (patterns : List (String × Bool)),
      (cleanFlat flat patterns).Sublist flat) ∧
    (∀ (files : List (String × List (String × α))) (raw : String) (f : String × List (String × α)),
      f ∈ files → f.1 = code_to_filename BASE →
        f ∈ clean_translations_by_key files raw) ∧
    (∀ (files : List (String × List (String × α))) (raw : String) (f : String × List (String × α)),
      f ∈ files → ¬ (f.1 = code_to_filename BASE) → normalize_key_patterns raw ≠ [] →
        (f.1, cleanFlat f.2 (normalize_key_patterns raw)) ∈
          clean_translations_by_key files raw) ∧
    normalize_key_patterns "home.*" = [("home", true)] ∧
    (∀ (v1 v2 v3 : α),
      cleanFlat [("home.title", v1), ("home.body", v2), ("footer.note", v3)]
          (normalize_key_patterns "home.*") = [("footer.note", v3)]) := by
  refine ⟨cleanFlat_mem, cleanFlat_sublist, ?_, ?_, ?_, ?_⟩
  · intro files raw f hf hbase
    unfold clean_translations_by_key
    by_cases hp : normalize_key_patterns raw = []
    · simp only [hp, if_pos]
      exact hf
    · simp only [hp, if_neg, Bool.false_eq_true, not_false_iff]
      have : f = (fun f : String × List (String × α) =>
          if f.1 = code_to_filename BASE then f
          else (f.1, cleanFlat f.2 (normalize_key_patterns raw))) f := by
        simp [hbase]
      rw [this]
      exact List.mem_map_of_mem _ hf
  · intro files raw f hf hbase hp
    unfold clean_translations_by_key
    simp only [hp, if_neg, Bool.false_eq_true, not_false_iff]
    have : (f.1, cleanFlat f.2 (normalize_key_patterns raw)) =
        (fun f : String × List (String × α) =>
          if f.1 = code_to_filename BASE then f
          else (f.1, cleanFlat f.2 (normalize_key_patterns raw))) f := by
      simp [hbase]
    rw [this]
    exact List.mem_map_of_mem _ hf
  · rfl
  · intro v1 v2 v3
    rfl

/-- Witness for C8 at a concrete input. -/
theorem C8_clean_by_key_pattern_witness :
    ("zh-hans.json", [("home.title", 1)]) ∈
      clean_translations_by_key [("zh-hans.json", [("home.title", 1)])] "home.*" ∧
    ("en.json", [("footer.note", 3)]) ∈
      clean_translations_by_key
        [("en.json", [("home.title", 1), ("home.body", 2), ("footer.note", 3)])] "home.*" := by
  constructor
  · exact (C8_clean_by_key_pattern (α := ℕ)).2.2.1
      [("zh-hans.json", [("home.title", 1)])] "home.*" _ (by simp) (by decide)
  · have h := (C8_clean_by_key_pattern (α := ℕ)).2.2.2.1
      [("en.json", [("home.title", 1), ("home.body", 2), ("footer.note", 3)])] "home.*"
      ("en.json", [("home.title", 1), ("home.body", 2), ("footer.note", 3)])
      (by simp) (by decide) (by decide)
    have hc : cleanFlat [("home.title", 1), ("home.body", 2), ("footer.note", 3)]
        (normalize_key_patterns "home.*") = [("footer.note", 3)] :=
      (C8_clean_by_key_pattern (α := ℕ)).2.2.2.2.2 1 2 3
    rw [hc] at h
    exact h

theorem charToNat_inj (c d : Char) (h : c.toNat = d.toNat) : c = d :=
  Char.eq_of_val_eq (UInt32.ext h)

theorem cmpN_lt_iff (a b : ℕ) : cmpN a b = .lt ↔ a < b := by
  unfold cmpN
  by_cases h1 : a < b
  · simp [h1]
  · by_cases h2 : b < a <;> simp [h1, h2]

theorem cmpN_gt_iff (a b : ℕ) : cmpN a b = .gt ↔ b < a := by
  unfold cmpN
  by_cases h1 : a < b
  · simp [h1]
    omega
  · by_cases h2 : b < a <;> simp [h1, h2]

theorem cmpN_eq_iff (a b : ℕ) : cmpN a b = .eq ↔ a = b := by
  unfold cmpN
  by_cases h1 : a < b
  · simp [h1]
    omega
  · by_cases h2 : b < a <;> simp [h1, h2] <;> omega

theorem cmpZ_lt_iff (a b : ℤ) : cmpZ a b = .lt ↔ a < b := by
  unfold cmpZ
  by_cases h1 : a < b
  · simp [h1]
  · by_cases h2 : b < a <;> simp [h1, h2]

theorem cmpZ_gt_iff (a b : ℤ) : cmpZ a b = .gt ↔ b < a := by
  unfold cmpZ
  by_cases h1 : a < b
  · simp [h1]
    omega
  · by_cases h2 : b < a <;> simp [h1, h2]

theorem cmpZ_eq_iff (a b : ℤ) : cmpZ a b = .eq ↔ a = b := by
  unfold cmpZ
  by_cases h1 : a < b
  · simp [h1]
    omega
  · by_cases h2 : b < a <;> simp [h1, h2] <;> omega

theorem cmpCharL_eq_iff : ∀ a b : List Char, cmpCharL a b = .eq ↔ a = b := by
  intro a
  induction a with
  | nil =>
    intro b
    cases b <;> simp [cmpCharL]
  | cons c cs ih =>
    intro b
    cases b with
    | nil => simp [cmpCharL]
    | cons d ds =>
      rw [cmpCharL]
      rcases h : cmpN c.toNat d.toNat with _ | _ | _
      · constructor
        · intro hh; exact absurd hh (by simp)
        · rintro hh
          simp only [List.cons.injEq] at hh
          have he : cmpN c.toNat d.toNat = .eq := by
            rw [cmpN_eq_iff, hh.1]
          rw [he] at h
          exact absurd h (by simp)
      · have hcd := charToNat_inj c d ((cmpN_eq_iff _ _).mp h)
        subst hcd
        simp [ih]
      · constructor
        · intro hh; exact absurd hh (by simp)
        · rintro hh
          simp only [List.cons.injEq] at hh
          have he : cmpN c.toNat d.toNat = .eq := by
            rw [cmpN_eq_iff, hh.1]
          rw [he] at h
          exact absurd h (by simp)

theorem cmpCharL_gt_iff : ∀ a b : List Char, cmpCharL a b = .gt ↔ cmpCharL b a = .lt := by
  intro a
  induction a with
  | nil =>
    intro b
    cases b <;> simp [cmpCharL]
  | cons c cs ih =>
    intro b
    cases b with
    | nil => simp [cmpCharL]
    | cons d ds =>
      rw [cmpCharL, cmpCharL]
      rcases h : cmpN c.toNat d.toNat with _ | _ | _
      · have h2 : cmpN d.toNat c.toNat = .gt := by
          rw [cmpN_gt_iff]; rw [cmpN_lt_iff] at h; exact h
        rw [h2]
        simp
      · have h2 : cmpN d.toNat c.toNat = .eq := by
          rw [cmpN_eq_iff] at h ⊢; omega
        rw [h2]
        exact ih ds
      · have h2 : cmpN d.toNat c.toNat = .lt := by
          rw [cmpN_lt_iff]; rw [cmpN_gt_iff] at h; exact h
        rw [h2]
        simp

theorem cmpCharL_lt_trans :
    ∀ a b c : List Char, cmpCharL a b = .lt → cmpCharL b c = .lt → cmpCharL a c = .lt := by
  intro a
  induction a with
  | nil =>
    intro b c hab hbc
    cases c with
    | nil =>
      cases b with
      | nil => simp [cmpCharL] at hab
      | cons d ds => simp [cmpCharL] at hbc
    | cons e es => simp [cmpCharL]
  | cons x xs ih =>
    intro b c hab hbc
    cases b with
    | nil => simp [cmpCharL] at hab
    | cons y ys =>
      cases c with
      | nil => simp [cmpCharL] at hbc
      | cons z zs =>
        rw [cmpCharL] at hab hbc ⊢
        rcases h1 : cmpN x.toNat y.toNat with _ | _ | _ <;> rw [h1] at hab <;>
          rcases h2 : cmpN y.toNat z.toNat with _ | _ | _ <;> rw [h2] at hbc <;>
            simp only at hab hbc
        · have h3 : cmpN x.toNat z.toNat = .lt := by
            rw [cmpN_lt_iff] at h1 h2 ⊢; omega
          rw [h3]
        · have h3 : cmpN x.toNat z.toNat = .lt := by
            rw [cmpN_lt_iff] at h1 ⊢; rw [cmpN_eq_iff] at h2; omega
          rw [h3]
        · exact absurd hbc (by simp)
        · have h3 : cmpN x.toNat z.toNat = .lt := by
            rw [cmpN_eq_iff] at h1; rw [cmpN_lt_iff] at h2 ⊢; omega
          rw [h3]
        · have h3 : cmpN x.toNat z.toNat = .eq := by
            rw [cmpN_eq_iff] at h1 h2 ⊢; omega
          rw [h3]
          exact ih ys zs hab hbc
        · exact absurd hbc (by simp)
        · exact absurd hab (by simp)
        · exact absurd hab (by simp)
        · exact absurd hab (by simp)

theorem cmpPTok_eq_iff (a b : PTok) : cmpPTok a b = .eq ↔ a = b := by
  cases a <;> cases b <;> simp [cmpPTok, cmpZ_eq_iff, cmpCharL_eq_iff]

theorem cmpPTok_gt_iff (a b : PTok) : cmpPTok a b = .gt ↔ cmpPTok b a = .lt := by
  cases a <;> cases b <;>
    simp [cmpPTok, cmpZ_gt_iff, cmpZ_lt_iff, cmpCharL_gt_iff]

theorem cmpPTok_lt_trans (a b c : PTok) (hab : cmpPTok a b = .lt)
    (hbc : cmpPTok b c = .lt) : cmpPTok a c = .lt := by
  cases a <;> cases b <;> cases c <;> simp_all [cmpPTok, cmpZ_lt_iff]
  · omega
  · exact cmpCharL_lt_trans _ _ _ hab hbc

theorem cmpKey_eq_iff : ∀ a b : List PTok, cmpKey a b = .eq ↔ a = b := by
  intro a
  induction a with
  | nil =>
    intro b
    cases b <;> simp [cmpKey]
  | cons x xs ih =>
    intro b
    cases b with
    | nil => simp [cmpKey]
    | cons y ys =>
      rw [cmpKey]
      rcases h : cmpPTok x y with _ | _ | _
      · constructor
        · intro hh; exact absurd hh (by simp)
        · rintro hh
          simp only [List.cons.injEq] at hh
          have he : cmpPTok x y = .eq := (cmpPTok_eq_iff x y).mpr hh.1
          rw [he] at h
          exact absurd h (by simp)
      · have he := (cmpPTok_eq_iff x y).mp h
        subst he
        simp [ih]
      · constructor
        · intro hh; exact absurd hh (by simp)
        · rintro hh
          simp only [List.cons.injEq] at hh
          have he : cmpPTok x y = .eq := (cmpPTok_eq_iff x y).mpr hh.1
          rw [he] at h
          exact absurd h (by simp)

theorem cmpKey_gt_iff : ∀ a b : List PTok, cmpKey a b = .gt ↔ cmpKey b a = .lt := by
  intro a
  induction a with
  | nil =>
    intro b
    cases b <;> simp [cmpKey]
  | cons x xs ih =>
    intro b
    cases b with
    | nil => simp [cmpKey]
    | cons y ys =>
      rw [cmpKey, cmpKey]
      rcases h : cmpPTok x y with _ | _ | _
      · have h2 : cmpPTok y x = .gt := by
          rw [cmpPTok_gt_iff]; exact h
        rw [h2]
        simp
      · have h2 : cmpPTok y x = .eq := by
          rw [cmpPTok_eq_iff] at h ⊢
          exact h.symm
        rw [h2]
        exact ih ys
      · have h2 : cmpPTok y x = .lt := (cmpPTok_gt_iff x y).mp h
        rw [h2]
        simp

theorem cmpKey_lt_trans :
    ∀ a b c : List PTok, cmpKey a b = .lt → cmpKey b c = .lt → cmpKey a c = .lt := by
  intro a
  induction a with
  | nil =>
    intro b c hab hbc
    cases c with
    | nil =>
      cases b with
      | nil => simp [cmpKey] at hab
      | cons d ds => simp [cmpKey] at hbc
    | cons e es => simp [cmpKey]
  | cons x xs ih =>
    intro b c hab hbc
    cases b with
    | nil => simp [cmpKey] at hab
    | cons y ys =>
      cases c with
      | nil => simp [cmpKey] at hbc
      | cons z zs =>
        rw [cmpKey] at hab hbc ⊢
        rcases h1 : cmpPTok x y with _ | _ | _ <;> rw [h1] at hab <;>
          rcases h2 : cmpPTok y z with _ | _ | _ <;> rw [h2] at hbc <;>
            simp only at hab hbc
        · rw [cmpPTok_lt_trans x y z h1 h2]
        · rw [cmpPTok_eq_iff] at h2
          subst h2
          rw [h1]
        · exact absurd hbc (by simp)
        · rw [cmpPTok_eq_iff] at h1
          subst h1
          rw [h2]
        · rw [cmpPTok_eq_iff] at h2
          subst h2
          rw [h1]
          exact ih ys zs hab hbc
        · exact absurd hbc (by simp)
        · exact absurd hab (by simp)
        · exact absurd hab (by simp)
        · exact absurd hab (by simp)

theorem keyLE_total (a b : List PTok) : keyLE a b = true ∨ keyLE b a = true := by
  unfold keyLE
  by_cases h : cmpKey a b = .gt
  · right
    rw [cmpKey_gt_iff] at h
    simp [h]
  · left
    simp [h]

theorem keyLE_trans (a b c : List PTok) (hab : keyLE a b = true)
    (hbc : keyLE b c = true) : keyLE a c = true := by
  unfold keyLE at hab hbc ⊢
  simp only [decide_eq_true_eq] at hab hbc ⊢
  intro hac
  rcases h1 : cmpKey a b with _ | _ | _
  · rcases h2 : cmpKey b c with _ | _ | _
    · have h3 := cmpKey_lt_trans a b c h1 h2
      rw [h3] at hac
      exact absurd hac (by simp)
    · rw [cmpKey_eq_iff] at h2
      subst h2
      rw [h1] at hac
      exact absurd hac (by simp)
    · exact hbc h2
  · rw [cmpKey_eq_iff] at h1
    subst h1
    exact hbc hac
  · exact hab h1

theorem dropWhile_length_le (p : α → Bool) :
    ∀ l : List α, (l.dropWhile p).length ≤ l.length := by
  intro l
  induction l with
  | nil => simp
  | cons a l ih =>
    by_cases h : p a
    · rw [List.dropWhile_cons_of_pos h]
      simp only [List.length_cons]
      omega
    · rw [List.dropWhile_cons_of_neg (by simpa using h)]

theorem splitAtRB_spec :
    ∀ cs ia, splitAtRB cs = some ia → ia.1 ++ ']' :: ia.2 = cs ∧ ']' ∉ ia.1 := by
  intro cs
  induction cs with
  | nil => intro ia h; exact Option.noConfusion h
  | cons c r ih =>
    intro ia h
    rw [splitAtRB] at h
    by_cases hc : c = ']'
    · rw [if_pos hc] at h
      simp only [Option.some.injEq] at h
      subst h
      simp [hc]
    · rw [if_neg hc] at h
      rcases hs : splitAtRB r with _ | pr
      · rw [hs] at h
        exact Option.noConfusion h
      · rw [hs] at h
        simp only [Option.map_some', Option.some.injEq] at h
        subst h
        rcases ih pr hs with ⟨h1, h2⟩
        refine ⟨by simp [h1], ?_⟩
        simp only [List.mem_cons, not_or]
        exact ⟨fun hh => hc hh.symm, h2⟩

theorem splitAtRB_none_iff (cs : List Char) :
    splitAtRB cs = none ↔ ']' ∉ cs := by
  induction cs with
  | nil => simp [splitAtRB]
  | cons c r ih =>
    rw [splitAtRB]
    by_cases hc : c = ']'
    · subst hc
      simp
    · rw [if_neg hc]
      simp only [List.mem_cons, not_or]
      constructor
      · intro h
        rcases hs : splitAtRB r with _ | pr
        · exact ⟨fun hh => hc hh.symm, ih.mp hs⟩
        · rw [hs] at h
          exact Option.noConfusion h
      · rintro ⟨h1, h2⟩
        rw [ih.mpr h2]
        rfl

theorem splitAtRB_append (u w : List Char) (ia : List Char × List Char)
    (h : splitAtRB u = some ia) :
    splitAtRB (u ++ w) = some (ia.1, ia.2 ++ w) := by
  induction u generalizing ia with
  | nil => exact Option.noConfusion h
  | cons c r ih =>
    rw [splitAtRB] at h
    rw [List.cons_append, splitAtRB]
    by_cases hc : c = ']'
    · rw [if_pos hc] at h ⊢
      simp only [Option.some.injEq] at h
      subst h
      rfl
    · rw [if_neg hc] at h ⊢
      rcases hs : splitAtRB r with _ | pr
      · rw [hs] at h
        exact Option.noConfusion h
      · rw [hs] at h
        simp only [Option.map_some', Option.some.injEq] at h
        subst h
        rw [ih pr hs]
        rfl

theorem parseF_fuel :
    ∀ fuel fuel' cs, cs.length ≤ fuel → cs.length ≤ fuel' →
      parseF fuel cs = parseF fuel' cs := by
  intro fuel
  induction fuel with
  | zero =>
    intro fuel' cs h _
    rcases cs with _ | ⟨c, rest⟩
    · cases fuel' <;> rfl
    · simp at h
  | succ f ih =>
    intro fuel' cs h h'
    rcases cs with _ | ⟨c, rest⟩
    · cases fuel' <;> rfl
    · rcases fuel' with _ | f'
      · simp at h'
      · simp only [List.length_cons] at h h'
        rw [parseF, parseF]
        by_cases hc : c = '['
        · rw [if_pos hc, if_pos hc]
          rcases hs : splitAtRB rest with _ | ia
          · rfl
          · show (match pyInt ia.1 with
              | none => Except.error "ValueError: invalid literal for int"
              | some i => (parseF f ia.2).map (fun ts => PTok.pint i :: ts)) =
              (match pyInt ia.1 with
              | none => Except.error "ValueError: invalid literal for int"
              | some i => (parseF f' ia.2).map (fun ts => PTok.pint i :: ts))
            rcases hi : pyInt ia.1 with _ | i
            · rfl
            · show (parseF f ia.2).map (fun ts => PTok.pint i :: ts) =
                (parseF f' ia.2).map (fun ts => PTok.pint i :: ts)
              have hlen : ia.2.length ≤ rest.length := by
                have := congrArg List.length (splitAtRB_spec rest ia hs).1
                simp only [List.length_append, List.length_cons] at this
                omega
              rw [ih f' ia.2 (by omega) (by omega)]
        · rw [if_neg hc, if_neg hc]
          by_cases hd : c = '.'
          · rw [if_pos hd, if_pos hd]
            exact ih f' rest (by omega) (by omega)
          · rw [if_neg hd, if_neg hd]
            have hkc : keyChar c = true := by
              simp [keyChar, hc, hd]
            rw [List.dropWhile_cons_of_pos hkc]
            have hlen := dropWhile_length_le keyChar rest
            rw [ih f' (rest.dropWhile keyChar) (by omega) (by omega)]

theorem parse_path_nil : parse_path_tokens [] = .ok [] := rfl

theorem parse_path_bracket_noclose (rest : List Char) (h : splitAtRB rest = none) :
    parse_path_tokens ('[' :: rest) = .error "ValueError: substring not found" := by
  unfold parse_path_tokens
  simp only [List.length_cons]
  rw [parseF, if_pos rfl, h]

theorem parse_path_bracket_badint (rest : List Char) (ia : List Char × List Char)
    (h : splitAtRB rest = some ia) (h2 : pyInt ia.1 = none) :
    parse_path_tokens ('[' :: rest) = .error "ValueError: invalid literal for int" := by
  unfold parse_path_tokens
  simp only [List.length_cons]
  rw [parseF, if_pos rfl, h]
  show (match pyInt ia.1 with
    | none => Except.error "ValueError: invalid literal for int"
    | some i => (parseF rest.length ia.2).map (fun ts => PTok.pint i :: ts)) = _
  rw [h2]

theorem parse_path_bracket_ok (rest : List Char) (ia : List Char × List Char) (i : ℤ)
    (h : splitAtRB rest = some ia) (h2 : pyInt ia.1 = some i) :
    parse_path_tokens ('[' :: rest) =
      (parse_path_tokens ia.2).map (fun ts => .pint i :: ts) := by
  unfold parse_path_tokens
  simp only [List.length_cons]
  rw [parseF, if_pos rfl, h]
  show (match pyInt ia.1 with
    | none => Except.error "ValueError: invalid literal for int"
    | some i => (parseF rest.length ia.2).map (fun ts => PTok.pint i :: ts)) = _
  rw [h2]
  show (parseF rest.length ia.2).map (fun ts => PTok.pint i :: ts) =
    (parse_path_tokens ia.2).map (fun ts => PTok.pint i :: ts)
  unfold parse_path_tokens
  have hlen : ia.2.length ≤ rest.length := by
    have := congrArg List.length (splitAtRB_spec rest ia h).1
    simp only [List.length_append, List.length_cons] at this
    omega
  rw [parseF_fuel rest.length ia.2.length ia.2 hlen (le_refl _)]

theorem parse_path_dot (rest : List Char) :
    parse_path_tokens ('.' :: rest) = parse_path_tokens rest := by
  unfold parse_path_tokens
  simp only [List.length_cons]
  rw [parseF, if_neg (by decide), if_pos rfl]

theorem parse_path_key (c : Char) (rest : List Char) (h : keyChar c = true) :
    parse_path_tokens (c :: rest) =
      (parse_path_tokens (rest.dropWhile keyChar)).map
        (fun ts => .pstr (c :: rest.takeWhile keyChar) :: ts) := by
  have hc : ¬ (c = '[') := by
    simp [keyChar] at h
    exact h.2
  have hd : ¬ (c = '.') := by
    simp [keyChar] at h
    exact h.1
  unfold parse_path_tokens
  simp only [List.length_cons]
  rw [parseF, if_neg hc, if_neg hd, List.dropWhile_cons_of_pos h,
    List.takeWhile_cons_of_pos h]
  have hlen := dropWhile_length_le keyChar rest
  rw [parseF_fuel rest.length (rest.dropWhile keyChar).length (rest.dropWhile keyChar)
    hlen (le_refl _)]

theorem keyedOf_map_snd {α : Type} :
    ∀ (pairs : List (String × α)) keyed, keyedOf pairs = .ok keyed →
      keyed.map (fun kp => kp.2) = pairs := by
  intro pairs
  induction pairs with
  | nil =>
    intro keyed h
    simp only [keyedOf] at h
    rcases h with rfl | _
    · rfl
  | cons pv rest ih =>
    intro keyed h
    rw [keyedOf] at h
    rcases hp : parse_path_tokens pv.1.data with e | k
    · rw [hp] at h
      exact Except.noConfusion h
    · rw [hp] at h
      rcases hr : keyedOf rest with e | ks
      · rw [hr] at h
        exact Except.noConfusion h
      · rw [hr] at h
        simp only [Except.map, Except.ok.injEq] at h
        subst h
        simp [ih ks hr]

theorem keyedOf_mem_parse {α : Type} :
    ∀ (pairs : List (String × α)) keyed kp, keyedOf pairs = .ok keyed →
      kp ∈ keyed → parse_path_tokens kp.2.1.data = .ok kp.1 := by
  intro pairs
  induction pairs with
  | nil =>
    intro keyed kp h hm
    simp only [keyedOf] at h
    rcases h with rfl | _
    simp at hm
  | cons pv rest ih =>
    intro keyed kp h hm
    rw [keyedOf] at h
    rcases hp : parse_path_tokens pv.1.data with e | k
    · rw [hp] at h
      exact Except.noConfusion h
    · rw [hp] at h
      rcases hr : keyedOf rest with e | ks
      · rw [hr] at h
        exact Except.noConfusion h
      · rw [hr] at h
        simp only [Except.map, Except.ok.injEq] at h
        subst h
        rcases List.mem_cons.mp hm with hm | hm
        · subst hm
          exact hp
        · exact ih ks kp hr hm

theorem keyedOf_error_of_mem {α : Type} :
    ∀ (pairs : List (String × α)) pv, pv ∈ pairs →
      (parse_path_tokens pv.1.data).isOk = false → (keyedOf pairs).isOk = false := by
  intro pairs
  induction pairs with
  | nil =>
    intro pv hm _
    simp at hm
  | cons qv rest ih =>
    intro pv hm hbad
    rw [keyedOf]
    rcases List.mem_cons.mp hm with hm | hm
    · subst hm
      rcases hp : parse_path_tokens pv.1.data with e | k
      · rfl
      · rw [hp] at hbad
        simp [Except.isOk, Except.toBool] at hbad
    · rcases hp : parse_path_tokens qv.1.data with e | k
      · rfl
      · have := ih pv hm hbad
        rcases hr : keyedOf rest with e | ks
        · rfl
        · rw [hr] at this
          simp [Except.isOk, Except.toBool] at this

theorem exceptMap_isOk {ε α β : Type} (f : α → β) (x : Except ε α) :
    (x.map f).isOk = x.isOk := by
  cases x <;> rfl

/-- C9: the explicit sort operation computes `path_sort_key` for every flat
path (token list, array indices tagged before object keys) and stable-sorts
by the token-wise comparator: the result is a permutation of the input,
pairwise ordered by `keyLE` on the parsed keys; in particular the paths
`["b.c", "a", "b[2]", "b[1]"]` come out as `["a", "b[1]", "b[2]", "b.c"]`. -/
theorem C9_sort_by_path_key {α : Type} (pairs res : List (String × α))
    (h : sort_locale_pairs pairs = .ok res) :
    res.Perm pairs ∧
    res.Pairwise (fun pv qv => ∀ k1 k2, parse_path_tokens pv.1.data = .ok k1 →
      parse_path_tokens qv.1.data = .ok k2 → keyLE k1 k2 = true) ∧
    (∀ v1 v2 v3 v4 : α,
      sort_locale_pairs [("b.c", v1), ("a", v2), ("b[2]", v3), ("b[1]", v4)] =
        .ok [("a", v2), ("b[1]", v4), ("b[2]", v3), ("b.c", v1)]) := by
  unfold sort_locale_pairs at h
  rcases hk : keyedOf pairs with e | keyed
  · rw [hk] at h
    exact Except.noConfusion h
  · rw [hk] at h
    simp only [Except.ok.injEq] at h
    subst h
    haveI hTot : IsTotal (List PTok × (String × α))
        (fun a b => keyLE a.1 b.1 = true) := ⟨fun a b => keyLE_total a.1 b.1⟩
    haveI hTr : IsTrans (List PTok × (String × α))
        (fun a b => keyLE a.1 b.1 = true) := ⟨fun a b c => keyLE_trans a.1 b.1 c.1⟩
    refine ⟨?_, ?_, ?_⟩
    · have hperm := List.perm_insertionSort
        (fun (a b : List PTok × (String × α)) => keyLE a.1 b.1 = true) keyed
      have := hperm.map (fun kp : List PTok × (String × α) => kp.2)
      rwa [keyedOf_map_snd pairs keyed hk] at this
    · have hsorted := List.sorted_insertionSort
        (fun (a b : List PTok × (String × α)) => keyLE a.1 b.1 = true) keyed
      rw [List.pairwise_map]
      apply hsorted.imp_of_mem
      intro a b ha hb hle k1 k2 hk1 hk2
      have hperm := List.perm_insertionSort
        (fun (a b : List PTok × (String × α)) => keyLE a.1 b.1 = true) keyed
      have hpa := keyedOf_mem_parse pairs keyed a hk (hperm.mem_iff.mp ha)
      have hpb := keyedOf_mem_parse pairs keyed b hk (hperm.mem_iff.mp hb)
      rw [hpa] at hk1
      rw [hpb] at hk2
      simp only [Except.ok.injEq] at hk1 hk2
      subst hk1
      subst hk2
      exact hle
    · intro v1 v2 v3 v4
      rfl

/-- Witness for C9 at the scenario input. -/
theorem C9_sort_by_path_key_witness :
    sort_locale_pairs [("b.c", 1), ("a", 2), ("b[2]", 3), ("b[1]", 4)] =
      .ok [("a", 2), ("b[1]", 4), ("b[2]", 3), ("b.c", 1)] ∧
    ([("a", 2), ("b[1]", 4), ("b[2]", 3), ("b.c", 1)] : List (String × ℕ)).Perm
      [("b.c", 1), ("a", 2), ("b[2]", 3), ("b[1]", 4)] := by
  constructor
  · rfl
  · exact (C9_sort_by_path_key [("b.c", 1), ("a", 2), ("b[2]", 3), ("b[1]", 4)]
      [("a", 2), ("b[1]", 4), ("b[2]", 3), ("b.c", 1)] rfl).1

theorem isDigitC_not_ws (c : Char) (h : isDigitC c = true) : pyWs c = false := by
  by_contra hw
  have hw2 : pyWs c = true := by simpa using hw
  simp only [pyWs, decide_eq_true_eq] at hw2
  rcases hw2 with rfl | rfl | rfl | rfl | rfl | rfl <;> exact absurd h (by decide)

theorem dropWhile_eq_self_of_head {β : Type} (p : β → Bool) (cs : List β)
    (h : ∀ c ∈ cs.take 1, p c = false) : cs.dropWhile p = cs := by
  cases cs with
  | nil => rfl
  | cons c r =>
    apply List.dropWhile_cons_of_neg
    simp [h c (by simp)]

theorem pyStripC_all_digits (cs : List Char) (hne : cs ≠ [])
    (h : ∀ c ∈ cs, isDigitC c = true) : pyStripC cs = cs := by
  unfold pyStripC
  have h1 : cs.dropWhile pyWs = cs := by
    apply dropWhile_eq_self_of_head
    intro c hc
    exact isDigitC_not_ws c (h c (List.mem_of_mem_take hc))
  rw [h1]
  have h2 : cs.reverse.dropWhile pyWs = cs.reverse := by
    apply dropWhile_eq_self_of_head
    intro c hc
    have : c ∈ cs.reverse := List.mem_of_mem_take hc
    exact isDigitC_not_ws c (h c (List.mem_reverse.mp this))
  rw [h2, List.reverse_reverse]

theorem pyDigitsGo_all_digits :
    ∀ (r : List Char) (acc : ℕ), (∀ c ∈ r, isDigitC c = true) →
      ∃ k, pyDigitsGo acc r = some k := by
  intro r
  induction r with
  | nil => intro acc _; exact ⟨acc, rfl⟩
  | cons c r2 ih =>
    intro acc h
    have hc := h c (by simp)
    have hcu : ¬ (c = '_') := by
      intro hh
      subst hh
      exact absurd hc (by decide)
    rcases r2 with _ | ⟨d, r3⟩
    · rw [pyDigitsGo, if_pos hc]
      exact ⟨_, rfl⟩
    · rw [pyDigitsGo, if_neg hcu, if_pos hc]
      exact ih _ (fun x hx => h x (by simp [hx]))

theorem pyInt_all_digits (cs : List Char) (hne : ¬ (cs = []))
    (h : ∀ c ∈ cs, isDigitC c = true) : ∃ k, pyInt cs = some k := by
  unfold pyInt
  rw [pyStripC_all_digits cs hne h]
  rcases cs with _ | ⟨d, ds⟩
  · exact absurd rfl hne
  · have hd := h d (by simp)
    have hdp : ¬ (d = '+') := by
      intro hh; subst hh; exact absurd hd (by decide)
    have hdm : ¬ (d = '-') := by
      intro hh; subst hh; exact absurd hd (by decide)
    show ∃ k, (if d = '+' then Option.map (fun n : ℕ => Int.ofNat n) (pyDigits ds)
      else if d = '-' then Option.map (fun n : ℕ => -(Int.ofNat n)) (pyDigits ds)
      else Option.map (fun n : ℕ => Int.ofNat n) (pyDigits (d :: ds))) = some k
    rw [if_neg hdp, if_neg hdm]
    unfold pyDigits
    show ∃ k, Option.map (fun n : ℕ => Int.ofNat n)
      (if isDigitC d = true then pyDigitsGo (dval d) ds else none) = some k
    rw [if_pos hd]
    rcases pyDigitsGo_all_digits ds (dval d) (fun x hx => h x (by simp [hx])) with ⟨k, hk⟩
    exact ⟨Int.ofNat k, by rw [hk]; rfl⟩

theorem bracketOkF_fuel :
    ∀ fuel fuel' cs, cs.length ≤ fuel → cs.length ≤ fuel' →
      bracketOkF fuel cs = bracketOkF fuel' cs := by
  intro fuel
  induction fuel with
  | zero =>
    intro fuel' cs h _
    rcases cs with _ | ⟨c, rest⟩
    · cases fuel' <;> rfl
    · simp at h
  | succ f ih =>
    intro fuel' cs h h'
    rcases cs with _ | ⟨c, rest⟩
    · cases fuel' <;> rfl
    · rcases fuel' with _ | f'
      · simp at h'
      · simp only [List.length_cons] at h h'
        rw [bracketOkF, bracketOkF]
        by_cases hc : c = '['
        · rw [if_pos hc, if_pos hc]
          rcases hs : splitAtRB rest with _ | ia
          · rfl
          · show (¬(ia.1 = []) && ia.1.all isDigitC && bracketOkF f ia.2) =
              (¬(ia.1 = []) && ia.1.all isDigitC && bracketOkF f' ia.2)
            have hlen : ia.2.length ≤ rest.length := by
              have := congrArg List.length (splitAtRB_spec rest ia hs).1
              simp only [List.length_append, List.length_cons] at this
              omega
            rw [ih f' ia.2 (by omega) (by omega)]
        · rw [if_neg hc, if_neg hc]
          exact ih f' rest (by omega) (by omega)

theorem bracketOk_bracket_none (rest : List Char) (h : splitAtRB rest = none) :
    bracketOk ('[' :: rest) = false := by
  unfold bracketOk
  simp only [List.length_cons]
  rw [bracketOkF, if_pos rfl, h]

theorem bracketOk_bracket_some (rest : List Char) (ia : List Char × List Char)
    (h : splitAtRB rest = some ia) :
    bracketOk ('[' :: rest) = (¬(ia.1 = []) && ia.1.all isDigitC && bracketOk ia.2) := by
  unfold bracketOk
  simp only [List.length_cons]
  rw [bracketOkF, if_pos rfl, h]
  show (¬(ia.1 = []) && ia.1.all isDigitC && bracketOkF rest.length ia.2) = _
  have hlen : ia.2.length ≤ rest.length := by
    have := congrArg List.length (splitAtRB_spec rest ia h).1
    simp only [List.length_append, List.length_cons] at this
    omega
  rw [bracketOkF_fuel rest.length ia.2.length ia.2 hlen (le_refl _)]

theorem bracketOk_cons_ne (c : Char) (rest : List Char) (h : ¬ (c = '[')) :
    bracketOk (c :: rest) = bracketOk rest := by
  unfold bracketOk
  simp only [List.length_cons]
  rw [bracketOkF, if_neg h]

theorem keyChar_ne_bracket (c : Char) (h : keyChar c = true) : ¬ (c = '[') := by
  simp [keyChar] at h
  exact h.2

theorem bracketOk_dropWhile_keyChar :
    ∀ cs : List Char, bracketOk cs = true → bracketOk (cs.dropWhile keyChar) = true := by
  intro cs
  induction cs with
  | nil => intro h; exact h
  | cons c rest ih =>
    intro h
    by_cases hk : keyChar c
    · rw [List.dropWhile_cons_of_pos hk]
      apply ih
      rw [← bracketOk_cons_ne c rest (keyChar_ne_bracket c hk)]
      exact h
    · rw [List.dropWhile_cons_of_neg (by simpa using hk)]
      exact h

theorem parse_ok_of_bracketOk :
    ∀ (n : ℕ) (cs : List Char), cs.length ≤ n → bracketOk cs = true →
      (parse_path_tokens cs).isOk = true := by
  intro n
  induction n with
  | zero =>
    intro cs h _
    rcases cs with _ | ⟨c, rest⟩
    · rfl
    · simp at h
  | succ n ih =>
    intro cs hlen hok
    rcases cs with _ | ⟨c, rest⟩
    · rfl
    · simp only [List.length_cons] at hlen
      by_cases hc : c = '['
      · subst hc
        rcases hs : splitAtRB rest with _ | ia
        · rw [bracketOk_bracket_none rest hs] at hok
          exact Bool.noConfusion hok
        · rw [bracketOk_bracket_some rest ia hs] at hok
          simp only [Bool.and_eq_true, decide_eq_true_eq] at hok
          rcases hok with ⟨⟨hne, hdig⟩, hrest⟩
          have hdig2 : ∀ x ∈ ia.1, isDigitC x = true := by
            intro x hx
            exact List.all_eq_true.mp hdig x hx
          rcases pyInt_all_digits ia.1 hne hdig2 with ⟨k, hk⟩
          rw [parse_path_bracket_ok rest ia k hs hk, exceptMap_isOk]
          have hlen2 : ia.2.length ≤ n := by
            have := congrArg List.length (splitAtRB_spec rest ia hs).1
            simp only [List.length_append, List.length_cons] at this
            omega
          exact ih ia.2 hlen2 hrest
      · by_cases hd : c = '.'
        · subst hd
          rw [parse_path_dot]
          apply ih rest (by omega)
          rw [← bracketOk_cons_ne '.' rest (by decide)]
          exact hok
        · have hkc : keyChar c = true := by simp [keyChar, hc, hd]
          rw [parse_path_key c rest hkc, exceptMap_isOk]
          have hok2 : bracketOk (rest.dropWhile keyChar) = true := by
            apply bracketOk_dropWhile_keyChar
            rw [← bracketOk_cons_ne c rest hc]
            exact hok
          have hlen2 : (rest.dropWhile keyChar).length ≤ n := by
            have := dropWhile_length_le keyChar rest
            omega
          exact ih (rest.dropWhile keyChar) hlen2 hok2

theorem dropWhile_append_nil {β : Type} (p : β → Bool) :
    ∀ (a b : List β), a.dropWhile p = [] →
      (a ++ b).dropWhile p = b.dropWhile p := by
  intro a
  induction a with
  | nil => intro b _; rfl
  | cons x a ih =>
    intro b h
    by_cases hx : p x
    · rw [List.cons_append, List.dropWhile_cons_of_pos hx]
      rw [List.dropWhile_cons_of_pos hx] at h
      exact ih b h
    · rw [List.dropWhile_cons_of_neg (by simpa using hx)] at h
      exact absurd h (by simp)

theorem dropWhile_append_ne {β : Type} (p : β → Bool) :
    ∀ (a b : List β), ¬ (a.dropWhile p = []) →
      (a ++ b).dropWhile p = a.dropWhile p ++ b := by
  intro a
  induction a with
  | nil => intro b h; exact absurd rfl h
  | cons x a ih =>
    intro b h
    by_cases hx : p x
    · rw [List.cons_append, List.dropWhile_cons_of_pos hx, List.dropWhile_cons_of_pos hx]
      exact ih b (by rwa [List.dropWhile_cons_of_pos hx] at h)
    · rw [List.cons_append, List.dropWhile_cons_of_neg (by simpa using hx),
        List.dropWhile_cons_of_neg (by simpa using hx)]
      rfl

theorem parse_unclosed :
    ∀ (n : ℕ) (u v : List Char), u.length ≤ n → (parse_path_tokens u).isOk = true →
      ']' ∉ v →
      parse_path_tokens (u ++ '[' :: v) = .error "ValueError: substring not found" := by
  intro n
  induction n with
  | zero =>
    intro u v hlen _ hv
    rcases u with _ | ⟨c, rest⟩
    · simp only [List.nil_append]
      exact parse_path_bracket_noclose v ((splitAtRB_none_iff v).mpr hv)
    · simp at hlen
  | succ n ih =>
    intro u v hlen hok hv
    rcases u with _ | ⟨c, rest⟩
    · simp only [List.nil_append]
      exact parse_path_bracket_noclose v ((splitAtRB_none_iff v).mpr hv)
    · simp only [List.length_cons] at hlen
      by_cases hc : c = '['
      · subst hc
        rcases hs : splitAtRB rest with _ | ia
        · rw [parse_path_bracket_noclose rest hs] at hok
          exact Bool.noConfusion hok
        · rcases hi : pyInt ia.1 with _ | i
          · rw [parse_path_bracket_badint rest ia hs hi] at hok
            exact Bool.noConfusion hok
          · rw [parse_path_bracket_ok rest ia i hs hi, exceptMap_isOk] at hok
            have hs2 := splitAtRB_append rest ('[' :: v) ia hs
            rw [List.cons_append,
              parse_path_bracket_ok (rest ++ '[' :: v) (ia.1, ia.2 ++ '[' :: v) i hs2 hi]
            have hlen2 : ia.2.length ≤ n := by
              have := congrArg List.length (splitAtRB_spec rest ia hs).1
              simp only [List.length_append, List.length_cons] at this
              omega
            show (parse_path_tokens ((ia.1, ia.2 ++ '[' :: v).2)).map
              (fun ts => PTok.pint i :: ts) = _
            rw [ih ia.2 v hlen2 hok hv]
            rfl
      · by_cases hd : c = '.'
        · subst hd
          rw [parse_path_dot] at hok
          rw [List.cons_append, parse_path_dot]
          exact ih rest v (by omega) hok hv
        · have hkc : keyChar c = true := by simp [keyChar, hc, hd]
          rw [parse_path_key c rest hkc, exceptMap_isOk] at hok
          rw [List.cons_append, parse_path_key c (rest ++ '[' :: v) hkc]
          by_cases hdw : rest.dropWhile keyChar = []
          · have h1 : (rest ++ '[' :: v).dropWhile keyChar = '[' :: v := by
              rw [dropWhile_append_nil keyChar rest ('[' :: v) hdw]
              exact List.dropWhile_cons_of_neg (by decide)
            rw [h1]
            have h2 := ih [] v (by simp) rfl hv
            simp only [List.nil_append] at h2
            rw [h2]
            rfl
          · rw [dropWhile_append_ne keyChar rest ('[' :: v) hdw]
            have hlen2 : (rest.dropWhile keyChar).length ≤ n := by
              have := dropWhile_length_le keyChar rest
              omega
            rw [ih (rest.dropWhile keyChar) v hlen2 hok hv]
            rfl

/-- C10 counterexample: the claim says a path whose bracket contents are not
decimal digits makes `parse_path_tokens` raise, but Python's `int` also
accepts a sign (and underscores and whitespace), so `a[-1]` parses
successfully instead of raising. -/
theorem C10_counterexample :
    parse_path_tokens "a[-1]".data = .ok [.pstr ['a'], .pint (-1)] := by rfl

/-- C10 (amended): `parse_path_tokens` is total and returns a token list for
every path whose brackets all close over nonempty digit contents; an
unclosed `[` (after any well-parsed prefix) raises; bracket contents are
accepted exactly when Python's `int` accepts them — beyond plain digits this
includes signed text such as `-1`, so non-digit contents do not always
raise; sorting a locale file propagates the failure: a file containing a key
on which `parse_path_tokens` raises makes `sort_locale_pairs` fail rather
than produce an order. -/
theorem C10_parse_path_tokens_amended :
    (∀ cs : List Char, bracketOk cs = true → (parse_path_tokens cs).isOk = true) ∧
    (∀ u v : List Char, (parse_path_tokens u).isOk = true → ']' ∉ v →
      parse_path_tokens (u ++ '[' :: v) = .error "ValueError: substring not found") ∧
    parse_path_tokens "a[-1]".data = .ok [.pstr ['a'], .pint (-1)] ∧
    (∀ (α : Type) (pairs : List (String × α)) pv, pv ∈ pairs →
      (parse_path_tokens pv.1.data).isOk = false →
      (sort_locale_pairs pairs).isOk = false) := by
  refine ⟨?_, ?_, C10_counterexample, ?_⟩
  · intro cs hok
    exact parse_ok_of_bracketOk cs.length cs (le_refl _) hok
  · intro u v hok hv
    exact parse_unclosed u.length u v (le_refl _) hok hv
  · intro α pairs pv hm hbad
    unfold sort_locale_pairs
    have hko := keyedOf_error_of_mem pairs pv hm hbad
    rcases hk : keyedOf pairs with e | ks
    · rfl
    · rw [hk] at hko
      simp [Except.isOk, Except.toBool] at hko

/-- Witness for C10 (amended) at concrete inputs. -/
theorem C10_parse_path_tokens_amended_witness :
    bracketOk "a[0]".data = true ∧ (parse_path_tokens "a[0]".data).isOk = true ∧
    (parse_path_tokens "a".data).isOk = true ∧ ']' ∉ "b".data ∧
    parse_path_tokens ("a".data ++ '[' :: "b".data) =
      .error "ValueError: substring not found" ∧
    ("a[", 0) ∈ [("a[", (0 : ℕ))] ∧
    (parse_path_tokens "a[".data).isOk = false ∧
    (sort_locale_pairs [("a[", (0 : ℕ))]).isOk = false := by
  refine ⟨by decide, C10_parse_path_tokens_amended.1 _ (by decide), by decide, by decide,
    C10_parse_path_tokens_amended.2.1 _ _ (by decide) (by decide), by simp, by decide,
    C10_parse_path_tokens_amended.2.2.2 ℕ [("a[", 0)] ("a[", 0) (by simp) (by decide)⟩

theorem dHas_append (d d2 : List (String × α)) (k : String) :
    dHas (d ++ d2) k = (dHas d k || dHas d2 k) := by
  induction d with
  | nil => simp [dHas]
  | cons e d ih => simp [dHas, ih, Bool.or_assoc]

theorem dIns_fresh (d : List (String × α)) (k : String) (v : α)
    (h : dHas d k = false) : dIns d k v = d ++ [(k, v)] := by
  simp [dIns, h]

theorem keyInj (d : List (String × α)) (h : NodupKeys d) {x y : String × α}
    (hx : x ∈ d) (hy : y ∈ d) (hk : x.1 = y.1) : x = y :=
  List.inj_on_of_nodup_map (by simpa [NodupKeys, keysOf] using h) hx hy hk

theorem nodupKeys_cons_tail {e : String × α} {d : List (String × α)}
    (h : NodupKeys (e :: d)) : NodupKeys d := by
  unfold NodupKeys keysOf at h ⊢
  simp only [List.map_cons, List.nodup_cons] at h
  exact h.2

theorem nodupKeys_cons_head {e : String × α} {d : List (String × α)}
    (h : NodupKeys (e :: d)) : ∀ pv ∈ d, ¬ (e.1 = pv.1) := by
  intro pv hpv heq
  unfold NodupKeys keysOf at h
  simp only [List.map_cons, List.nodup_cons] at h
  exact h.1 (heq ▸ List.mem_map_of_mem Prod.fst hpv)

theorem keysOf_mapFst (B : List (String × α)) (f : String × α → α) :
    keysOf (B.map (fun pv => (pv.1, f pv))) = keysOf B := by
  simp [keysOf, List.map_map, Function.comp]

theorem dHas_filter_iff (B : List (String × α)) (p : String × α → Bool) (k : String) :
    dHas (B.filter p) k = true ↔ ∃ pv, pv ∈ B ∧ p pv = true ∧ pv.1 = k := by
  rw [dHas_iff_mem_keys]
  simp only [keysOf, List.mem_map, List.mem_filter]
  constructor
  · rintro ⟨pv, ⟨h1, h2⟩, h3⟩
    exact ⟨pv, h1, h2, h3⟩
  · rintro ⟨pv, h1, h2, h3⟩
    exact ⟨pv, ⟨h1, h2⟩, h3⟩

theorem foldl_dIns_id_go (E : List (String × α)) :
    ∀ d, NodupKeys E → (∀ pv ∈ E, dHas d pv.1 = false) →
    E.foldl (fun d pv => dIns d pv.1 pv.2) d = d ++ E := by
  induction E with
  | nil => intro d _ _; simp
  | cons e E ih =>
    intro d hnd hfresh
    have hke : dHas d e.1 = false := hfresh e (List.mem_cons_self e E)
    simp only [List.foldl_cons]
    rw [dIns_fresh d e.1 e.2 hke]
    rw [ih (d ++ [(e.1, e.2)]) (nodupKeys_cons_tail hnd) ?fresh]
    · simp
    case fresh =>
      intro pv hpv
      rw [dHas_append]
      simp [dHas, hfresh pv (List.mem_cons_of_mem e hpv), nodupKeys_cons_head hnd pv hpv]

theorem dOf_eq_self (E : List (String × α)) (hE : NodupKeys E) : dOf E = E := by
  unfold dOf
  rw [foldl_dIns_id_go E [] hE (by intro pv _; rfl)]
  simp

theorem skelFull_go (B : List (String × JVal)) :
    ∀ d : List (String × JVal), NodupKeys B → (∀ pv ∈ B, dHas d pv.1 = false) →
    B.foldl (fun d pv => if isStr pv.2 then dIns d pv.1 (.str "") else dIns d pv.1 pv.2) d
      = d ++ B.map (fun pv => (pv.1, blankVal pv.2)) := by
  induction B with
  | nil => intro d _ _; simp
  | cons e B ih =>
    intro d hnd hfresh
    have hke : dHas d e.1 = false := hfresh e (List.mem_cons_self e B)
    have hstep : (if isStr e.2 then dIns d e.1 (.str "") else dIns d e.1 e.2)
        = d ++ [(e.1, blankVal e.2)] := by
      unfold blankVal
      by_cases hs : isStr e.2
      · simp only [hs, if_pos]
        exact dIns_fresh d e.1 _ hke
      · simp only [hs, Bool.false_eq_true, if_false]
        exact dIns_fresh d e.1 _ hke
    simp only [List.foldl_cons]
    rw [hstep, ih (d ++ [(e.1, blankVal e.2)]) (nodupKeys_cons_tail hnd) ?fresh]
    · simp
    case fresh =>
      intro pv hpv
      rw [dHas_append]
      simp [dHas, hfresh pv (List.mem_cons_of_mem e hpv), nodupKeys_cons_head hnd pv hpv]

theorem skelIncr1_go (B : List (String × JVal)) :
    ∀ d, NodupKeys B →
    B.foldl (fun d pv =>
        if dHas d pv.1 then d else if isStr pv.2 then d else dIns d pv.1 pv.2) d
      = d ++ B.filter (fun pv => !dHas d pv.1 && !isStr pv.2) := by
  induction B with
  | nil => intro d _; simp
  | cons e B ih =>
    intro d hnd
    simp only [List.foldl_cons]
    by_cases h1 : dHas d e.1
    · rw [if_pos h1, ih d (nodupKeys_cons_tail hnd)]
      simp [List.filter_cons, h1]
    · rw [if_neg h1]
      by_cases h2 : isStr e.2
      · rw [if_pos h2, ih d (nodupKeys_cons_tail hnd)]
        simp [List.filter_cons, h1, h2]
      · rw [if_neg h2, ih (dIns d e.1 e.2) (nodupKeys_cons_tail hnd)]
        rw [dIns_fresh d e.1 e.2 (by simpa using h1)]
        have hcongr : B.filter (fun pv => !dHas (d ++ [(e.1, e.2)]) pv.1 && !isStr pv.2)
            = B.filter (fun pv => !dHas d pv.1 && !isStr pv.2) := by
          apply List.filter_congr
          intro pv hpv
          rw [dHas_append]
          simp [dHas, nodupKeys_cons_head hnd pv hpv]
        rw [hcongr]
        have hpe : (!dHas d e.1 && !isStr e.2) = true := by
          simp [h1, h2]
        simp [List.filter_cons, hpe]

theorem skelIncr2_go (B : List (String × JVal)) :
    ∀ d, NodupKeys B →
    B.foldl (fun d pv =>
        if dHas d pv.1 then d else if isStr pv.2 then dIns d pv.1 (.str "") else d) d
      = d ++ (B.filter (fun pv => !dHas d pv.1 && isStr pv.2)).map
          (fun pv => (pv.1, JVal.str "")) := by
  induction B with
  | nil => intro d _; simp
  | cons e B ih =>
    intro d hnd
    simp only [List.foldl_cons]
    by_cases h1 : dHas d e.1
    · rw [if_pos h1, ih d (nodupKeys_cons_tail hnd)]
      simp [List.filter_cons, h1]
    · rw [if_neg h1]
      by_cases h2 : isStr e.2
      · rw [if_pos h2, ih (dIns d e.1 (.str "")) (nodupKeys_cons_tail hnd)]
        rw [dIns_fresh d e.1 _ (by simpa using h1)]
        have hcongr : B.filter (fun pv => !dHas (d ++ [(e.1, JVal.str "")]) pv.1 && isStr pv.2)
            = B.filter (fun pv => !dHas d pv.1 && isStr pv.2) := by
          apply List.filter_congr
          intro pv hpv
          rw [dHas_append]
          simp [dHas, nodupKeys_cons_head hnd pv hpv]
        rw [hcongr]
        have hpe : (!dHas d e.1 && isStr e.2) = true := by
          simp [h1, h2]
        simp [List.filter_cons, hpe]
      · rw [if_neg h2, ih d (nodupKeys_cons_tail hnd)]
        simp [List.filter_cons, h1, h2]

theorem skeleton_full_eq (B E : List (String × JVal)) (hB : NodupKeys B) :
    buildSkeleton true B E = B.map (fun pv => (pv.1, blankVal pv.2)) := by
  unfold buildSkeleton
  simp only [if_pos]
  rw [skelFull_go B [] hB (by intro pv _; rfl)]
  simp

theorem filter2_congr (B : List (String × JVal)) (hB : NodupKeys B)
    (E F1 : List (String × JVal))
    (hF1 : F1 = B.filter (fun pv => !dHas E pv.1 && !isStr pv.2)) :
    B.filter (fun pv => !dHas (E ++ F1) pv.1 && isStr pv.2)
      = B.filter (fun pv => !dHas E pv.1 && isStr pv.2) := by
  apply List.filter_congr
  intro pv hpv
  rw [dHas_append]
  by_cases hs : isStr pv.2
  · have hF1k : dHas F1 pv.1 = false := by
      by_contra hc
      have hc' : dHas F1 pv.1 = true := by simpa using hc
      rw [hF1, dHas_filter_iff] at hc'
      obtain ⟨qv, hqB, hqp, hqk⟩ := hc'
      have : pv = qv := keyInj B hB hpv hqB hqk.symm
      rw [this] at hs
      simp only [Bool.and_eq_true, Bool.not_eq_true'] at hqp
      rw [hqp.2] at hs
      exact Bool.noConfusion hs
    simp [hF1k]
  · simp [hs]

theorem skeleton_incr_eq (B E : List (String × JVal)) (hB : NodupKeys B)
    (hE : NodupKeys E) :
    buildSkeleton false B E =
      E ++ B.filter (fun pv => !dHas E pv.1 && !isStr pv.2)
        ++ (B.filter (fun pv => !dHas E pv.1 && isStr pv.2)).map
            (fun pv => (pv.1, JVal.str "")) := by
  unfold buildSkeleton
  simp only [Bool.false_eq_true, if_false]
  have h0 : E.foldl (fun d pv => dIns d pv.1 pv.2) [] = E := by
    rw [foldl_dIns_id_go E [] hE (by intro pv _; rfl)]
    simp
  rw [h0, skelIncr1_go B E hB,
    skelIncr2_go B (E ++ B.filter (fun pv => !dHas E pv.1 && !isStr pv.2)) hB,
    filter2_congr B hB E _ rfl]

theorem dHas_mapFst (B : List (String × α)) (f : String × α → α) (k : String) :
    dHas (B.map (fun pv => (pv.1, f pv))) k = dHas B k := by
  induction B with
  | nil => rfl
  | cons e B ih => simp [dHas, ih]

/-- C3: for a base FlatDict B and an existing FlatDict E (both with unique
paths, as `flatten_json` produces): in full mode the output skeleton is
exactly B, in B's order, with string leaves set to the empty placeholder and
non-string leaves verbatim, so its path list equals B's; in incremental mode
the skeleton is E verbatim first, in E's order (values preserved, including
paths absent from B), followed by the base-only non-string pairs verbatim
and then the base-only string paths as empty placeholders, and its path set
is the union of E's and B's path sets. -/
theorem C3_skeleton_paths (B E : List (String × JVal)) (hB : NodupKeys B)
    (hE : NodupKeys E) :
    buildSkeleton true B E = B.map (fun pv => (pv.1, blankVal pv.2)) ∧
    keysOf (buildSkeleton true B E) = keysOf B ∧
    buildSkeleton false B E =
      E ++ B.filter (fun pv => !dHas E pv.1 && !isStr pv.2)
        ++ (B.filter (fun pv => !dHas E pv.1 && isStr pv.2)).map
            (fun pv => (pv.1, JVal.str "")) ∧
    (∀ k, dHas (buildSkeleton false B E) k = true ↔
      dHas E k = true ∨ dHas B k = true) := by
  refine ⟨skeleton_full_eq B E hB, ?_, skeleton_incr_eq B E hB hE, ?_⟩
  · rw [skeleton_full_eq B E hB, keysOf_mapFst]
  · intro k
    rw [skeleton_incr_eq B E hB hE, dHas_append, dHas_append]
    constructor
    · intro h
      rcases (Bool.or_eq_true _ _).mp h with h | h
      · rcases (Bool.or_eq_true _ _).mp h with h | h
        · exact Or.inl h
        · rw [dHas_filter_iff] at h
          obtain ⟨pv, hpB, _, hpk⟩ := h
          exact Or.inr ((dHas_iff_mem_keys B k).mpr
            (hpk ▸ List.mem_map_of_mem Prod.fst hpB))
      · rw [dHas_mapFst, dHas_filter_iff] at h
        obtain ⟨pv, hpB, _, hpk⟩ := h
        exact Or.inr ((dHas_iff_mem_keys B k).mpr
          (hpk ▸ List.mem_map_of_mem Prod.fst hpB))
    · rintro (h | h)
      · simp [h]
      · by_cases hEk : dHas E k
        · simp [hEk]
        · rw [dHas_iff_mem_keys] at h
          simp only [keysOf, List.mem_map] at h
          obtain ⟨pv, hpB, hpk⟩ := h
          have hEpv : dHas E pv.1 = false := by rw [hpk]; simpa using hEk
          by_cases hs : isStr pv.2
          · have hh : dHas ((B.filter (fun pv => !dHas E pv.1 && isStr pv.2)).map
                (fun pv => (pv.1, JVal.str ""))) k = true := by
              rw [dHas_mapFst, dHas_filter_iff]
              exact ⟨pv, hpB, by simp [hEpv, hs], hpk⟩
            simp [hh]
          · have hh : dHas (B.filter (fun pv => !dHas E pv.1 && !isStr pv.2)) k = true := by
              rw [dHas_filter_iff]
              exact ⟨pv, hpB, by simp [hEpv, hs], hpk⟩
            simp [hh]

theorem C3_skeleton_paths_witness :
    NodupKeys [(("a" : String), JVal.str "x"), ("b", JVal.num 2)] ∧
    NodupKeys [(("b" : String), JVal.str "y"), ("c", JVal.str "")] ∧
    (∀ k, dHas (buildSkeleton false
        [(("a" : String), JVal.str "x"), ("b", JVal.num 2)]
        [(("b" : String), JVal.str "y"), ("c", JVal.str "")]) k = true ↔
      dHas [(("b" : String), JVal.str "y"), ("c", JVal.str "")] k = true ∨
      dHas [(("a" : String), JVal.str "x"), ("b", JVal.num 2)] k = true) :=
  ⟨by unfold NodupKeys; decide, by unfold NodupKeys; decide,
    (C3_skeleton_paths _ _ (by unfold NodupKeys; decide)
      (by unfold NodupKeys; decide)).2.2.2⟩

theorem dHas_of_dGet_none (d : List (String × α)) (k : String)
    (h : dGet d k = none) : dHas d k = false := by
  by_contra hc
  have h2 := dGet_isSome_of_has d k (by simpa using hc)
  rw [h] at h2
  exact Bool.noConfusion h2

theorem selStep_cache_mono (ff : Bool) (exm : List (String × JVal))
    (terms : List String) (sl tc : String) (st : SelSt) (pv : String × JVal)
    (k : String) (h : dHas st.cache k = true) :
    dHas (selStep ff exm terms sl tc st pv).cache k = true := by
  rcases pv with ⟨kk, v⟩
  cases v with
  | str val =>
    simp only [selStep]
    by_cases h1 : ff = false ∧ incrSkip exm kk = true
    · rw [if_pos h1]; exact h
    · rw [if_neg h1]
      by_cases h2 : terms.contains (pyStrip val) = true
      · rw [if_pos h2]
        exact (dHas_dIns_iff _ _ _ _).mpr (Or.inl h)
      · rw [if_neg h2]
        rcases hc : dGet st.cache (cache_key sl tc val) with - | t
        · exact h
        · exact h
  | num n => exact h
  | jbool b => exact h
  | jnull => exact h

theorem selStep_todo_sub (ff : Bool) (exm : List (String × JVal)) (terms : List String)
    (sl tc : String) (st : SelSt) (pv : String × JVal) (u : ℕ × String × String)
    (hu : u ∈ (selStep ff exm terms sl tc st pv).todo) :
    u ∈ st.todo ∨
      ∃ val, pv = (u.2.1, JVal.str val) ∧ terms.contains (pyStrip val) = false ∧
        dHas st.cache (cache_key sl tc val) = false := by
  rcases pv with ⟨k, v⟩
  cases v with
  | str val =>
    simp only [selStep] at hu
    by_cases h1 : ff = false ∧ incrSkip exm k = true
    · rw [if_pos h1] at hu
      exact Or.inl hu
    · rw [if_neg h1] at hu
      by_cases h2 : terms.contains (pyStrip val) = true
      · rw [if_pos h2] at hu
        exact Or.inl hu
      · rw [if_neg h2] at hu
        rcases hc : dGet st.cache (cache_key sl tc val) with - | t
        · rw [hc] at hu
          simp only [List.mem_append, List.mem_singleton] at hu
          rcases hu with hu | hu
          · exact Or.inl hu
          · refine Or.inr ⟨val, ?_, by simpa using h2, dHas_of_dGet_none _ _ hc⟩
            rw [hu]
        · rw [hc] at hu
          exact Or.inl hu
  | num n => exact Or.inl hu
  | jbool b => exact Or.inl hu
  | jnull => exact Or.inl hu

theorem sel_todo_mem (ff : Bool) (exm : List (String × JVal)) (terms : List String)
    (sl tc : String) : ∀ (B : List (String × JVal)) (st : SelSt)
    (u : ℕ × String × String),
    u ∈ (B.foldl (selStep ff exm terms sl tc) st).todo →
    u ∈ st.todo ∨
      ∃ val, (u.2.1, JVal.str val) ∈ B ∧ terms.contains (pyStrip val) = false ∧
        dHas st.cache (cache_key sl tc val) = false := by
  intro B
  induction B with
  | nil => intro st u hu; exact Or.inl hu
  | cons e B ih =>
    intro st u hu
    rw [List.foldl_cons] at hu
    rcases ih _ u hu with h | ⟨val, hm, hc, hck⟩
    · rcases selStep_todo_sub ff exm terms sl tc st e u h with h2 | ⟨val, he, hc, hck⟩
      · exact Or.inl h2
      · refine Or.inr ⟨val, ?_, hc, hck⟩
        rw [← he]
        exact List.mem_cons_self e B
    · refine Or.inr ⟨val, List.mem_cons_of_mem e hm, hc, ?_⟩
      by_contra hcc
      have hcc' : dHas st.cache (cache_key sl tc val) = true := by simpa using hcc
      rw [selStep_cache_mono ff exm terms sl tc st e _ hcc'] at hck
      exact Bool.noConfusion hck

theorem selStep_out_ne (ff : Bool) (exm : List (String × JVal)) (terms : List String)
    (sl tc : String) (st : SelSt) (pv : String × JVal) (p : String)
    (hne : pv.1 ≠ p) :
    dGet (selStep ff exm terms sl tc st pv).outDict p = dGet st.outDict p := by
  rcases pv with ⟨k, v⟩
  have hne' : p ≠ k := fun h => hne (by simpa using h.symm)
  cases v with
  | str val =>
    simp only [selStep]
    by_cases h1 : ff = false ∧ incrSkip exm k = true
    · rw [if_pos h1]
    · rw [if_neg h1]
      by_cases h2 : terms.contains (pyStrip val) = true
      · rw [if_pos h2]
        exact dGet_dIns_ne _ _ _ _ hne'
      · rw [if_neg h2]
        rcases hc : dGet st.cache (cache_key sl tc val) with - | t
        · rfl
        · exact dGet_dIns_ne _ _ _ _ hne'
  | num n => rfl
  | jbool b => rfl
  | jnull => rfl

theorem sel_out_after (ff : Bool) (exm : List (String × JVal)) (terms : List String)
    (sl tc : String) : ∀ (B : List (String × JVal)) (st : SelSt) (p : String),
    (∀ pv ∈ B, pv.1 ≠ p) →
    dGet (B.foldl (selStep ff exm terms sl tc) st).outDict p = dGet st.outDict p := by
  intro B
  induction B with
  | nil => intro st p _; rfl
  | cons e B ih =>
    intro st p h
    rw [List.foldl_cons, ih _ p (fun pv hpv => h pv (List.mem_cons_of_mem e hpv)),
      selStep_out_ne ff exm terms sl tc st e p (h e (List.mem_cons_self e B))]

theorem sel_out_protected (ff : Bool) (exm : List (String × JVal)) (terms : List String)
    (sl tc : String) : ∀ (B : List (String × JVal)) (st : SelSt) (p val : String),
    NodupKeys B → (p, JVal.str val) ∈ B →
    terms.contains (pyStrip val) = true →
    (ff = true ∨ incrSkip exm p = false) →
    dGet (B.foldl (selStep ff exm terms sl tc) st).outDict p = some (JVal.str val) := by
  intro B
  induction B with
  | nil => intro st p val _ hm; exact absurd hm (List.not_mem_nil _)
  | cons e B ih =>
    intro st p val hnd hm hterm hskip
    rw [List.foldl_cons]
    by_cases hep : e = (p, JVal.str val)
    · have hBfresh : ∀ pv ∈ B, pv.1 ≠ p := by
        intro pv hpv heq
        exact nodupKeys_cons_head hnd pv hpv (by rw [hep, heq])
      rw [sel_out_after ff exm terms sl tc B _ p hBfresh]
      subst hep
      simp only [selStep]
      have h1 : ¬ (ff = false ∧ incrSkip exm p = true) := by
        rcases hskip with h | h
        · rintro ⟨h2, -⟩
          rw [h] at h2
          exact Bool.noConfusion h2
        · rintro ⟨-, h2⟩
          rw [h] at h2
          exact Bool.noConfusion h2
      rw [if_neg h1, if_pos hterm]
      exact dGet_dIns_self _ _ _
    · have hmB : (p, JVal.str val) ∈ B := by
        rcases List.mem_cons.mp hm with h | h
        · exact absurd h.symm hep
        · exact h
      exact ih _ p val (nodupKeys_cons_tail hnd) hmB hterm hskip

theorem drive_out_after (tr : String → String → Except String (Option String))
    (sl tc : String) (baseMap : List (String × JVal)) :
    ∀ (todo : List (ℕ × String × String)) (st : DriveSt) (p : String),
    (∀ u ∈ todo, u.2.1 ≠ p) →
    ∀ res, driveLoop tr sl tc baseMap todo st = .ok res →
    dGet res.outDict p = dGet st.outDict p := by
  intro todo
  induction todo with
  | nil =>
    intro st p _ res hres
    cases hres
    rfl
  | cons u todo ih =>
    intro st p hne res hres
    rcases htr : tr u.2.1 u.2.2 with e | fin
    · simp only [driveLoop, htr] at hres
      exact Except.noConfusion hres
    · cases fin with
      | none =>
        simp only [driveLoop, htr] at hres
        have h2 := ih _ p (fun w hw => hne w (List.mem_cons_of_mem u hw)) res hres
        exact h2
      | some f =>
        simp only [driveLoop, htr] at hres
        have h2 := ih _ p (fun w hw => hne w (List.mem_cons_of_mem u hw)) res hres
        rw [h2]
        simp only [apply_success]
        exact dGet_dIns_ne _ _ _ _ (fun h => hne u (List.mem_cons_self u todo) h.symm)

/-- C7: a base string leaf whose trimmed value equals a protected term is
never queued for translation, in any mode; its value appears verbatim
(untrimmed) at its path in the output in full mode, and in incremental mode
whenever the existing tree does not already hold a non-blank string there —
in that last case the incremental skip fires first and the output keeps the
existing value instead, which is the corrected part of the claim. -/
theorem C7_protected_term (ff : Bool) (B E : List (String × JVal))
    (cache0 : List (String × String)) (terms : List String) (sl tc : String)
    (tr : String → String → Except String (Option String)) (p val : String)
    (hnd : NodupKeys B) (hmem : (p, JVal.str val) ∈ B)
    (hterm : terms.contains (pyStrip val) = true) :
    p ∉ todoPaths (selection ff B E cache0 terms sl tc).todo ∧
    ((ff = true ∨ incrSkip (dOf E) p = false) →
      ∀ res, translateTreeE ff B E cache0 terms sl tc tr = .ok res →
        dGet res.outDict p = some (JVal.str val)) := by
  have hfresh : ∀ u ∈ (selection ff B E cache0 terms sl tc).todo, u.2.1 ≠ p := by
    intro u hu hup
    unfold selection at hu
    rcases sel_todo_mem ff (dOf E) terms sl tc B _ u hu with h | ⟨val2, hm2, hc2, -⟩
    · exact List.not_mem_nil u h
    · rw [hup] at hm2
      have heq : (p, JVal.str val) = (p, JVal.str val2) := keyInj B hnd hmem hm2 rfl
      simp only [Prod.mk.injEq, JVal.str.injEq, true_and] at heq
      rw [← heq, hterm] at hc2
      exact Bool.noConfusion hc2
  constructor
  · intro hp
    unfold todoPaths at hp
    rcases List.mem_map.mp hp with ⟨u, hu, hup⟩
    exact hfresh u hu hup
  · intro hskip res hres
    simp only [translateTreeE] at hres
    rw [drive_out_after tr sl tc (dOf B) _ _ p hfresh res hres]
    show dGet (selection ff B E cache0 terms sl tc).outDict p = some (JVal.str val)
    unfold selection
    exact sel_out_protected ff (dOf E) terms sl tc B _ p val hnd hmem hterm hskip

theorem C7_protected_term_witness :
    NodupKeys [(("p" : String), JVal.str " Acme ")] ∧
    ((("p" : String), JVal.str " Acme ") ∈ [(("p" : String), JVal.str " Acme ")]) ∧
    List.contains ["Acme"] (pyStrip " Acme ") = true ∧
    ("p" ∉ todoPaths (selection true [(("p" : String), JVal.str " Acme ")] [] []
        ["Acme"] "Chinese" "en").todo ∧
     ((true = true ∨ incrSkip (dOf ([] : List (String × JVal))) "p" = false) →
       ∀ res, translateTreeE true [(("p" : String), JVal.str " Acme ")] [] []
           ["Acme"] "Chinese" "en" (fun _ _ => Except.ok none) = .ok res →
         dGet res.outDict "p" = some (JVal.str " Acme "))) :=
  ⟨by unfold NodupKeys; decide, by decide, by decide,
    C7_protected_term true [(("p" : String), JVal.str " Acme ")] [] [] ["Acme"]
      "Chinese" "en" (fun _ _ => Except.ok none) "p" " Acme "
      (by unfold NodupKeys; decide) (by decide) (by decide)⟩

/-- C7, the failing part: in incremental mode a protected-term leaf whose
path already holds a non-blank existing string is skipped before the
protected-term check runs, so the output keeps the existing value "X", not
the base's protected value "Acme". -/
theorem C7_counterexample :
    List.contains ["Acme"] (pyStrip "Acme") = true ∧
    translateTreeE false [(("p" : String), JVal.str "Acme")]
        [(("p" : String), JVal.str "X")] [] ["Acme"] "Chinese" "en"
        (fun _ _ => Except.ok none)
      = Except.ok ⟨[(("p" : String), JVal.str "X")], [], 0, 0⟩ ∧
    ¬ (JVal.str "X" = JVal.str "Acme") := by
  refine ⟨rfl, ?_, by decide⟩
  rfl

/-- C2 (amended): the cache is checked before deciding to call the service —
a string leaf whose `(source language, target language, exact un-masked
text)` triple is already in the TranslationCache when the pass starts is
never queued, so it triggers no external call; and a successful translation
is cached under the un-masked original source text of its path.  (The
original claim's "at most one call per triple inside a single pass" is
refuted separately: two uncached leaves with the same text are both queued
before either result can reach the cache.) -/
theorem C2_cache_before_call (ff : Bool) (B E : List (String × JVal))
    (cache0 : List (String × String)) (terms : List String) (sl tc : String)
    (p val : String) (hnd : NodupKeys B) (hmem : (p, JVal.str val) ∈ B)
    (hc : dHas cache0 (cache_key sl tc val) = true) :
    p ∉ todoPaths (selection ff B E cache0 terms sl tc).todo ∧
    (∀ (st : DriveSt) (fin srcText : String),
      dGet (dOf B) p = some (JVal.str srcText) →
      dGet (apply_success sl tc (dOf B) st p fin).cache (cache_key sl tc srcText)
        = some fin) := by
  constructor
  · intro hp
    unfold todoPaths at hp
    rcases List.mem_map.mp hp with ⟨u, hu, hup⟩
    unfold selection at hu
    rcases sel_todo_mem ff (dOf E) terms sl tc B _ u hu with h | ⟨val2, hm2, -, hck⟩
    · exact List.not_mem_nil u h
    · rw [hup] at hm2
      have heq : (p, JVal.str val) = (p, JVal.str val2) := keyInj B hnd hmem hm2 rfl
      simp only [Prod.mk.injEq, JVal.str.injEq, true_and] at heq
      rw [← heq, hc] at hck
      exact Bool.noConfusion hck
  · intro st fin srcText hsrc
    simp only [apply_success, hsrc]
    exact dGet_dIns_self _ _ _

theorem C2_cache_before_call_witness :
    NodupKeys [(("p" : String), JVal.str "x")] ∧
    ((("p" : String), JVal.str "x") ∈ [(("p" : String), JVal.str "x")]) ∧
    dHas [(cache_key "Chinese" "en" "x", ("y" : String))]
      (cache_key "Chinese" "en" "x") = true ∧
    "p" ∉ todoPaths (selection false [(("p" : String), JVal.str "x")] []
      [(cache_key "Chinese" "en" "x", ("y" : String))] [] "Chinese" "en").todo :=
  ⟨by unfold NodupKeys; decide, by decide, by decide,
    (C2_cache_before_call false [(("p" : String), JVal.str "x")] []
      [(cache_key "Chinese" "en" "x", ("y" : String))] [] "Chinese" "en" "p" "x"
      (by unfold NodupKeys; decide) (by decide) (by decide)).1⟩

/-- C2, the failing part: two uncached string leaves of the same pass with
the same `(source language, target language, text)` triple are both queued —
the selection pass checks only the cache as it stood when each leaf is
examined, and no result can reach the cache until the drain loop runs — so
the same triple is sent to the external service twice. -/
theorem C2_counterexample :
    (selection true [(("p1" : String), JVal.str "x"), ("p2", JVal.str "x")]
        [] [] [] "Chinese" "en").todo
      = [(1, "p1", "x"), (2, "p2", "x")] := by
  rfl

/-- C1 (amended): when every retry attempt of the external call fails,
`call_openai_batch` raises `RuntimeError("Batch translate failed: ...")`;
that exception propagates out of `translate_one` — which has no handler —
and out of the drain loop, halting the language run with the remaining
units unprocessed.  The non-success sentinel `None` arises only in the
other failure mode, a response that parses but lacks the requested path: in
that case the drain loop records a failed completion and continues with the
remaining units. -/
theorem C1_retry_exhaustion (attempts : List ApiAttempt)
    (baseMap : List (String × JVal))
    (phM tmM : List (String × List (String × String))) (tc p m : String)
    (hall : ∀ a ∈ attempts, attemptFails 1 a = true) :
    call_openai_batch [(p, m)] attempts = .error "Batch translate failed" ∧
    translate_one attempts baseMap phM tmM tc p m
      = .error "Batch translate failed" ∧
    (∀ (sl : String) (u : ℕ × String × String) (rest : List (ℕ × String × String))
      (st : DriveSt) (tr : String → String → Except String (Option String)) (e : String),
      tr u.2.1 u.2.2 = .error e →
      driveLoop tr sl tc baseMap (u :: rest) st = .error e) ∧
    (∀ (outMap : List (String × String)) (attempts2 : List ApiAttempt),
      call_openai_batch [(p, m)] attempts2 = .ok outMap → dGet outMap p = none →
      translate_one attempts2 baseMap phM tmM tc p m = .ok none) ∧
    (∀ (sl : String) (u : ℕ × String × String) (rest : List (ℕ × String × String))
      (st : DriveSt) (tr : String → String → Except String (Option String)),
      tr u.2.1 u.2.2 = .ok none →
      driveLoop tr sl tc baseMap (u :: rest) st =
        driveLoop tr sl tc baseMap rest
          ⟨st.outDict, st.cache, st.completed + 1, st.succeeded⟩) := by
  have herr : call_openai_batch [(p, m)] attempts = .error "Batch translate failed" := by
    induction attempts with
    | nil => rfl
    | cons a rest ih =>
      cases a with
      | exn =>
        simp only [call_openai_batch]
        exact ih (fun x hx => hall x (List.mem_cons_of_mem _ hx))
      | resp items =>
        have hf := hall (.resp items) (List.mem_cons_self _ _)
        simp only [attemptFails, decide_eq_true_eq] at hf
        simp only [call_openai_batch]
        rw [if_neg (by simp only [List.length_cons, List.length_nil, Nat.zero_add]; omega)]
        exact ih (fun x hx => hall x (List.mem_cons_of_mem _ hx))
    
  refine ⟨herr, ?_, ?_, ?_, ?_⟩
  · simp only [translate_one, herr]
  · intro sl u rest st tr e htr
    simp only [driveLoop, htr]
  · intro outMap attempts2 hok hnone
    simp only [translate_one, hok, hnone]
  · intro sl u rest st tr htr
    simp only [driveLoop, htr]

theorem C1_retry_exhaustion_witness :
    (∀ a ∈ [ApiAttempt.exn, .exn, .exn, .exn], attemptFails 1 a = true) ∧
    call_openai_batch [("p", "hello")] [ApiAttempt.exn, .exn, .exn, .exn]
      = .error "Batch translate failed" :=
  ⟨by decide,
    (C1_retry_exhaustion [ApiAttempt.exn, .exn, .exn, .exn] [] [] [] "en" "p" "hello"
      (by decide)).1⟩

/-- C1, the failing part: a concrete run in which the only queued unit's
four attempts all raise — the whole run returns the `RuntimeError` instead
of recording a failure and finishing, so a per-unit failure does halt the
run and the exception does escape the drain loop. -/
theorem C1_counterexample :
    translateTreeRun true [(("p" : String), JVal.str "hello")] [] [] []
        "Chinese" "en" (fun _ => [ApiAttempt.exn, .exn, .exn, .exn])
      = .error "Batch translate failed" := by
  rfl

theorem dGet_mem (d : List (String × α)) (k : String) (v : α)
    (h : dGet d k = some v) : (k, v) ∈ d := by
  induction d with
  | nil => exact Option.noConfusion h
  | cons e d ih =>
    by_cases he : e.1 = k
    · simp only [dGet, he, if_pos, Option.some.injEq] at h
      have hkv : (k, v) = e := by rw [← he, ← h]
      rw [hkv]
      exact List.mem_cons_self e d
    · simp only [dGet, he, if_neg, not_false_iff] at h
      exact List.mem_cons_of_mem e (ih h)

theorem mem_dIns (d : List (String × α)) (k : String) (v : α) (kv : String × α)
    (h : kv ∈ dIns d k v) : kv = (k, v) ∨ kv ∈ d := by
  unfold dIns at h
  by_cases hk : dHas d k
  · rw [if_pos hk] at h
    rcases List.mem_map.mp h with ⟨e, he, heq⟩
    by_cases hek : e.1 = k
    · rw [hek] at heq
      simp only [if_pos] at heq
      exact Or.inl heq.symm
    · rw [if_neg hek] at heq
      exact Or.inr (heq ▸ he)
  · rw [if_neg hk] at h
    rcases List.mem_append.mp h with h | h
    · exact Or.inr h
    · exact Or.inl (List.mem_singleton.mp h)

theorem dGet_append_left (d d2 : List (String × α)) (k : String)
    (h : dHas d k = true) : dGet (d ++ d2) k = dGet d k := by
  induction d with
  | nil => exact absurd h (by simp [dHas])
  | cons e d ih =>
    by_cases he : e.1 = k
    · simp [dGet, he]
    · simp only [dHas, Bool.or_eq_true, decide_eq_true_eq] at h
      rcases h with h | h
      · exact absurd h he
      · simp [dGet, he, ih h]

theorem incrSkip_true_elim (exm : List (String × JVal)) (p : String)
    (h : incrSkip exm p = true) :
    ∃ cur, dGet exm p = some (JVal.str cur) ∧ ¬ (pyStrip cur = "") := by
  unfold incrSkip at h
  rcases hg : dGet exm p with - | v
  · rw [hg] at h
    exact Bool.noConfusion h
  · rw [hg] at h
    cases v with
    | str cur =>
      simp only [decide_eq_true_eq] at h
      exact ⟨cur, rfl, h⟩
    | num n => exact Bool.noConfusion h
    | jbool b => exact Bool.noConfusion h
    | jnull => exact Bool.noConfusion h

theorem not_mem_todoPaths (todo : List (ℕ × String × String)) (p : String)
    (h : ∀ u ∈ todo, u.2.1 ≠ p) : p ∉ todoPaths todo := by
  intro hp
  rcases List.mem_map.mp hp with ⟨u, hu, hup⟩
  exact h u hu hup

theorem mem_todoPaths_elim (todo : List (ℕ × String × String)) (p : String)
    (h : p ∉ todoPaths todo) : ∀ u ∈ todo, u.2.1 ≠ p := by
  intro u hu hup
  exact h (List.mem_map.mpr ⟨u, hu, hup⟩)

theorem selStep_cache_inv (ff : Bool) (exm : List (String × JVal))
    (terms : List String) (sl tc : String) (st : SelSt) (pv : String × JVal)
    (hterms : terms.contains "" = false)
    (hinv : ∀ kv ∈ st.cache, ¬ (pyStrip kv.2 = "")) :
    ∀ kv ∈ (selStep ff exm terms sl tc st pv).cache, ¬ (pyStrip kv.2 = "") := by
  rcases pv with ⟨k, v⟩
  cases v with
  | str val =>
    simp only [selStep]
    by_cases h1 : ff = false ∧ incrSkip exm k = true
    · rw [if_pos h1]; exact hinv
    · rw [if_neg h1]
      by_cases h2 : terms.contains (pyStrip val) = true
      · rw [if_pos h2]
        intro kv hkv
        rcases mem_dIns _ _ _ _ hkv with h | h
        · rw [h]
          intro hblank
          rw [hblank] at h2
          rw [h2] at hterms
          exact Bool.noConfusion hterms
        · exact hinv kv h
      · rw [if_neg h2]
        rcases hc : dGet st.cache (cache_key sl tc val) with - | t
        · exact hinv
        · exact hinv
  | num n => exact hinv
  | jbool b => exact hinv
  | jnull => exact hinv

theorem sel_cache_inv (ff : Bool) (exm : List (String × JVal)) (terms : List String)
    (sl tc : String) (hterms : terms.contains "" = false) :
    ∀ (B : List (String × JVal)) (st : SelSt),
    (∀ kv ∈ st.cache, ¬ (pyStrip kv.2 = "")) →
    ∀ kv ∈ (B.foldl (selStep ff exm terms sl tc) st).cache, ¬ (pyStrip kv.2 = "") := by
  intro B
  induction B with
  | nil => intro st h; exact h
  | cons e B ih =>
    intro st h
    rw [List.foldl_cons]
    exact ih _ (selStep_cache_inv ff exm terms sl tc st e hterms h)

theorem selStep_out_nodup (ff : Bool) (exm : List (String × JVal))
    (terms : List String) (sl tc : String) (st : SelSt) (pv : String × JVal)
    (h : NodupKeys st.outDict) :
    NodupKeys (selStep ff exm terms sl tc st pv).outDict := by
  rcases pv with ⟨k, v⟩
  cases v with
  | str val =>
    simp only [selStep]
    by_cases h1 : ff = false ∧ incrSkip exm k = true
    · rw [if_pos h1]; exact h
    · rw [if_neg h1]
      by_cases h2 : terms.contains (pyStrip val) = true
      · rw [if_pos h2]
        exact nodupKeys_dIns _ _ _ h
      · rw [if_neg h2]
        rcases hc : dGet st.cache (cache_key sl tc val) with - | t
        · exact h
        · exact nodupKeys_dIns _ _ _ h
  | num n => exact h
  | jbool b => exact h
  | jnull => exact h

theorem sel_out_nodup (ff : Bool) (exm : List (String × JVal)) (terms : List String)
    (sl tc : String) : ∀ (B : List (String × JVal)) (st : SelSt),
    NodupKeys st.outDict →
    NodupKeys (B.foldl (selStep ff exm terms sl tc) st).outDict := by
  intro B
  induction B with
  | nil => intro st h; exact h
  | cons e B ih =>
    intro st h
    rw [List.foldl_cons]
    exact ih _ (selStep_out_nodup ff exm terms sl tc st e h)

theorem drive_out_nodup (tr : String → String → Except String (Option String))
    (sl tc : String) (baseMap : List (String × JVal)) :
    ∀ (todo : List (ℕ × String × String)) (st : DriveSt),
    NodupKeys st.outDict →
    ∀ res, driveLoop tr sl tc baseMap todo st = .ok res → NodupKeys res.outDict := by
  intro todo
  induction todo with
  | nil =>
    intro st h res hres
    cases hres
    exact h
  | cons u todo ih =>
    intro st h res hres
    rcases htr : tr u.2.1 u.2.2 with e | fin
    · simp only [driveLoop, htr] at hres
      exact Except.noConfusion hres
    · cases fin with
      | none =>
        simp only [driveLoop, htr] at hres
        exact ih ⟨st.outDict, st.cache, st.completed + 1, st.succeeded⟩ h res hres
      | some f =>
        simp only [driveLoop, htr] at hres
        refine ih _ ?_ res hres
        simp only [apply_success]
        exact nodupKeys_dIns _ _ _ h

theorem selStep_out_has (ff : Bool) (exm : List (String × JVal))
    (terms : List String) (sl tc : String) (st : SelSt) (pv : String × JVal)
    (k : String) (h : dHas st.outDict k = true) :
    dHas (selStep ff exm terms sl tc st pv).outDict k = true := by
  rcases pv with ⟨kk, v⟩
  cases v with
  | str val =>
    simp only [selStep]
    by_cases h1 : ff = false ∧ incrSkip exm kk = true
    · rw [if_pos h1]; exact h
    · rw [if_neg h1]
      by_cases h2 : terms.contains (pyStrip val) = true
      · rw [if_pos h2]
        exact (dHas_dIns_iff _ _ _ _).mpr (Or.inl h)
      · rw [if_neg h2]
        rcases hc : dGet st.cache (cache_key sl tc val) with - | t
        · exact h
        · exact (dHas_dIns_iff _ _ _ _).mpr (Or.inl h)
  | num n => exact h
  | jbool b => exact h
  | jnull => exact h

theorem sel_out_has (ff : Bool) (exm : List (String × JVal)) (terms : List String)
    (sl tc : String) : ∀ (B : List (String × JVal)) (st : SelSt) (k : String),
    dHas st.outDict k = true →
    dHas (B.foldl (selStep ff exm terms sl tc) st).outDict k = true := by
  intro B
  induction B with
  | nil => intro st k h; exact h
  | cons e B ih =>
    intro st k h
    rw [List.foldl_cons]
    exact ih _ k (selStep_out_has ff exm terms sl tc st e k h)

theorem drive_out_has (tr : String → String → Except String (Option String))
    (sl tc : String) (baseMap : List (String × JVal)) :
    ∀ (todo : List (ℕ × String × String)) (st : DriveSt) (k : String),
    dHas st.outDict k = true →
    ∀ res, driveLoop tr sl tc baseMap todo st = .ok res →
    dHas res.outDict k = true := by
  intro todo
  induction todo with
  | nil =>
    intro st k h res hres
    cases hres
    exact h
  | cons u todo ih =>
    intro st k h res hres
    rcases htr : tr u.2.1 u.2.2 with e | fin
    · simp only [driveLoop, htr] at hres
      exact Except.noConfusion hres
    · cases fin with
      | none =>
        simp only [driveLoop, htr] at hres
        exact ih ⟨st.outDict, st.cache, st.completed + 1, st.succeeded⟩ k h res hres
      | some f =>
        simp only [driveLoop, htr] at hres
        refine ih _ k ?_ res hres
        simp only [apply_success]
        exact (dHas_dIns_iff _ _ _ _).mpr (Or.inl h)

theorem skeleton_nodup (ff : Bool) (B E : List (String × JVal))
    (hB : NodupKeys B) (hE : NodupKeys E) :
    NodupKeys (buildSkeleton ff B E) := by
  cases ff with
  | true =>
    unfold NodupKeys
    rw [skeleton_full_eq B E hB, keysOf_mapFst]
    exact hB
  | false =>
    rw [skeleton_incr_eq B E hB hE]
    unfold NodupKeys
    simp only [keysOf, List.map_append, List.map_map]
    have hmap2 : List.map (Prod.fst ∘ fun pv : String × JVal => (pv.1, JVal.str ""))
        (B.filter (fun pv => !dHas E pv.1 && isStr pv.2))
        = List.map Prod.fst (B.filter (fun pv => !dHas E pv.1 && isStr pv.2)) := by
      simp
    rw [hmap2, List.nodup_append, List.nodup_append]
    refine ⟨⟨hE, ?_, ?_⟩, ?_, ?_⟩
    · exact List.Nodup.sublist (List.Sublist.map Prod.fst (List.filter_sublist B)) hB
    · intro a haE haF
      rcases List.mem_map.mp haF with ⟨pv, hpv, hpk⟩
      rcases List.mem_filter.mp hpv with ⟨hpB, hpc⟩
      simp only [Bool.and_eq_true, Bool.not_eq_true'] at hpc
      have hh : dHas E a = true := (dHas_iff_mem_keys E a).mpr haE
      rw [← hpk, hpc.1] at hh
      exact Bool.noConfusion hh
    · exact List.Nodup.sublist (List.Sublist.map Prod.fst (List.filter_sublist B)) hB
    · intro a ha haF2
      rcases List.mem_map.mp haF2 with ⟨qv, hqv, hqk⟩
      rcases List.mem_filter.mp hqv with ⟨hqB, hqc⟩
      simp only [Bool.and_eq_true, Bool.not_eq_true'] at hqc
      rcases List.mem_append.mp ha with ha | ha
      · have hh : dHas E a = true := (dHas_iff_mem_keys E a).mpr ha
        rw [← hqk, hqc.1] at hh
        exact Bool.noConfusion hh
      · rcases List.mem_map.mp ha with ⟨pv, hpv, hpk⟩
        rcases List.mem_filter.mp hpv with ⟨hpB, hpc⟩
        simp only [Bool.and_eq_true, Bool.not_eq_true'] at hpc
        have heq : pv = qv := keyInj B hB hpB hqB (by rw [hpk, hqk])
        rw [heq] at hpc
        rw [hqc.2] at hpc
        exact Bool.noConfusion hpc.2

theorem skeleton_covers (ff : Bool) (B E : List (String × JVal))
    (hB : NodupKeys B) (hE : NodupKeys E) :
    ∀ pv ∈ B, dHas (buildSkeleton ff B E) pv.1 = true := by
  intro pv hpv
  cases ff with
  | true =>
    rw [skeleton_full_eq B E hB, dHas_mapFst]
    exact (dHas_iff_mem_keys B pv.1).mpr (List.mem_map_of_mem Prod.fst hpv)
  | false =>
    rw [skeleton_incr_eq B E hB hE, dHas_append, dHas_append]
    by_cases hEk : dHas E pv.1
    · simp [hEk]
    · have hEk' : dHas E pv.1 = false := by simpa using hEk
      by_cases hs : isStr pv.2
      · have hh : dHas ((B.filter (fun pv => !dHas E pv.1 && isStr pv.2)).map
            (fun pv => (pv.1, JVal.str ""))) pv.1 = true := by
          rw [dHas_mapFst, dHas_filter_iff]
          exact ⟨pv, hpv, by simp [hEk', hs], rfl⟩
        simp [hh]
      · have hh : dHas (B.filter (fun pv => !dHas E pv.1 && !isStr pv.2)) pv.1 = true := by
          rw [dHas_filter_iff]
          exact ⟨pv, hpv, by simp [hEk', hs], rfl⟩
        simp [hh]

theorem selStep_todo_mono (ff : Bool) (exm : List (String × JVal))
    (terms : List String) (sl tc : String) (st : SelSt) (pv : String × JVal)
    (u : ℕ × String × String) (h : u ∈ st.todo) :
    u ∈ (selStep ff exm terms sl tc st pv).todo := by
  rcases pv with ⟨k, v⟩
  cases v with
  | str val =>
    simp only [selStep]
    by_cases h1 : ff = false ∧ incrSkip exm k = true
    · rw [if_pos h1]; exact h
    · rw [if_neg h1]
      by_cases h2 : terms.contains (pyStrip val) = true
      · rw [if_pos h2]; exact h
      · rw [if_neg h2]
        rcases hc : dGet st.cache (cache_key sl tc val) with - | t
        · exact List.mem_append_left _ h
        · exact h
  | num n => exact h
  | jbool b => exact h
  | jnull => exact h

theorem sel_todo_fold_mono (ff : Bool) (exm : List (String × JVal))
    (terms : List String) (sl tc : String) :
    ∀ (B : List (String × JVal)) (st : SelSt) (u : ℕ × String × String),
    u ∈ st.todo → u ∈ (B.foldl (selStep ff exm terms sl tc) st).todo := by
  intro B
  induction B with
  | nil => intro st u h; exact h
  | cons e B ih =>
    intro st u h
    rw [List.foldl_cons]
    exact ih _ u (selStep_todo_mono ff exm terms sl tc st e u h)

theorem sel_leaf_go (ff : Bool) (exm : List (String × JVal)) (terms : List String)
    (sl tc : String) : ∀ (B : List (String × JVal)) (st : SelSt) (p val : String),
    NodupKeys B → (p, JVal.str val) ∈ B →
    terms.contains "" = false →
    (∀ kv ∈ st.cache, ¬ (pyStrip kv.2 = "")) →
    p ∉ todoPaths st.todo →
    (ff = false ∧ incrSkip exm p = true →
      ∃ s, dGet st.outDict p = some (JVal.str s) ∧ ¬ (pyStrip s = "")) →
    (∃ s, dGet (B.foldl (selStep ff exm terms sl tc) st).outDict p
        = some (JVal.str s) ∧ ¬ (pyStrip s = "") ∧
        p ∉ todoPaths (B.foldl (selStep ff exm terms sl tc) st).todo) ∨
    p ∈ todoPaths (B.foldl (selStep ff exm terms sl tc) st).todo := by
  intro B
  induction B with
  | nil =>
    intro st p val hnd hmem
    exact absurd hmem (List.not_mem_nil _)
  | cons e B ih =>
    intro st p val hnd hmem hterms hcinv hptodo hskipinfo
    rw [List.foldl_cons]
    by_cases hep : e.1 = p
    · have he : e = (p, JVal.str val) :=
        keyInj (e :: B) hnd (List.mem_cons_self e B) hmem hep
      subst he
      have htail : ∀ pv ∈ B, pv.1 ≠ p := by
        intro pv hpv h
        exact nodupKeys_cons_head hnd pv hpv (by rw [h])
      have hnotodo : ∀ (st2 : SelSt), p ∉ todoPaths st2.todo →
          p ∉ todoPaths (B.foldl (selStep ff exm terms sl tc) st2).todo := by
        intro st2 h2
        apply not_mem_todoPaths
        intro u hu hup
        rcases sel_todo_mem ff exm terms sl tc B st2 u hu with h | ⟨val2, hm2, -, -⟩
        · exact mem_todoPaths_elim _ _ h2 u h hup
        · exact htail _ hm2 hup
      simp only [selStep]
      by_cases h1 : ff = false ∧ incrSkip exm p = true
      · rw [if_pos h1]
        obtain ⟨s, hs, hsnb⟩ := hskipinfo h1
        left
        refine ⟨s, ?_, hsnb, hnotodo st hptodo⟩
        rw [sel_out_after ff exm terms sl tc B st p htail]
        exact hs
      · rw [if_neg h1]
        by_cases h2 : terms.contains (pyStrip val) = true
        · rw [if_pos h2]
          left
          refine ⟨val, ?_, ?_, ?_⟩
          · rw [sel_out_after ff exm terms sl tc B _ p htail]
            exact dGet_dIns_self _ _ _
          · intro hblank
            rw [hblank] at h2
            rw [hterms] at h2
            exact Bool.noConfusion h2
          · exact hnotodo _ hptodo
        · rw [if_neg h2]
          rcases hc : dGet st.cache (cache_key sl tc val) with - | t
          · right
            refine List.mem_map.mpr ⟨(st.seq + 1, p, maskedOf terms val), ?_, rfl⟩
            apply sel_todo_fold_mono
            exact List.mem_append_right _ (List.mem_singleton.mpr rfl)
          · left
            have htnb := hcinv _ (dGet_mem _ _ _ hc)
            refine ⟨t, ?_, htnb, ?_⟩
            · rw [sel_out_after ff exm terms sl tc B _ p htail]
              exact dGet_dIns_self _ _ _
            · exact hnotodo _ hptodo
    · have hmemB : (p, JVal.str val) ∈ B := by
        rcases List.mem_cons.mp hmem with h | h
        · exact absurd (show e.1 = p by rw [← h]) hep
        · exact h
      refine ih _ p val (nodupKeys_cons_tail hnd) hmemB hterms ?_ ?_ ?_
      · exact selStep_cache_inv ff exm terms sl tc st e hterms hcinv
      · apply not_mem_todoPaths
        intro u hu hup
        rcases selStep_todo_sub ff exm terms sl tc st e u hu with h | ⟨val2, he2, -, -⟩
        · exact mem_todoPaths_elim _ _ hptodo u h hup
        · apply hep
          rw [he2]
          exact hup
      · intro h1
        obtain ⟨s, hs, hsnb⟩ := hskipinfo h1
        refine ⟨s, ?_, hsnb⟩
        rw [selStep_out_ne ff exm terms sl tc st e p hep]
        exact hs

theorem drive_out_written (tr : String → String → Except String (Option String))
    (sl tc : String) (baseMap : List (String × JVal)) :
    ∀ (todo : List (ℕ × String × String)) (st : DriveSt) (p : String),
    p ∈ todoPaths todo →
    (∀ u ∈ todo, ∃ fin, tr u.2.1 u.2.2 = .ok (some fin) ∧ ¬ (pyStrip fin = "")) →
    ∀ res, driveLoop tr sl tc baseMap todo st = .ok res →
    ∃ fin, dGet res.outDict p = some (JVal.str fin) ∧ ¬ (pyStrip fin = "") := by
  intro todo
  induction todo with
  | nil =>
    intro st p hp
    exact absurd hp (List.not_mem_nil _)
  | cons u todo ih =>
    intro st p hp hsucc res hres
    obtain ⟨fin, htr, hfnb⟩ := hsucc u (List.mem_cons_self u todo)
    simp only [driveLoop, htr] at hres
    by_cases hpt : p ∈ todoPaths todo
    · exact ih _ p hpt (fun w hw => hsucc w (List.mem_cons_of_mem u hw)) res hres
    · have hup : u.2.1 = p := by
        unfold todoPaths at hp
        rcases List.mem_map.mp hp with ⟨w, hw, hwp⟩
        rcases List.mem_cons.mp hw with h | h
        · rw [h] at hwp
          exact hwp
        · exact absurd (List.mem_map.mpr ⟨w, h, hwp⟩) hpt
      refine ⟨fin, ?_, hfnb⟩
      rw [drive_out_after tr sl tc baseMap todo _ p (mem_todoPaths_elim todo p hpt) res hres]
      simp only [apply_success]
      rw [← hup]
      exact dGet_dIns_self _ _ _

theorem sel_noop (exm : List (String × JVal)) (terms : List String) (sl tc : String) :
    ∀ (B : List (String × JVal)) (st : SelSt),
    (∀ pv ∈ B, isStr pv.2 = false ∨ incrSkip exm pv.1 = true) →
    B.foldl (selStep false exm terms sl tc) st = st := by
  intro B
  induction B with
  | nil => intro st _; rfl
  | cons e B ih =>
    intro st h
    rw [List.foldl_cons]
    have hstep : selStep false exm terms sl tc st e = st := by
      rcases e with ⟨k, v⟩
      rcases h (k, v) (List.mem_cons_self _ _) with hv | hskip
      · cases v with
        | str val => exact absurd hv (by simp [isStr])
        | num n => rfl
        | jbool b => rfl
        | jnull => rfl
      · cases v with
        | str val =>
          simp only [selStep]
          rw [if_pos ⟨trivial, hskip⟩]
        | num n => rfl
        | jbool b => rfl
        | jnull => rfl
    rw [hstep]
    exact ih st (fun pv hpv => h pv (List.mem_cons_of_mem e hpv))

theorem skeleton_incr_covered (B E : List (String × JVal)) (hB : NodupKeys B)
    (hE : NodupKeys E) (hcov : ∀ pv ∈ B, dHas E pv.1 = true) :
    buildSkeleton false B E = E := by
  rw [skeleton_incr_eq B E hB hE]
  have h1 : B.filter (fun pv => !dHas E pv.1 && !isStr pv.2) = [] := by
    rw [List.filter_eq_nil]
    intro pv hpv
    simp [hcov pv hpv]
  have h2 : B.filter (fun pv => !dHas E pv.1 && isStr pv.2) = [] := by
    rw [List.filter_eq_nil]
    intro pv hpv
    simp [hcov pv hpv]
  rw [h1, h2]
  simp

/-- C4 (confirmed under its implicit preconditions): running the merge
engine a second time in incremental mode with the first run's output as the
existing FlatDict, the same base FlatDict, protected terms and cache, queues
zero paths for translation and returns the first run's output dict (and
cache) unchanged.  The preconditions the source relies on: paths are unique
(as `flatten_json` yields), the empty string is not a protected term, loaded
cache values are non-blank, and every queued unit of the first run
translated successfully to a non-blank string — a failed or blank unit
leaves an empty placeholder that the second run would re-queue. -/
theorem C4_incremental_idempotent (ff1 : Bool) (B E1 : List (String × JVal))
    (cache0 : List (String × String)) (terms : List String) (sl tc : String)
    (tr1 tr2 : String → String → Except String (Option String)) (res1 : DriveSt)
    (hndB : NodupKeys B) (hndE1 : NodupKeys E1)
    (hterms : terms.contains "" = false)
    (hcache0 : ∀ kv ∈ cache0, ¬ (pyStrip kv.2 = ""))
    (htr1 : ∀ p m, ∃ fin, tr1 p m = Except.ok (some fin) ∧ ¬ (pyStrip fin = ""))
    (hrun1 : translateTreeE ff1 B E1 cache0 terms sl tc tr1 = .ok res1) :
    (selection false B res1.outDict res1.cache terms sl tc).todo = [] ∧
    translateTreeE false B res1.outDict res1.cache terms sl tc tr2
      = .ok ⟨res1.outDict, res1.cache, 0, 0⟩ := by
  simp only [translateTreeE] at hrun1
  have hskelnodup : NodupKeys (buildSkeleton ff1 B E1) :=
    skeleton_nodup ff1 B E1 hndB hndE1
  have hsel1nodup : NodupKeys (selection ff1 B E1 cache0 terms sl tc).outDict := by
    unfold selection
    exact sel_out_nodup ff1 (dOf E1) terms sl tc B _ hskelnodup
  have hres1nodup : NodupKeys res1.outDict := by
    refine drive_out_nodup tr1 sl tc (dOf B) _ _ ?_ res1 hrun1
    exact hsel1nodup
  have hcover : ∀ pv ∈ B, dHas res1.outDict pv.1 = true := by
    intro pv hpv
    refine drive_out_has tr1 sl tc (dOf B) _ _ pv.1 ?_ res1 hrun1
    show dHas (selection ff1 B E1 cache0 terms sl tc).outDict pv.1 = true
    unfold selection
    exact sel_out_has ff1 (dOf E1) terms sl tc B _ pv.1
      (skeleton_covers ff1 B E1 hndB hndE1 pv hpv)
  have hleaf : ∀ p val, (p, JVal.str val) ∈ B →
      ∃ s, dGet res1.outDict p = some (JVal.str s) ∧ ¬ (pyStrip s = "") := by
    intro p val hmem
    have hskipinfo : ff1 = false ∧ incrSkip (dOf E1) p = true →
        ∃ s, dGet (buildSkeleton ff1 B E1) p = some (JVal.str s) ∧
          ¬ (pyStrip s = "") := by
      rintro ⟨hff, hsk⟩
      obtain ⟨cur, hcur, hcurnb⟩ := incrSkip_true_elim (dOf E1) p hsk
      rw [dOf_eq_self E1 hndE1] at hcur
      refine ⟨cur, ?_, hcurnb⟩
      rw [hff, skeleton_incr_eq B E1 hndB hndE1, List.append_assoc,
        dGet_append_left E1 _ p (dHas_of_dGet_some E1 p _ hcur)]
      exact hcur
    have hclass := sel_leaf_go ff1 (dOf E1) terms sl tc B
      ⟨buildSkeleton ff1 B E1, cache0, [], 0, [], []⟩ p val hndB hmem hterms
      hcache0 (List.not_mem_nil p) hskipinfo
    rcases hclass with ⟨s, hs, hsnb, hsnotodo⟩ | hqueue
    · refine ⟨s, ?_, hsnb⟩
      rw [drive_out_after tr1 sl tc (dOf B) _ _ p
        (mem_todoPaths_elim _ p hsnotodo) res1 hrun1]
      exact hs
    · refine drive_out_written tr1 sl tc (dOf B) _ _ p hqueue ?_ res1 hrun1
      intro u hu
      exact htr1 u.2.1 u.2.2
  have hskipall : ∀ pv ∈ B,
      isStr pv.2 = false ∨ incrSkip (dOf res1.outDict) pv.1 = true := by
    intro pv hpv
    rcases pv with ⟨p, v⟩
    cases v with
    | str val =>
      right
      obtain ⟨s, hs, hsnb⟩ := hleaf p val hpv
      simp only [incrSkip]
      rw [dOf_eq_self res1.outDict hres1nodup]
      rw [hs]
      simp [hsnb]
    | num n => left; rfl
    | jbool b => left; rfl
    | jnull => left; rfl
  have hsel2 : selection false B res1.outDict res1.cache terms sl tc
      = ⟨buildSkeleton false B res1.outDict, res1.cache, [], 0, [], []⟩ := by
    unfold selection
    exact sel_noop (dOf res1.outDict) terms sl tc B _ hskipall
  have hskel2 : buildSkeleton false B res1.outDict = res1.outDict :=
    skeleton_incr_covered B res1.outDict hndB hres1nodup hcover
  constructor
  · rw [hsel2]
  · simp only [translateTreeE, hsel2]
    rw [hskel2]
    rfl

theorem C4_incremental_idempotent_witness :
    NodupKeys [(("p" : String), JVal.str "hi")] ∧
    NodupKeys ([] : List (String × JVal)) ∧
    List.contains ([] : List String) "" = false ∧
    (∀ kv ∈ ([] : List (String × String)), ¬ (pyStrip kv.2 = "")) ∧
    (∀ p m : String, ∃ fin,
      (fun (_ _ : String) => (Except.ok (some "bonjour") : Except String (Option String))) p m
        = Except.ok (some fin) ∧ ¬ (pyStrip fin = "")) ∧
    translateTreeE true [(("p" : String), JVal.str "hi")] [] [] [] "Chinese" "en"
      (fun _ _ => Except.ok (some "bonjour"))
      = .ok ⟨[(("p" : String), JVal.str "bonjour")],
          [("Chinese|||en|||hi", "bonjour")], 1, 1⟩ ∧
    (selection false [(("p" : String), JVal.str "hi")]
        [(("p" : String), JVal.str "bonjour")] [("Chinese|||en|||hi", "bonjour")]
        [] "Chinese" "en").todo = [] :=
  ⟨by unfold NodupKeys; decide, by unfold NodupKeys; decide, rfl,
    by intro kv hkv; exact absurd hkv (List.not_mem_nil kv),
    fun p m => ⟨"bonjour", rfl, by decide⟩, by rfl,
    (C4_incremental_idempotent true [(("p" : String), JVal.str "hi")] [] [] []
      "Chinese" "en" (fun _ _ => Except.ok (some "bonjour"))
      (fun _ _ => Except.ok none)
      ⟨[(("p" : String), JVal.str "bonjour")],
        [("Chinese|||en|||hi", "bonjour")], 1, 1⟩
      (by unfold NodupKeys; decide) (by unfold NodupKeys; decide) rfl
      (by intro kv hkv; exact absurd hkv (List.not_mem_nil kv))
      (fun p m => ⟨"bonjour", rfl, by decide⟩) (by rfl)).1⟩

/- ===================== Mask and unmask round trip ===================== -/

theorem containsSub_append_drop (x y pat : List Char)
    (h : containsSub (x ++ y) pat = false) : containsSub y pat = false := by
  induction x with
  | nil => exact h
  | cons c x ih =>
    rw [List.cons_append] at h
    unfold containsSub at h
    rcases Bool.or_eq_false_iff.mp h with ⟨-, h2⟩
    exact ih h2

theorem noPH_drop (x y : List Char) (h : noPH (x ++ y)) : noPH y :=
  containsSub_append_drop x y _ h

theorem noPH_cons (c : Char) (l : List Char) (h : noPH (c :: l)) : noPH l :=
  noPH_drop [c] l h

theorem containsSub_intro_PH (u v : List Char) :
    containsSub (u ++ 'P' :: 'H' :: v) ['P', 'H'] = true := by
  induction u with
  | nil =>
    unfold containsSub
    apply Bool.or_eq_true_iff.mpr
    left
    simp [isPrefC]
  | cons c u ih =>
    rw [List.cons_append]
    unfold containsSub
    apply Bool.or_eq_true_iff.mpr
    right
    exact ih

theorem noPH_no_run (l : List Char) (h : noPH l) (u v : List Char)
    (heq : l = u ++ 'P' :: 'H' :: v) : False := by
  unfold noPH at h
  rw [heq, containsSub_intro_PH] at h
  exact Bool.noConfusion h

theorem origM_scan (n : ℕ) : ∀ cs : List Char, cs.length ≤ n → ∀ idx,
    origM (scanPieces cs idx) = cs := by
  induction n with
  | zero =>
    intro cs h idx
    rcases cs with _ | ⟨c, rest⟩
    · rfl
    · simp at h
  | succ n ih =>
    intro cs h idx
    rcases cs with _ | ⟨c, rest⟩
    · rfl
    · simp only [List.length_cons] at h
      rcases hm : matchTok c rest with - | ⟨m, r⟩
      · rw [scanPieces_cons_none c rest idx hm]
        simp only [origM]
        rw [ih rest (by omega) idx]
      · rw [scanPieces_cons_some c rest m r idx hm]
        simp only [origM]
        have hle := matchTok_rest_le c rest (m, r) hm
        rw [ih r (by simp at hle; omega) (idx + 1)]
        exact (matchTok_spec c rest m r hm).2

theorem idxFrom_scan (n : ℕ) : ∀ cs : List Char, cs.length ≤ n → ∀ idx,
    idxFrom idx (scanPieces cs idx) := by
  induction n with
  | zero =>
    intro cs h idx
    rcases cs with _ | ⟨c, rest⟩
    · exact trivial
    · simp at h
  | succ n ih =>
    intro cs h idx
    rcases cs with _ | ⟨c, rest⟩
    · exact trivial
    · simp only [List.length_cons] at h
      rcases hm : matchTok c rest with - | ⟨m, r⟩
      · rw [scanPieces_cons_none c rest idx hm]
        show idxFrom idx (scanPieces rest idx)
        exact ih rest (by omega) idx
      · rw [scanPieces_cons_some c rest m r idx hm]
        have hle := matchTok_rest_le c rest (m, r) hm
        exact ⟨rfl, ih r (by simp at hle; omega) (idx + 1)⟩

theorem digit_ne_underscore (c : Char) (h : isDigitC c = true) : ¬ c = '_' := by
  intro hc
  rw [hc] at h
  exact absurd h (by decide)

theorem digits_prefix_eq : ∀ (a b u v : List Char),
    (∀ c ∈ a, isDigitC c = true) → (∀ c ∈ b, isDigitC c = true) →
    isPrefC (a ++ '_' :: u) (b ++ '_' :: v) = true → a = b := by
  intro a
  induction a with
  | nil =>
    intro b u v _ hb h
    rcases b with _ | ⟨d, b'⟩
    · rfl
    · simp only [List.nil_append, List.cons_append, isPrefC, Bool.and_eq_true,
        decide_eq_true_eq] at h
      have hd := hb d (List.mem_cons_self d b')
      rw [← h.1] at hd
      exact absurd hd (by decide)
  | cons x a' ih =>
    intro b u v ha hb h
    rcases b with _ | ⟨d, b'⟩
    · simp only [List.cons_append, List.nil_append, isPrefC, Bool.and_eq_true,
        decide_eq_true_eq] at h
      have hx := ha x (List.mem_cons_self x a')
      rw [h.1] at hx
      exact absurd hx (by decide)
    · simp only [List.cons_append, isPrefC, Bool.and_eq_true, decide_eq_true_eq] at h
      rw [h.1, ih b' u v (fun c hc => ha c (List.mem_cons_of_mem x hc))
        (fun c hc => hb c (List.mem_cons_of_mem d hc)) h.2]

theorem replaceAll_id (pat rep : List Char) : ∀ l : List Char,
    (∀ a b, l = a ++ b → isPrefC pat b = false) → replaceAll pat rep l = l := by
  intro l
  induction l with
  | nil => intro _; rfl
  | cons c rest ih =>
    intro h
    rw [replaceAll_cons_neg pat rep c rest
      (by rw [h [] (c :: rest) rfl]; exact Bool.noConfusion)]
    rw [ih (fun a b hb => h (c :: a) b (by rw [hb, List.cons_append]))]

theorem replaceAll_walk_pre (pat rep : List Char) : ∀ pre rest : List Char,
    (∀ t, t ≠ [] → t <:+ pre → isPrefC pat (t ++ rest) = false) →
    replaceAll pat rep (pre ++ rest) = pre ++ replaceAll pat rep rest := by
  intro pre
  induction pre with
  | nil => intro rest _; rfl
  | cons c pre ih =>
    intro rest h
    rw [List.cons_append,
      replaceAll_cons_neg pat rep c (pre ++ rest)
        (by rw [show c :: (pre ++ rest) = (c :: pre) ++ rest from rfl,
          h (c :: pre) (by simp) (List.suffix_refl _)]; exact Bool.noConfusion),
      ih rest (fun t ht hsuf => h t ht (hsuf.trans (List.suffix_cons c pre)))]
    simp

theorem isPrefC_cons_false (p c : Char) (ps cs : List Char) (h : ¬ p = c) :
    isPrefC (p :: ps) (c :: cs) = false := by
  show (p = c && isPrefC ps cs) = false
  rw [decide_eq_false h, Bool.false_and]

theorem isPrefC_cons_step (p c : Char) (ps cs : List Char) (h : p = c) :
    isPrefC (p :: ps) (c :: cs) = isPrefC ps cs := by
  show (p = c && isPrefC ps cs) = isPrefC ps cs
  rw [decide_eq_true h, Bool.true_and]

theorem tokChars_eq (n : ℕ) :
    tokChars n = '_' :: ('_' :: ('P' :: ('H' :: (natDigitsC n ++ ['_', '_'])))) := by
  simp [tokChars]

theorem tokChars_append (n : ℕ) (r : List Char) :
    tokChars n ++ r
      = '_' :: ('_' :: ('P' :: ('H' :: (natDigitsC n ++ ('_' :: ('_' :: r)))))) := by
  simp [tokChars]

theorem render_no_PH_start : ∀ (ps : List MPiece) (w : List Char),
    noPH (origM ps) → isPrefC ('P' :: 'H' :: w) (renderM ps) = false := by
  intro ps w h
  rcases ps with _ | ⟨p, rest⟩
  · rfl
  · rcases p with c | ⟨n, o⟩
    · show isPrefC ('P' :: 'H' :: w) (c :: renderM rest) = false
      by_cases hc : ('P' : Char) = c
      · rw [isPrefC_cons_step _ _ _ _ hc]
        rcases rest with _ | ⟨q, rest2⟩
        · rfl
        · rcases q with d | ⟨m, o2⟩
          · show isPrefC ('H' :: w) (d :: renderM rest2) = false
            by_cases hd : ('H' : Char) = d
            · exfalso
              refine noPH_no_run _ h [] (origM rest2) ?_
              simp only [List.nil_append]
              show c :: d :: origM rest2 = 'P' :: 'H' :: origM rest2
              rw [← hc, ← hd]
            · exact isPrefC_cons_false _ _ _ _ hd
          · show isPrefC ('H' :: w) (tokChars m ++ renderM rest2) = false
            rw [tokChars_append m]
            exact isPrefC_cons_false _ _ _ _ (by decide)
      · exact isPrefC_cons_false _ _ _ _ hc
    · show isPrefC ('P' :: 'H' :: w) (tokChars n ++ renderM rest) = false
      rw [tokChars_append n]
      exact isPrefC_cons_false _ _ _ _ (by decide)

theorem render_no_uPH_start : ∀ (ps : List MPiece) (w : List Char),
    noPH (origM ps) → isPrefC ('_' :: 'P' :: 'H' :: w) (renderM ps) = false := by
  intro ps w h
  rcases ps with _ | ⟨p, rest⟩
  · rfl
  · rcases p with c | ⟨n, o⟩
    · show isPrefC ('_' :: 'P' :: 'H' :: w) (c :: renderM rest) = false
      by_cases hc : ('_' : Char) = c
      · rw [isPrefC_cons_step _ _ _ _ hc]
        exact render_no_PH_start rest w (noPH_cons c _ h)
      · exact isPrefC_cons_false _ _ _ _ hc
    · show isPrefC ('_' :: 'P' :: 'H' :: w) (tokChars n ++ renderM rest) = false
      rw [tokChars_append n, isPrefC_cons_step _ _ _ _ rfl]
      exact isPrefC_cons_false _ _ _ _ (by decide)

theorem tok_head_ne (i : ℕ) (c : Char) (r : List Char) (h : ¬ ('_' : Char) = c) :
    isPrefC (tokChars i) (c :: r) = false := by
  rw [tokChars_eq i]
  exact isPrefC_cons_false _ _ _ _ h

theorem tok_kill1 (i : ℕ) (r : List Char)
    (h : isPrefC ('_' :: ('P' :: ('H' :: (natDigitsC i ++ ['_', '_'])))) r = false) :
    isPrefC (tokChars i) ('_' :: r) = false := by
  rw [tokChars_eq i, isPrefC_cons_step _ _ _ _ rfl]
  exact h

theorem tok_kill2 (i : ℕ) (r : List Char)
    (h : isPrefC ('P' :: ('H' :: (natDigitsC i ++ ['_', '_']))) r = false) :
    isPrefC (tokChars i) ('_' :: ('_' :: r)) = false := by
  rw [tokChars_eq i, isPrefC_cons_step _ _ _ _ rfl, isPrefC_cons_step _ _ _ _ rfl]
  exact h

theorem tok_aligned_ne (i n : ℕ) (hne : ¬ i = n) (r : List Char) :
    isPrefC (tokChars i) (tokChars n ++ r) = false := by
  by_contra hcon
  have h : isPrefC (tokChars i) (tokChars n ++ r) = true := by
    revert hcon
    cases isPrefC (tokChars i) (tokChars n ++ r) <;> simp
  rw [tokChars_eq i, tokChars_append n, isPrefC_cons_step _ _ _ _ rfl,
    isPrefC_cons_step _ _ _ _ rfl, isPrefC_cons_step _ _ _ _ rfl,
    isPrefC_cons_step _ _ _ _ rfl] at h
  have heq := digits_prefix_eq (natDigitsC i) (natDigitsC n) ['_'] ('_' :: r)
    (fun c hc => natDigitsC_all_digits i c hc)
    (fun c hc => natDigitsC_all_digits n c hc) h
  exact hne (natDigitsC_inj _ _ heq)

theorem tok_no_shift (i : ℕ) : ∀ (t w : List Char), t ≠ [] → noPH t →
    isPrefC (tokChars i) (t ++ '_' :: ('_' :: ('P' :: ('H' :: w)))) = false := by
  intro t w ht hph
  rcases t with _ | ⟨a, t1⟩
  · exact absurd rfl ht
  rcases t1 with _ | ⟨b, t2⟩
  · by_cases ha : ('_' : Char) = a
    · rw [List.cons_append, List.nil_append, tokChars_eq i,
        isPrefC_cons_step _ _ _ _ ha, isPrefC_cons_step _ _ _ _ rfl]
      exact isPrefC_cons_false _ _ _ _ (by decide)
    · rw [List.cons_append, List.nil_append, tokChars_eq i]
      exact isPrefC_cons_false _ _ _ _ ha
  rcases t2 with _ | ⟨c, t3⟩
  · by_cases ha : ('_' : Char) = a
    · by_cases hb2 : ('_' : Char) = b
      · rw [show [a, b] ++ '_' :: ('_' :: ('P' :: ('H' :: w)))
            = a :: (b :: ('_' :: ('_' :: ('P' :: ('H' :: w))))) from rfl,
          tokChars_eq i, isPrefC_cons_step _ _ _ _ ha, isPrefC_cons_step _ _ _ _ hb2]
        exact isPrefC_cons_false _ _ _ _ (by decide)
      · rw [show [a, b] ++ '_' :: ('_' :: ('P' :: ('H' :: w)))
            = a :: (b :: ('_' :: ('_' :: ('P' :: ('H' :: w))))) from rfl,
          tokChars_eq i, isPrefC_cons_step _ _ _ _ ha]
        exact isPrefC_cons_false _ _ _ _ hb2
    · rw [show [a, b] ++ '_' :: ('_' :: ('P' :: ('H' :: w)))
          = a :: (b :: ('_' :: ('_' :: ('P' :: ('H' :: w))))) from rfl, tokChars_eq i]
      exact isPrefC_cons_false _ _ _ _ ha
  rcases t3 with _ | ⟨d, t4⟩
  · have hshape : [a, b, c] ++ '_' :: ('_' :: ('P' :: ('H' :: w)))
        = a :: (b :: (c :: ('_' :: ('_' :: ('P' :: ('H' :: w)))))) := rfl
    rw [hshape, tokChars_eq i]
    by_cases ha : ('_' : Char) = a
    · rw [isPrefC_cons_step _ _ _ _ ha]
      by_cases hb2 : ('_' : Char) = b
      · rw [isPrefC_cons_step _ _ _ _ hb2]
        by_cases hc : ('P' : Char) = c
        · rw [isPrefC_cons_step _ _ _ _ hc]
          exact isPrefC_cons_false _ _ _ _ (by decide)
        · exact isPrefC_cons_false _ _ _ _ hc
      · exact isPrefC_cons_false _ _ _ _ hb2
    · exact isPrefC_cons_false _ _ _ _ ha
  · have hshape : (a :: b :: c :: d :: t4) ++ '_' :: ('_' :: ('P' :: ('H' :: w)))
        = a :: (b :: (c :: (d :: (t4 ++ '_' :: ('_' :: ('P' :: ('H' :: w))))))) := by
      simp
    rw [hshape, tokChars_eq i]
    by_cases ha : ('_' : Char) = a
    · rw [isPrefC_cons_step _ _ _ _ ha]
      by_cases hb2 : ('_' : Char) = b
      · rw [isPrefC_cons_step _ _ _ _ hb2]
        by_cases hc : ('P' : Char) = c
        · rw [isPrefC_cons_step _ _ _ _ hc]
          by_cases hd : ('H' : Char) = d
          · exfalso
            refine noPH_no_run (a :: b :: c :: d :: t4) hph [a, b] t4 ?_
            show a :: b :: c :: d :: t4 = a :: (b :: ('P' :: ('H' :: t4)))
            rw [← hc, ← hd]
          · exact isPrefC_cons_false _ _ _ _ hd
        · exact isPrefC_cons_false _ _ _ _ hc
      · exact isPrefC_cons_false _ _ _ _ hb2
    · exact isPrefC_cons_false _ _ _ _ ha

theorem noOcc_render (i : ℕ) : ∀ (ps : List MPiece) (j : ℕ),
    idxFrom j ps → i < j → noPH (origM ps) →
    ∀ a b, renderM ps = a ++ b → isPrefC (tokChars i) b = false := by
  intro ps
  induction ps with
  | nil =>
    intro j _ _ _ a b heq
    have hb : b = [] := (List.append_eq_nil.mp heq.symm).2
    rw [hb, tokChars_eq i]
    rfl
  | cons p rest ih =>
    intro j hidx hij hph a b heq
    rcases p with c | ⟨n, o⟩
    · rcases a with _ | ⟨x, a'⟩
      · simp only [List.nil_append] at heq
        rw [← heq]
        show isPrefC (tokChars i) (c :: renderM rest) = false
        by_cases hc : ('_' : Char) = c
        · rw [← hc]
          exact tok_kill1 i _ (render_no_uPH_start rest _ (noPH_cons c _ hph))
        · exact tok_head_ne i c _ hc
      · have h2 : renderM rest = a' ++ b := by
          have heq2 : c :: renderM rest = x :: (a' ++ b) := by
            rw [← List.cons_append]
            exact heq
          exact (List.cons.injEq _ _ _ _ ▸ heq2).2
        exact ih j hidx hij (noPH_cons c _ hph) a' b h2
    · obtain ⟨hn, hidx2⟩ := hidx
      subst hn
      have hphrest : noPH (origM rest) := noPH_drop o _ hph
      have hmain : tokChars n ++ renderM rest = a ++ b := heq
      rcases List.append_eq_append_iff.mp hmain.symm with ⟨t, ht, hb⟩ | ⟨c', hc', hb⟩
      · -- a ++ t = tokChars n, b = t ++ renderM rest
        rw [hb]
        rw [tokChars_eq n] at ht
        rcases a with _ | ⟨x1, a1⟩
        · simp only [List.nil_append] at ht
          rw [← ht, ← tokChars_eq n]
          exact tok_aligned_ne i n (by omega) (renderM rest)
        rcases a1 with _ | ⟨x2, a2⟩
        · simp only [List.cons_append, List.nil_append, List.cons.injEq] at ht
          rw [← ht.2]
          simp only [List.cons_append]
          rw [tokChars_eq i, isPrefC_cons_step _ _ _ _ rfl]
          exact isPrefC_cons_false _ _ _ _ (by decide)
        rcases a2 with _ | ⟨x3, a3⟩
        · simp only [List.cons_append, List.nil_append, List.cons.injEq] at ht
          rw [← ht.2.2]
          simp only [List.cons_append]
          rw [tokChars_eq i]
          exact isPrefC_cons_false _ _ _ _ (by decide)
        rcases a3 with _ | ⟨x4, a4⟩
        · simp only [List.cons_append, List.nil_append, List.cons.injEq] at ht
          rw [← ht.2.2.2]
          simp only [List.cons_append]
          rw [tokChars_eq i]
          exact isPrefC_cons_false _ _ _ _ (by decide)
        · simp only [List.cons_append, List.cons.injEq] at ht
          have hdt : a4 ++ t = natDigitsC n ++ ['_', '_'] := ht.2.2.2.2.symm
          rcases List.append_eq_append_iff.mp hdt with ⟨u, hu, htu⟩ | ⟨u, hu, htu⟩
          · -- natDigitsC n = a4 ++ u, t = u ++ ['_','_']
            rcases u with _ | ⟨d, u'⟩
            · rw [htu]
              show isPrefC (tokChars i) ('_' :: ('_' :: renderM rest)) = false
              exact tok_kill2 i _ (render_no_PH_start rest _ hphrest)
            · rw [htu]
              have hd : isDigitC d = true := by
                refine natDigitsC_all_digits n d ?_
                rw [hu]
                exact List.mem_append_right a4 (List.mem_cons_self d u')
              rw [List.cons_append]
              exact tok_head_ne i d _ (fun hh => digit_ne_underscore d hd hh.symm)
          · -- a4 = natDigitsC n ++ u, ['_','_'] = u ++ t
            rcases u with _ | ⟨y1, u1⟩
            · simp only [List.nil_append] at htu
              rw [← htu]
              show isPrefC (tokChars i) ('_' :: ('_' :: renderM rest)) = false
              exact tok_kill2 i _ (render_no_PH_start rest _ hphrest)
            rcases u1 with _ | ⟨y2, u2⟩
            · simp only [List.cons_append, List.nil_append, List.cons.injEq] at htu
              rw [← htu.2]
              show isPrefC (tokChars i) ('_' :: renderM rest) = false
              exact tok_kill1 i _ (render_no_uPH_start rest _ hphrest)
            rcases u2 with _ | ⟨y3, u3⟩
            · simp only [List.cons_append, List.nil_append, List.cons.injEq] at htu
              have ht0 : t = [] := htu.2.2.symm
              rw [ht0, List.nil_append]
              exact ih (n + 1) hidx2 (by omega) hphrest [] (renderM rest)
                (by simp)
            · simp only [List.cons_append, List.cons.injEq] at htu
              exact absurd htu.2.2 (by simp)
      · -- a = tokChars n ++ c', renderM rest = c' ++ b
        exact ih (n + 1) hidx2 (by omega) hphrest c' b hb

theorem isPrefC_extend (pat l y : List Char) (h : isPrefC pat l = true) :
    isPrefC pat (l ++ y) = true := by
  rw [isPrefC_iff_append] at h ⊢
  obtain ⟨t, rfl⟩ := h
  exact ⟨t ++ y, by simp⟩

theorem containsSub_nil_pat (y : List Char) : containsSub y [] = true := by
  cases y with
  | nil => rfl
  | cons c rest => simp [containsSub, isPrefC]

theorem containsSub_mono_left (x y pat : List Char)
    (h : containsSub x pat = true) : containsSub (x ++ y) pat = true := by
  induction x with
  | nil =>
    unfold containsSub at h
    rcases pat with _ | ⟨p, ps⟩
    · rw [List.nil_append]
      exact containsSub_nil_pat y
    · exact Bool.noConfusion h
  | cons c x ih =>
    rw [List.cons_append]
    unfold containsSub at h ⊢
    rcases Bool.or_eq_true_iff.mp h with h1 | h2
    · apply Bool.or_eq_true_iff.mpr
      left
      rw [← List.cons_append]
      exact isPrefC_extend pat (c :: x) y h1
    · exact Bool.or_eq_true_iff.mpr (Or.inr (ih h2))

theorem noPH_take (x y : List Char) (h : noPH (x ++ y)) : noPH x := by
  unfold noPH at h ⊢
  by_contra hc
  have hx : containsSub x ['P', 'H'] = true := by
    revert hc
    cases containsSub x ['P', 'H'] <;> simp
  rw [containsSub_mono_left x y _ hx] at h
  exact Bool.noConfusion h

theorem unmaskFold : ∀ (ps : List MPiece) (pre : List Char) (i : ℕ),
    idxFrom i ps → noPH (pre ++ origM ps) →
    List.foldl (fun (acc : List Char) (kv : String × String) =>
        replaceAll kv.1.data kv.2.data acc) (pre ++ renderM ps) (mappingM ps)
      = pre ++ origM ps := by
  intro ps
  induction ps with
  | nil => intro pre i _ _; rfl
  | cons p rest ih =>
    intro pre i hidx hph
    rcases p with c | ⟨n, o⟩
    · show List.foldl _ (pre ++ (c :: renderM rest)) (mappingM rest)
        = pre ++ (c :: origM rest)
      have h1 : pre ++ (c :: renderM rest) = (pre ++ [c]) ++ renderM rest := by simp
      have h2 : pre ++ (c :: origM rest) = (pre ++ [c]) ++ origM rest := by simp
      rw [h1, h2]
      exact ih (pre ++ [c]) i hidx (h2 ▸ hph)
    · obtain ⟨hn, hidx2⟩ := hidx
      subst hn
      have hph' : noPH (pre ++ (o ++ origM rest)) := hph
      have hphrest : noPH (origM rest) := noPH_drop (pre ++ o) _
        (by rw [List.append_assoc]; exact hph')
      have hpre : noPH pre := noPH_take pre _ hph'
      rw [show mappingM (.ph n o :: rest)
        = ((⟨tokChars n⟩ : String), (⟨o⟩ : String)) :: mappingM rest from rfl]
      rw [List.foldl_cons]
      have hstep : replaceAll (tokChars n) o (pre ++ renderM (.ph n o :: rest))
          = (pre ++ o) ++ renderM rest := by
        show replaceAll (tokChars n) o (pre ++ (tokChars n ++ renderM rest))
          = (pre ++ o) ++ renderM rest
        rw [replaceAll_walk_pre (tokChars n) o pre (tokChars n ++ renderM rest) ?hks]
        · rw [replaceAll_append_head (tokChars n) o (renderM rest)
            (by rw [tokChars_eq n]; exact List.cons_ne_nil _ _)]
          rw [replaceAll_id (tokChars n) o (renderM rest)
            (fun a b hab => noOcc_render n rest (n + 1) hidx2 (by omega) hphrest a b hab)]
          simp
        case hks =>
          intro t ht hsuf
          rw [tokChars_append n]
          obtain ⟨u, hu⟩ := hsuf
          exact tok_no_shift n t _ ht (noPH_drop u t (hu ▸ hpre))
      show List.foldl _ (replaceAll (tokChars n) o (pre ++ renderM (.ph n o :: rest)))
        (mappingM rest) = pre ++ (o ++ origM rest)
      rw [hstep, ih (pre ++ o) (n + 1) hidx2
        (by rw [List.append_assoc]; exact hph'), List.append_assoc]

theorem unmask_data_fold : ∀ (mp : List (String × String)) (t : String),
    (unmask_placeholders t mp).data
      = List.foldl (fun (acc : List Char) (kv : String × String) =>
          replaceAll kv.1.data kv.2.data acc) t.data mp := by
  intro mp
  induction mp with
  | nil => intro t; rfl
  | cons kv mp ih =>
    intro t
    show (unmask_placeholders ⟨replaceAll kv.1.data kv.2.data t.data⟩ mp).data = _
    rw [ih ⟨replaceAll kv.1.data kv.2.data t.data⟩, List.foldl_cons]

/-- C5 (amended): masking then unmasking restores the source string — hence
placeholder-extraction parity — whenever the source does not itself contain
the two-character run `PH` that the `__PH<n>__` masking tokens are built
from.  (A source containing `PH` can collide with a masking token, which
literal `str.replace` then rewrites at both places: the separate
counterexample.) -/
theorem C5_mask_roundtrip (s : String)
    (h : containsSub s.data ['P', 'H'] = false) :
    unmask_placeholders (mask_placeholders s).1 (mask_placeholders s).2 = s ∧
    extract_placeholders (unmask_placeholders (mask_placeholders s).1
        (mask_placeholders s).2) = extract_placeholders s := by
  have horig : origM (scanPieces s.data 0) = s.data :=
    origM_scan s.data.length s.data (le_refl _) 0
  have hidx : idxFrom 0 (scanPieces s.data 0) :=
    idxFrom_scan s.data.length s.data (le_refl _) 0
  have hdata : (unmask_placeholders (mask_placeholders s).1
      (mask_placeholders s).2).data = s.data := by
    show (unmask_placeholders (⟨renderM (scanPieces s.data 0)⟩ : String)
      (mappingM (scanPieces s.data 0))).data = s.data
    rw [unmask_data_fold]
    have hkey := unmaskFold (scanPieces s.data 0) [] 0 hidx
      (by simp only [List.nil_append]; rw [horig]; exact h)
    simp only [List.nil_append] at hkey
    rw [horig] at hkey
    exact hkey
  have hs : unmask_placeholders (mask_placeholders s).1 (mask_placeholders s).2 = s :=
    congrArg String.mk hdata
  exact ⟨hs, by rw [hs]⟩

theorem C5_mask_roundtrip_witness :
    containsSub ("a \x7bname\x7d b").data ['P', 'H'] = false ∧
    unmask_placeholders (mask_placeholders "a \x7bname\x7d b").1
        (mask_placeholders "a \x7bname\x7d b").2 = "a \x7bname\x7d b" :=
  ⟨by decide, (C5_mask_roundtrip "a \x7bname\x7d b" (by decide)).1⟩

/-- C5, the failing part: a source that already contains the text of a
masking token.  `"__PH0__\x7bx\x7d"` has one placeholder, `"\x7bx\x7d"`; the
regex match is replaced by the token `__PH0__`, so the masked text is
`"__PH0____PH0__"`, and unmasking substitutes the recorded original at both
occurrences, yielding `"\x7bx\x7d\x7bx\x7d"` with two placeholders. -/
theorem C5_counterexample :
    extract_placeholders "__PH0__\x7bx\x7d" = ["\x7bx\x7d"] ∧
    unmask_placeholders (mask_placeholders "__PH0__\x7bx\x7d").1
        (mask_placeholders "__PH0__\x7bx\x7d").2 = "\x7bx\x7d\x7bx\x7d" ∧
    extract_placeholders (unmask_placeholders (mask_placeholders "__PH0__\x7bx\x7d").1
        (mask_placeholders "__PH0__\x7bx\x7d").2)
      = ["\x7bx\x7d", "\x7bx\x7d"] := by
  refine ⟨?_, ?_, ?_⟩ <;> rfl

/- ===================== Repair pass token parity ===================== -/

theorem litCharsF_fuel :
    ∀ fuel fuel' cs, cs.length ≤ fuel → cs.length ≤ fuel' →
      litCharsF fuel cs = litCharsF fuel' cs := by
  intro fuel
  induction fuel with
  | zero =>
    intro fuel' cs h _
    rcases cs with _ | ⟨c, rest⟩
    · cases fuel' <;> rfl
    · simp at h
  | succ f ih =>
    intro fuel' cs h h'
    rcases cs with _ | ⟨c, rest⟩
    · cases fuel' <;> rfl
    · rcases fuel' with _ | f'
      · simp at h'
      · simp only [List.length_cons] at h h'
        rcases hm : matchTok c rest with - | mr
        · rw [litCharsF, litCharsF, hm]
          show c :: litCharsF f rest = c :: litCharsF f' rest
          rw [ih f' rest (by omega) (by omega)]
        · have hle := matchTok_rest_le _ _ _ hm
          rw [litCharsF, litCharsF, hm]
          exact ih f' mr.2 (by omega) (by omega)

theorem litChars_cons_some (c : Char) (rest m r : List Char)
    (h : matchTok c rest = some (m, r)) :
    litChars (c :: rest) = litChars r := by
  unfold litChars
  simp only [List.length_cons]
  rw [litCharsF, h]
  have hle := matchTok_rest_le _ _ _ h
  exact litCharsF_fuel rest.length r.length r (by simpa using hle) (le_refl _)

theorem litChars_cons_none (c : Char) (rest : List Char)
    (h : matchTok c rest = none) :
    litChars (c :: rest) = c :: litChars rest := by
  unfold litChars
  simp only [List.length_cons]
  rw [litCharsF, h]

theorem matchTok_none_other (c : Char) (r : List Char)
    (h : ¬ (c = '%' ∨ c = '\x7b' ∨ c = '<')) : matchTok c r = none := by
  unfold matchTok
  rw [if_neg (fun hh => h (Or.inl hh)), if_neg (fun hh => h (Or.inr (Or.inl hh))),
    if_neg (fun hh => h (Or.inr (Or.inr hh)))]

theorem span_take {β : Type} (p : β → Bool) : ∀ (ds : List β) (x : β) (r : List β),
    (∀ c ∈ ds, p c = true) → p x = false →
    (ds ++ x :: r).takeWhile p = ds := by
  intro ds
  induction ds with
  | nil =>
    intro x r _ hx
    rw [List.nil_append, List.takeWhile_cons_of_neg (by simp [hx])]
  | cons d ds ih =>
    intro x r hds hx
    rw [List.cons_append,
      List.takeWhile_cons_of_pos (hds d (List.mem_cons_self d ds)),
      ih x r (fun c hc => hds c (List.mem_cons_of_mem d hc)) hx]

theorem span_drop {β : Type} (p : β → Bool) : ∀ (ds : List β) (x : β) (r : List β),
    (∀ c ∈ ds, p c = true) → p x = false →
    (ds ++ x :: r).dropWhile p = x :: r := by
  intro ds
  induction ds with
  | nil =>
    intro x r _ hx
    rw [List.nil_append, List.dropWhile_cons_of_neg (by simp [hx])]
  | cons d ds ih =>
    intro x r hds hx
    rw [List.cons_append,
      List.dropWhile_cons_of_pos (hds d (List.mem_cons_self d ds)),
      ih x r (fun c hc => hds c (List.mem_cons_of_mem d hc)) hx]

theorem braceAlt4_exact (inner r : List Char) (hne : inner ≠ [])
    (hnb : ∀ c ∈ inner, nonBrace c = true) :
    braceAlt4 ((inner ++ ['\x7d']) ++ r)
      = some ('\x7b' :: inner ++ ['\x7d'], r) := by
  have hsplit : (inner ++ ['\x7d']) ++ r = inner ++ '\x7d' :: r := by simp
  have hdrop : ((inner ++ ['\x7d']) ++ r).dropWhile nonBrace = '\x7d' :: r := by
    rw [hsplit]
    exact span_drop nonBrace inner '\x7d' r hnb (by decide)
  have htake : ((inner ++ ['\x7d']) ++ r).takeWhile nonBrace = inner := by
    rw [hsplit]
    exact span_take nonBrace inner '\x7d' r hnb (by decide)
  unfold braceAlt4
  rw [hdrop]
  show (if ((inner ++ ['\x7d']) ++ r).takeWhile nonBrace ≠ [] then
    some ('\x7b' :: ((inner ++ ['\x7d']) ++ r).takeWhile nonBrace ++ ['\x7d'], r)
    else none) = some ('\x7b' :: inner ++ ['\x7d'], r)
  rw [htake, if_pos hne]

theorem selfDelim_brace (inner : List Char) (hne : inner ≠ [])
    (hnb : ∀ c ∈ inner, nonBrace c = true) :
    SelfDelim ('\x7b' :: (inner ++ ['\x7d'])) := by
  show ∀ r : List Char,
    matchTok '\x7b' ((inner ++ ['\x7d']) ++ r) = some ('\x7b' :: (inner ++ ['\x7d']), r)
  intro r
  unfold matchTok
  rw [if_neg (by decide), if_pos rfl, braceAlt4_exact inner r hne hnb]
  rfl

theorem repair_extract (n : ℕ) : ∀ cs : List Char, cs.length ≤ n →
    ∀ phs : List (List Char),
    (extractM cs).length = phs.length →
    (∀ p ∈ phs, SelfDelim p) →
    (∀ c ∈ litChars cs, ¬ (c = '%' ∨ c = '\x7b' ∨ c = '<')) →
    extractM (repairScan cs phs) = phs := by
  induction n with
  | zero =>
    intro cs h phs hcount _ _
    rcases cs with _ | ⟨c, rest⟩
    · rcases phs with _ | ⟨p, phs'⟩
      · rfl
      · simp [extractM_nil] at hcount
    · simp at h
  | succ n ih =>
    intro cs h phs hcount hself hlit
    rcases cs with _ | ⟨c, rest⟩
    · rcases phs with _ | ⟨p, phs'⟩
      · rfl
      · simp [extractM_nil] at hcount
    · simp only [List.length_cons] at h
      rcases hm : matchTok c rest with - | ⟨m, r⟩
      · rw [repairScan_cons_none c rest phs hm]
        have hlit' := hlit
        rw [litChars_cons_none c rest hm] at hlit'
        have hc : ¬ (c = '%' ∨ c = '\x7b' ∨ c = '<') :=
          hlit' c (List.mem_cons_self c _)
        rw [extractM_cons_none c (repairScan rest phs)
          (matchTok_none_other c _ hc)]
        refine ih rest (by omega) phs ?_ hself ?_
        · rw [extractM_cons_none c rest hm] at hcount
          exact hcount
        · intro d hd
          exact hlit' d (List.mem_cons_of_mem c hd)
      · rcases phs with _ | ⟨p, phs'⟩
        · rw [extractM_cons_some c rest m r hm] at hcount
          simp at hcount
        · rw [repairScan_cons_some c rest m r (p :: phs') hm]
          have hsd := hself p (List.mem_cons_self p phs')
          rcases p with _ | ⟨cp, pb⟩
          · exact (hsd : False).elim
          · have hmt := hsd (repairScan r phs')
            show extractM ((cp :: pb) ++ repairScan r phs') = (cp :: pb) :: phs'
            rw [show (cp :: pb) ++ repairScan r phs' = cp :: (pb ++ repairScan r phs')
              from rfl]
            rw [extractM_cons_some cp (pb ++ repairScan r phs') (cp :: pb)
              (repairScan r phs') hmt]
            have hle := matchTok_rest_le c rest (m, r) hm
            refine congrArg (List.cons (cp :: pb)) (ih r ?_ phs' ?_ ?_ ?_)
            · simp only at hle
              omega
            · rw [extractM_cons_some c rest m r hm] at hcount
              simpa using hcount
            · intro q hq
              exact hself q (List.mem_cons_of_mem _ hq)
            · intro d hd
              refine hlit d ?_
              rw [litChars_cons_some c rest m r hm]
              exact hd

/-- C6 (amended): when the repair pass fires — the source has placeholders
and the target's extracted list differs — it achieves token parity provided
the target has exactly as many placeholder matches as the source (the pass
only rewrites existing matches, it cannot add or remove any), every literal
character of the target is outside `%`, `\x7b`, `<` (so a substituted
placeholder cannot merge with neighbouring text into a new match), and each
source placeholder is self-delimiting (matches exactly itself in any
context). -/
theorem C6_repair_token_parity (src tgt : String)
    (h1 : ¬ (extract_placeholders src = []))
    (h2 : placeholders_equal src tgt = false)
    (hcount : (extractM tgt.data).length
      = ((extract_placeholders src).map String.data).length)
    (hself : ∀ p ∈ (extract_placeholders src).map String.data, SelfDelim p)
    (hclean : ∀ c ∈ litChars tgt.data, ¬ (c = '%' ∨ c = '\x7b' ∨ c = '<')) :
    extract_placeholders
        (⟨repairScan tgt.data ((extract_placeholders src).map String.data)⟩ : String)
      = extract_placeholders src := by
  have hmk : ∀ l : List String, l.map (fun s => (⟨s.data⟩ : String)) = l := by
    intro l
    induction l with
    | nil => rfl
    | cons s l ih => rw [List.map_cons, ih]
  show (extractM (repairScan tgt.data ((extract_placeholders src).map String.data))).map
      (fun m => (⟨m⟩ : String)) = extract_placeholders src
  rw [repair_extract tgt.data.length tgt.data (le_refl _)
    ((extract_placeholders src).map String.data) hcount hself hclean,
    List.map_map]
  exact hmk (extract_placeholders src)

theorem C6_repair_token_parity_witness :
    ¬ (extract_placeholders "a \x7bn\x7d" = []) ∧
    placeholders_equal "a \x7bn\x7d" "<t> y" = false ∧
    (extractM ("<t> y").data).length
      = ((extract_placeholders "a \x7bn\x7d").map String.data).length ∧
    (∀ c ∈ litChars ("<t> y").data, ¬ (c = '%' ∨ c = '\x7b' ∨ c = '<')) ∧
    extract_placeholders
        (⟨repairScan ("<t> y").data
          ((extract_placeholders "a \x7bn\x7d").map String.data)⟩ : String)
      = extract_placeholders "a \x7bn\x7d" :=
  ⟨by decide, by rfl, by rfl, by decide,
    C6_repair_token_parity "a \x7bn\x7d" "<t> y" (by decide) (by rfl) (by rfl)
      (by
        intro p hp
        rw [show (extract_placeholders "a \x7bn\x7d").map String.data
          = [['\x7b', 'n', '\x7d']] from rfl] at hp
        rw [List.mem_singleton.mp hp]
        exact selfDelim_brace ['n'] (by decide) (by decide))
      (by decide)⟩

/-- C6, the failing part: the repair pass only rewrites placeholder matches
already present in the translated string — it cannot insert missing ones.
With source `"\x7bb\x7d"` (one placeholder) and translation `"x"` (none),
the pass fires but leaves `"x"` unchanged, and extraction still yields `[]`
rather than the source's list. -/
theorem C6_counterexample :
    ¬ (extract_placeholders "\x7bb\x7d" = []) ∧
    placeholders_equal "\x7bb\x7d" "x" = false ∧
    (⟨repairScan ("x").data ((extract_placeholders "\x7bb\x7d").map String.data)⟩
      : String) = "x" ∧
    extract_placeholders "x" = [] := by
  refine ⟨by decide, by rfl, by rfl, by rfl⟩

end I18n
